import Mathlib

/-!
# Memory palace: retention simulator, Markdown exchange, levels, streaks, palaces, links

A shallow embedding of seven parts of `plugins/memory-palace-red-queen`:

* `SpacedRepetition`: `evolutions/hypothesis-002-spaced-repetition/algorithms.js` and
  the statistics of `stress-test-spaced-repetition.js`;
* `ExportImport`: the Markdown pair of `features/export-import/manager.js`;
* `Gamification`: the levels, achievements and `awardXP` of
  `features/gamification/gamified.js`;
* `Utility`: `calculateStreak` of `features/gamification/utility.js`;
* `PalaceSize`: `WorkingMemory` and `PALACES` of
  `evolutions/hypothesis-003-palace-size/stress-test-enhanced.js`;
* `Hooks`: `InterruptionBudget` of `evolutions/hypothesis-001-hooks/automated-system.js`;
* `CrossPalace`: `CrossPalaceLinker` of `features/cross-palace/linker.js`.

The definitions of all parts come first, the theorems follow.

Modelling conventions.

* A JavaScript number is a `JSNum`: `NaN`, `-Infinity`, `+Infinity` or a finite value.
  Finite values are rationals and finite arithmetic is exact: rounding, overflow and
  the sign of zero are abstracted, while division by zero and the propagation of `NaN`
  and of the infinities follow IEEE 754 as JavaScript does.
* `Math.exp` is a library function; on finite arguments it is the parameter
  `mathExp : ℚ → ℚ`, on the special values it is fixed by the language.
* The statistics of the stress test and the progress percentage of the gamification
  engine are computed in double precision: every operation rounds its exact result to
  the nearest double, and `Math.sqrt` is the correctly rounded square root.
* Every call of `Math.random()` is an explicit argument holding the value drawn.
* An object property that may be absent is an `Option`; simulation days are integers,
  review counts are natural numbers and calendar timestamps are day numbers.
-/

namespace SpacedRepetition

/-! ## JavaScript numbers -/

/-- A JavaScript number with exact finite arithmetic. -/
inductive JSNum where
  | nan : JSNum
  | ninf : JSNum
  | fin (q : ℚ) : JSNum
  | pinf : JSNum
  deriving DecidableEq

namespace JSNum

/-- Unary minus. -/
def neg : JSNum → JSNum
  | nan => nan
  | ninf => pinf
  | fin q => fin (-q)
  | pinf => ninf

/-- The operator `+`. -/
def add : JSNum → JSNum → JSNum
  | nan, _ => nan
  | _, nan => nan
  | pinf, ninf => nan
  | ninf, pinf => nan
  | pinf, _ => pinf
  | _, pinf => pinf
  | ninf, _ => ninf
  | _, ninf => ninf
  | fin a, fin b => fin (a + b)

/-- The operator `-`. -/
def sub (x y : JSNum) : JSNum := add x (neg y)

/-- An infinity times, or divided by, a finite value of the given sign. -/
def scaleInf (positive : Bool) (q : ℚ) : JSNum :=
  if q = 0 then nan
  else if (0 < q) = positive then pinf else ninf

/-- The operator `*`. -/
def mul : JSNum → JSNum → JSNum
  | nan, _ => nan
  | _, nan => nan
  | pinf, pinf => pinf
  | ninf, ninf => pinf
  | pinf, ninf => ninf
  | ninf, pinf => ninf
  | pinf, fin q => scaleInf true q
  | fin q, pinf => scaleInf true q
  | ninf, fin q => scaleInf false q
  | fin q, ninf => scaleInf false q
  | fin a, fin b => fin (a * b)

/-- The operator `/`; a zero divisor is the positive zero. -/
def div : JSNum → JSNum → JSNum
  | nan, _ => nan
  | _, nan => nan
  | pinf, pinf => nan
  | pinf, ninf => nan
  | ninf, pinf => nan
  | ninf, ninf => nan
  | pinf, fin q => if 0 ≤ q then pinf else ninf
  | ninf, fin q => if 0 ≤ q then ninf else pinf
  | fin _, pinf => fin 0
  | fin _, ninf => fin 0
  | fin a, fin b =>
      if b = 0 then
        (if a = 0 then nan else if 0 < a then pinf else ninf)
      else fin (a / b)

/-- The function `Math.max` of two arguments. -/
def max : JSNum → JSNum → JSNum
  | nan, _ => nan
  | _, nan => nan
  | pinf, _ => pinf
  | _, pinf => pinf
  | ninf, y => y
  | x, ninf => x
  | fin a, fin b => fin (Max.max a b)

/-- The function `Math.min` of two arguments. -/
def min : JSNum → JSNum → JSNum
  | nan, _ => nan
  | _, nan => nan
  | ninf, _ => ninf
  | _, ninf => ninf
  | pinf, y => y
  | x, pinf => x
  | fin a, fin b => fin (Min.min a b)

/-- The function `Math.exp`, given its values on finite arguments. -/
def exp (mathExp : ℚ → ℚ) : JSNum → JSNum
  | nan => nan
  | ninf => fin 0
  | fin q => fin (mathExp q)
  | pinf => pinf

/-- The comparison `x <= y`, false when either side is `NaN`. -/
def le : JSNum → JSNum → Bool
  | nan, _ => false
  | _, nan => false
  | ninf, _ => true
  | _, pinf => true
  | pinf, _ => false
  | _, ninf => false
  | fin a, fin b => decide (a ≤ b)

/-- The comparison `x < y`, false when either side is `NaN`. -/
def lt : JSNum → JSNum → Bool
  | nan, _ => false
  | _, nan => false
  | pinf, _ => false
  | _, ninf => false
  | ninf, _ => true
  | _, pinf => true
  | fin a, fin b => decide (a < b)

end JSNum

/-! ## Interval tables -/

/-- Implementation A, `getFibonacciIntervals()`. -/
def getFibonacciIntervals : List ℕ :=
  [1, 2, 3, 5, 8, 13, 21, 34, 55, 89, 144, 233]

/-- Implementation B, `getExponentialIntervals()`. -/
def getExponentialIntervals : List ℕ :=
  [1, 3, 7, 14, 30, 60, 120, 240, 480]

/-! ## Memory records -/

/-- The idiom `x || d` on a numeric property that may be absent: `d` replaces an absent
value and the value zero. -/
def orDefault {α : Type} [Zero α] [DecidableEq α] (x : Option α) (d : α) : α :=
  match x with
  | some v => if v = 0 then d else v
  | none => d

/-- An entry of `reviewHistory`. -/
structure HistoryEntry where
  day : ℤ
  success : Bool
  confidence : ℚ
  deriving DecidableEq

/-- A memory object, with the properties that `algorithms.js` reads or writes. -/
structure Memory where
  id : Option String
  created : Option ℤ
  lastRecalled : Option ℤ
  baseStrength : Option ℚ
  reviewCount : Option ℕ
  reviewHistory : Option (List HistoryEntry)
  difficulty : Option ℚ
  algorithm : Option String
  lastReviewDay : Option ℤ
  nextReviewDay : Option ℤ
  deriving DecidableEq

/-- The empty object `{}`: every property absent. -/
def Memory.empty : Memory :=
  { id := none, created := none, lastRecalled := none, baseStrength := none
    reviewCount := none, reviewHistory := none, difficulty := none, algorithm := none
    lastReviewDay := none, nextReviewDay := none }

/-- The object returned by `calculateNextReviewFibonacci` and
`calculateNextReviewExponential`; `daysFromNow` and `date` are absent when the
JavaScript value is `undefined` or an invalid date. -/
structure NextReview where
  algorithm : String
  date : Option ℤ
  daysFromNow : Option ℕ
  intervalIndex : ℕ
  totalReviews : ℕ
  scheduledDays : ℕ
  deriving DecidableEq

/-- The function `calculateNextReviewFibonacci(memory)`. -/
def calculateNextReviewFibonacci (memory : Memory) : NextReview :=
  let intervals := getFibonacciIntervals
  let reviewCount := orDefault memory.reviewCount 0
  let level := min reviewCount (intervals.length - 1)
  let days := intervals[level]?
  let lastReviewed := match memory.lastRecalled with
    | some t => some t
    | none => memory.created
  let nextReview := match lastReviewed, days with
    | some t, some d => some (t + (d : ℤ))
    | _, _ => none
  { algorithm := "fibonacci"
    date := nextReview
    daysFromNow := days
    intervalIndex := level
    totalReviews := reviewCount + 1
    scheduledDays := (intervals.take (level + 1)).foldl (fun a b => a + b) 0 }

/-- The function `calculateNextReviewExponential(memory)`. -/
def calculateNextReviewExponential (memory : Memory) : NextReview :=
  let intervals := getExponentialIntervals
  let reviewCount := orDefault memory.reviewCount 0
  let level := min reviewCount (intervals.length - 1)
  let days := intervals[level]?
  let lastReviewed := match memory.lastRecalled with
    | some t => some t
    | none => memory.created
  let nextReview := match lastReviewed, days with
    | some t, some d => some (t + (d : ℤ))
    | _, _ => none
  { algorithm := "exponential"
    date := nextReview
    daysFromNow := days
    intervalIndex := level
    totalReviews := reviewCount + 1
    scheduledDays := (intervals.take (level + 1)).foldl (fun a b => a + b) 0 }

/-! ## Retention model -/

/-- The object built by `new RetentionModel(algorithm)`. -/
structure RetentionModel where
  algorithm : String
  intervals : List ℕ
  deriving DecidableEq

/-- The constructor of `RetentionModel`. -/
def RetentionModel.new (algorithm : String) : RetentionModel :=
  { algorithm := algorithm
    intervals :=
      if algorithm = "fibonacci" then getFibonacciIntervals
      else getExponentialIntervals }

/-- The random variance term of `calculateRetention`, `(Math.random() - 0.5) * 0.15`,
for the value `rnd` drawn. -/
def retentionVariance (rnd : ℚ) : JSNum :=
  JSNum.mul (JSNum.sub (.fin rnd) (.fin 0.5)) (.fin 0.15)

/-- The minimum retention floor of `calculateRetention`, `0.1 + reviewCount * 0.02`. -/
def retentionFloor (reviewCount : JSNum) : JSNum :=
  JSNum.add (.fin 0.1) (JSNum.mul reviewCount (.fin 0.02))

/-- The method `RetentionModel.calculateRetention(daysSinceReview, reviewCount, baseStrength)`;
`rnd` is the value returned by its call of `Math.random()`. -/
def calculateRetention (mathExp : ℚ → ℚ) (rnd : ℚ)
    (daysSinceReview reviewCount baseStrength : JSNum) : JSNum :=
  let strengthMultiplier := JSNum.add (.fin 1) (JSNum.mul reviewCount (.fin 0.15))
  let strength := JSNum.mul baseStrength strengthMultiplier
  let decay := JSNum.exp mathExp
    (JSNum.div (JSNum.neg daysSinceReview) (JSNum.mul strength (.fin 10)))
  let floor := retentionFloor reviewCount
  let variance := retentionVariance rnd
  JSNum.min (.fin 0.98) (JSNum.max floor (JSNum.add decay variance))

/-- The method `RetentionModel.review(memory, success, currentDay)`: the record it
returns; `rnd` is the value returned by its call of `Math.random()`. -/
def RetentionModel.review (model : RetentionModel) (memory : Memory) (success : Bool)
    (currentDay : ℤ) (rnd : ℚ) : Memory :=
  let updated := memory
  let updated := { updated with reviewCount := some (orDefault updated.reviewCount 0 + 1) }
  let updated := { updated with lastReviewDay := some currentDay }
  let strengthGain : ℚ := if success then 0.1 else 0.03
  let updated := { updated with
    baseStrength := some (min 0.95 (orDefault updated.baseStrength 0.5 + strengthGain)) }
  let history := match updated.reviewHistory with
    | some h => h
    | none => []
  let entry : HistoryEntry :=
    { day := currentDay
      success := success
      confidence := if success then 0.7 + rnd * 0.3 else rnd * 0.4 }
  let updated := { updated with reviewHistory := some (history ++ [entry]) }
  let nextReview :=
    if model.algorithm = "fibonacci" then calculateNextReviewFibonacci updated
    else calculateNextReviewExponential updated
  { updated with
    nextReviewDay := match nextReview.daysFromNow with
      | some days => some (currentDay + (days : ℤ))
      | none => none }

/-- The object returned by `attemptRecall`. -/
structure RecallResult where
  recalled : Bool
  confidence : JSNum
  daysSinceReview : ℤ
  strength : ℕ
  deriving DecidableEq

/-- The method `RetentionModel.attemptRecall(memory, currentDay)`; `rnd1` is the value
drawn inside `calculateRetention` and `rnd2` the value drawn for the recall itself. -/
def RetentionModel.attemptRecall (_model : RetentionModel) (mathExp : ℚ → ℚ)
    (memory : Memory) (currentDay : ℤ) (rnd1 rnd2 : ℚ) : RecallResult :=
  let daysSinceReview := currentDay - orDefault memory.lastReviewDay 0
  let probability := calculateRetention mathExp rnd1
    (.fin (daysSinceReview : ℚ))
    (.fin ((orDefault memory.reviewCount 0 : ℕ) : ℚ))
    (.fin (orDefault memory.baseStrength 0.5))
  let recalled := JSNum.lt (.fin rnd2) probability
  { recalled := recalled
    confidence := probability
    daysSinceReview := daysSinceReview
    strength := orDefault memory.reviewCount 0 }

/-- An element of the array returned by `getScheduledReviews`. -/
structure ScheduledReview where
  memory : Memory
  day : ℤ
  deriving DecidableEq

/-- The method `RetentionModel.getScheduledReviews(memories, upToDay)`. The sort of
JavaScript arrays is stable; it is the stable insertion sort on the `day` property. -/
def RetentionModel.getScheduledReviews (_model : RetentionModel) (memories : List Memory)
    (upToDay : ℤ) : List ScheduledReview :=
  ((memories.filter (fun m => decide (orDefault m.nextReviewDay 1 ≤ upToDay))).map
    (fun m => ({ memory := m, day := orDefault m.nextReviewDay 1 } : ScheduledReview))
    ).insertionSort (fun a b => a.day ≤ b.day)

/-! ## Review on objects that share arrays

In JavaScript the property `reviewHistory` holds a reference to an array, and the spread
`{ ...memory }` copies that reference. Here a store maps addresses to arrays and a
`MemoryObject` holds the address of its history. -/

/-- A store of `reviewHistory` arrays: the array at address `a` is the `a`-th entry. -/
abbrev ArrayStore := List (List HistoryEntry)

/-- A memory object whose `reviewHistory` is the address of an array of the store. -/
structure MemoryObject where
  id : Option String
  created : Option ℤ
  lastRecalled : Option ℤ
  baseStrength : Option ℚ
  reviewCount : Option ℕ
  reviewHistory : Option ℕ
  difficulty : Option ℚ
  algorithm : Option String
  lastReviewDay : Option ℤ
  nextReviewDay : Option ℤ
  deriving DecidableEq

/-- The empty object `{}` of a store: every property absent. -/
def MemoryObject.empty : MemoryObject :=
  { id := none, created := none, lastRecalled := none, baseStrength := none
    reviewCount := none, reviewHistory := none, difficulty := none, algorithm := none
    lastReviewDay := none, nextReviewDay := none }

/-- The object `{ baseStrength: 0.5, reviewCount: 0, reviewHistory: [] }`, its history
being the array at address 0 of the store `[[]]`. -/
def sharedHistoryRecord : MemoryObject :=
  { MemoryObject.empty with
    baseStrength := some 0.5, reviewCount := some 0, reviewHistory := some 0 }

/-- The record that an object denotes in a store: its history is the array found at
the address it holds. -/
def MemoryObject.read (store : ArrayStore) (o : MemoryObject) : Memory :=
  { id := o.id
    created := o.created
    lastRecalled := o.lastRecalled
    baseStrength := o.baseStrength
    reviewCount := o.reviewCount
    reviewHistory := match o.reviewHistory with
      | some a => store[a]?
      | none => none
    difficulty := o.difficulty
    algorithm := o.algorithm
    lastReviewDay := o.lastReviewDay
    nextReviewDay := o.nextReviewDay }

/-- The method `RetentionModel.review(memory, success, currentDay)` on objects of a
store: the object it returns and the store after the call. -/
def RetentionModel.reviewInStore (model : RetentionModel) (store : ArrayStore)
    (memory : MemoryObject) (success : Bool) (currentDay : ℤ) (rnd : ℚ) :
    MemoryObject × ArrayStore :=
  let updated := memory
  let updated := { updated with reviewCount := some (orDefault updated.reviewCount 0 + 1) }
  let updated := { updated with lastReviewDay := some currentDay }
  let strengthGain : ℚ := if success then 0.1 else 0.03
  let updated := { updated with
    baseStrength := some (min 0.95 (orDefault updated.baseStrength 0.5 + strengthGain)) }
  let entry : HistoryEntry :=
    { day := currentDay
      success := success
      confidence := if success then 0.7 + rnd * 0.3 else rnd * 0.4 }
  let withHistory : MemoryObject × ArrayStore := match updated.reviewHistory with
    | some _ => (updated, store)
    | none => ({ updated with reviewHistory := some store.length }, store ++ [[]])
  let updated := withHistory.1
  let store := withHistory.2
  let store := match updated.reviewHistory with
    | some a =>
      (match store[a]? with
        | some history => store.set a (history ++ [entry])
        | none => store)
    | none => store
  let nextReview :=
    if model.algorithm = "fibonacci" then calculateNextReviewFibonacci (updated.read store)
    else calculateNextReviewExponential (updated.read store)
  ({ updated with
      nextReviewDay := match nextReview.daysFromNow with
        | some days => some (currentDay + (days : ℤ))
        | none => none },
    store)

/-! ## Comparison of the two algorithms

`compareAlgorithms` draws its random values one after the other; `rng k` is the value
of the `k`-th call of `Math.random()` of a run and every step carries the number of
values consumed so far. Records are held by value: the `reviewHistory` arrays play no
part in what `compareAlgorithms` returns. A statistic formatted by `toFixed` is held as
the number that is formatted; `NaN` is printed as `NaN`. -/

/-- The template literal that names the `i`-th record, `mem-` followed by `i`. -/
def memId (i : ℕ) : String := "mem-" ++ toString i

/-- An object keyed by the two algorithms, such as `totalReviews`. -/
structure AlgorithmPair (α : Type) where
  fibonacci : α
  exponential : α

/-- An object keyed by the checkpoint days 30, 60 and 90, such as `fibResults`. -/
structure ByCheckpoint (α : Type) where
  day30 : α
  day60 : α
  day90 : α

/-- The entry of a checkpoint array, `{ id, recalled, confidence, reviews }`. -/
structure CheckpointRecord where
  id : Option String
  recalled : Bool
  confidence : JSNum
  reviews : Option ℕ
  deriving DecidableEq

/-- The object returned by `calculateStats`. -/
structure CheckpointStats where
  retentionRate : JSNum
  avgConfidence : JSNum
  avgReviews : JSNum
  sampleSize : ℕ
  deriving DecidableEq

/-- The object returned by `compareAlgorithms`. -/
structure ComparisonResult where
  duration : ℕ
  sampleSize : ℕ
  totalReviews : AlgorithmPair ℕ
  checkpoints : ByCheckpoint (AlgorithmPair CheckpointStats)
  raw : AlgorithmPair (ByCheckpoint (List CheckpointRecord))

/-- The variables of `compareAlgorithms` that its day loop updates, with the number of
random values drawn so far. -/
structure Simulation where
  fibonacciMemories : List Memory
  exponentialMemories : List Memory
  fibResults : ByCheckpoint (List CheckpointRecord)
  expResults : ByCheckpoint (List CheckpointRecord)
  fibReviews : ℕ
  expReviews : ℕ
  draws : ℕ

/-- The array of a checkpoint day, `results[day]`; `none` for a day that is no key. -/
def ByCheckpoint.get {α : Type} (results : ByCheckpoint α) (day : ℕ) : Option α :=
  if day = 30 then some results.day30
  else if day = 60 then some results.day60
  else if day = 90 then some results.day90
  else none

/-- The statement `results[day].push(record)`. -/
def ByCheckpoint.push (results : ByCheckpoint (List CheckpointRecord)) (day : ℕ)
    (record : CheckpointRecord) : ByCheckpoint (List CheckpointRecord) :=
  if day = 30 then { results with day30 := results.day30 ++ [record] }
  else if day = 60 then { results with day60 := results.day60 ++ [record] }
  else if day = 90 then { results with day90 := results.day90 ++ [record] }
  else results

/-- A value that may be `undefined`, as an operand of `+`. -/
def optionalNumber : Option ℕ → JSNum
  | some n => .fin (n : ℚ)
  | none => .nan

/-- The creation loop of `compareAlgorithms`: step `i` draws the base strength and the
difficulty of record `i` and pushes its two copies; `now` is the creation date. -/
def createMemory (rng : ℕ → ℚ) (now : ℤ)
    (state : List Memory × List Memory × ℕ) (i : ℕ) : List Memory × List Memory × ℕ :=
  let baseMemory : Memory :=
    { id := some (memId i)
      created := some now
      lastRecalled := none
      baseStrength := some (0.4 + rng state.2.2 * 0.4)
      reviewCount := some 0
      reviewHistory := some []
      difficulty := some (rng (state.2.2 + 1))
      algorithm := none
      lastReviewDay := none
      nextReviewDay := none }
  (state.1 ++ [{ baseMemory with algorithm := some "fibonacci" }],
    state.2.1 ++ [{ baseMemory with algorithm := some "exponential" }],
    state.2.2 + 2)

/-- The body of `scheduled.forEach(({ memory: mem }) => ...)`: recall, locate the record
by its id, and replace it by the reviewed copy. -/
def reviewScheduled (model : RetentionModel) (mathExp : ℚ → ℚ) (rng : ℕ → ℚ) (day : ℤ)
    (state : List Memory × ℕ) (item : ScheduledReview) : List Memory × ℕ :=
  let mem := item.memory
  let result := model.attemptRecall mathExp mem day (rng state.2) (rng (state.2 + 1))
  let idx := state.1.findIdx? (fun m => decide (m.id = mem.id))
  let reviewed := model.review mem result.recalled day (rng (state.2 + 2))
  (match idx with
    | some i => state.1.set i reviewed
    | none => state.1,
    state.2 + 3)

/-- The reviews of one day for one population: the population after them, the number
of random values drawn and the number of reviews scheduled. -/
def reviewDue (model : RetentionModel) (mathExp : ℚ → ℚ) (rng : ℕ → ℚ)
    (memories : List Memory) (draws : ℕ) (day : ℤ) : List Memory × ℕ × ℕ :=
  let scheduled := model.getScheduledReviews memories day
  let after := scheduled.foldl (reviewScheduled model mathExp rng day) (memories, draws)
  (after.1, after.2, scheduled.length)

/-- The body of `memories.forEach(mem => ...)` at a checkpoint: recall and push. -/
def recordCheckpoint (model : RetentionModel) (mathExp : ℚ → ℚ) (rng : ℕ → ℚ) (day : ℕ)
    (state : ByCheckpoint (List CheckpointRecord) × ℕ) (mem : Memory) :
    ByCheckpoint (List CheckpointRecord) × ℕ :=
  let result := model.attemptRecall mathExp mem day (rng state.2) (rng (state.2 + 1))
  (state.1.push day
    { id := mem.id
      recalled := result.recalled
      confidence := result.confidence
      reviews := mem.reviewCount },
    state.2 + 2)

/-- The first half of the body of the day loop: the Fibonacci reviews, then the
exponential reviews. -/
def reviewsOfDay (mathExp : ℚ → ℚ) (rng : ℕ → ℚ) (sim : Simulation) (day : ℕ) :
    Simulation :=
  let fib := reviewDue (RetentionModel.new "fibonacci") mathExp rng
    sim.fibonacciMemories sim.draws day
  let exp := reviewDue (RetentionModel.new "exponential") mathExp rng
    sim.exponentialMemories fib.2.1 day
  { sim with
    fibonacciMemories := fib.1
    fibReviews := sim.fibReviews + fib.2.2
    exponentialMemories := exp.1
    expReviews := sim.expReviews + exp.2.2
    draws := exp.2.1 }

/-- The second half of the body of the day loop, `if (checkpoints.includes(day))`:
every record of both populations is tested and the outcome recorded. -/
def recordCheckpoints (mathExp : ℚ → ℚ) (rng : ℕ → ℚ) (sim : Simulation) (day : ℕ) :
    Simulation :=
  if day ∈ [30, 60, 90] then
    let fib := sim.fibonacciMemories.foldl
      (recordCheckpoint (RetentionModel.new "fibonacci") mathExp rng day)
      (sim.fibResults, sim.draws)
    let exp := sim.exponentialMemories.foldl
      (recordCheckpoint (RetentionModel.new "exponential") mathExp rng day)
      (sim.expResults, fib.2)
    { sim with fibResults := fib.1, expResults := exp.1, draws := exp.2 }
  else sim

/-- The body of the day loop. -/
def simulateDay (mathExp : ℚ → ℚ) (rng : ℕ → ℚ) (sim : Simulation) (day : ℕ) :
    Simulation :=
  recordCheckpoints mathExp rng (reviewsOfDay mathExp rng sim day) day

/-- The variables of `compareAlgorithms` when its day loop starts. -/
def startSimulation (rng : ℕ → ℚ) (now : ℤ) (sampleSize : ℕ) : Simulation :=
  let created := (List.range sampleSize).foldl (createMemory rng now) ([], [], 0)
  { fibonacciMemories := created.1
    exponentialMemories := created.2.1
    fibResults := { day30 := [], day60 := [], day90 := [] }
    expResults := { day30 := [], day60 := [], day90 := [] }
    fibReviews := 0
    expReviews := 0
    draws := created.2.2 }

/-- The variables of `compareAlgorithms` after the days `1, ..., days` of its loop. -/
def simulateDays (mathExp : ℚ → ℚ) (rng : ℕ → ℚ) (now : ℤ) (sampleSize days : ℕ) :
    Simulation :=
  ((List.range days).map (fun d => d + 1)).foldl (simulateDay mathExp rng)
    (startSimulation rng now sampleSize)

/-- The function `calculateStats(results)` local to `compareAlgorithms`. -/
def calculateStats (results : List CheckpointRecord) : CheckpointStats :=
  let recalled := (results.filter (fun r => r.recalled)).length
  let avgConfidence := JSNum.div
    (results.foldl (fun a r => JSNum.add a r.confidence) (.fin 0))
    (.fin (results.length : ℚ))
  let avgReviews := JSNum.div
    (results.foldl (fun a r => JSNum.add a (optionalNumber r.reviews)) (.fin 0))
    (.fin (results.length : ℚ))
  { retentionRate :=
      JSNum.mul (JSNum.div (.fin (recalled : ℚ)) (.fin (results.length : ℚ))) (.fin 100)
    avgConfidence := avgConfidence
    avgReviews := avgReviews
    sampleSize := results.length }

/-- The function `compareAlgorithms(duration, sampleSize)`. -/
def compareAlgorithms (mathExp : ℚ → ℚ) (rng : ℕ → ℚ) (now : ℤ)
    (duration sampleSize : ℕ) : ComparisonResult :=
  let sim := simulateDays mathExp rng now sampleSize duration
  { duration := duration
    sampleSize := sampleSize
    totalReviews := { fibonacci := sim.fibReviews, exponential := sim.expReviews }
    checkpoints :=
      { day30 :=
          { fibonacci := calculateStats sim.fibResults.day30
            exponential := calculateStats sim.expResults.day30 }
        day60 :=
          { fibonacci := calculateStats sim.fibResults.day60
            exponential := calculateStats sim.expResults.day60 }
        day90 :=
          { fibonacci := calculateStats sim.fibResults.day90
            exponential := calculateStats sim.expResults.day90 } }
    raw := { fibonacci := sim.fibResults, exponential := sim.expResults } }

/-! ## The schedule of a record

What the scheduling of `compareAlgorithms` reads and writes of a record is its id, its
review count and its next review day; these evolve on their own. -/

/-- The properties of a record on which its schedule depends. -/
def scheduleKey (m : Memory) : Option String × Option ℕ × Option ℤ :=
  (m.id, m.reviewCount, m.nextReviewDay)

/-- The next review day that `review` on `day` gives to a record whose review count
becomes `count`. -/
def scheduleNext (model : RetentionModel) (day : ℤ) (count : ℕ) : Option ℤ :=
  let table :=
    if model.algorithm = "fibonacci" then getFibonacciIntervals
    else getExponentialIntervals
  match table[min count (table.length - 1)]? with
  | some days => some (day + (days : ℤ))
  | none => none

/-- The effect of a review on `day` on the schedule key of a record. -/
def reviewKey (model : RetentionModel) (day : ℤ)
    (key : Option String × Option ℕ × Option ℤ) : Option String × Option ℕ × Option ℤ :=
  (key.1, some (key.2.1.getD 0 + 1), scheduleNext model day (key.2.1.getD 0 + 1))

/-- One day of the schedule of a single record: its review count, its next review day
and the number of reviews it has had. The record is reviewed when it is due. -/
def scheduleStep (model : RetentionModel) (state : ℕ × Option ℤ × ℕ) (day : ℕ) :
    ℕ × Option ℤ × ℕ :=
  if orDefault state.2.1 1 ≤ (day : ℤ) then
    (state.1 + 1, scheduleNext model day (state.1 + 1), state.2.2 + 1)
  else state

/-- The schedule of a single record after the days `1, ..., days`. -/
def scheduleAfter (model : RetentionModel) (days : ℕ) : ℕ × Option ℤ × ℕ :=
  ((List.range days).map (fun d => d + 1)).foldl (scheduleStep model) (0, none, 0)

/-- A population of `n` records named `mem-0, ..., mem-(n-1)` in this order, all with
review count `count` and next review day `next`. -/
def Uniform (n count : ℕ) (next : Option ℤ) (memories : List Memory) : Prop :=
  memories.map scheduleKey = (List.range n).map (fun i => (some (memId i), some count, next))

/-- The entry `entry` is what the checkpoint of `day` records for the record `mem`: its
id, its review count and the outcome of one `attemptRecall`. -/
def RecordedFrom (model : RetentionModel) (mathExp : ℚ → ℚ) (day : ℕ) (mem : Memory)
    (entry : CheckpointRecord) : Prop :=
  entry.id = mem.id ∧ entry.reviews = mem.reviewCount ∧
  ∃ rnd1 rnd2 : ℚ,
    entry.recalled = (model.attemptRecall mathExp mem day rnd1 rnd2).recalled ∧
    entry.confidence = (model.attemptRecall mathExp mem day rnd1 rnd2).confidence

/-- A rational function with the shape of the exponential on the arguments the model
uses (value 1 at 0, values in (0, 1] on non-positive arguments, increasing); it stands
for `Math.exp` when the model is evaluated at a concrete input. -/
def expSample (x : ℚ) : ℚ :=
  if x ≤ 0 then 1 / (1 - x) else 1 + x

/-- The formula of the specification for the retention probability:
`min(0.98, max(0.1 + 0.02 n, exp(-d / (b (1 + 0.15 n) 10)) + (u - 0.5) 0.15))`. -/
def retentionFormula (mathExp : ℚ → ℚ) (u d n b : ℚ) : ℚ :=
  min 0.98 (max (0.1 + 0.02 * n) (mathExp (-d / (b * (1 + 0.15 * n) * 10)) + (u - 0.5) * 0.15))

/-! ## Double-precision arithmetic

The statistics of the stress test are computed in IEEE 754 binary64 with rounding to
nearest, ties to even. A finite double is the rational it denotes; an operation returns
the double nearest to the exact result, or an infinity when the rounded magnitude reaches
`2 ^ 1024`; below `2 ^ (-1022)` the doubles are spaced by `2 ^ (-1074)`. The sign of zero
is abstracted. -/

/-- The auxiliary function of `floorLog2`, with a bound on the number of halvings. -/
def floorLog2Aux : ℕ → ℕ → ℕ
  | 0, _ => 0
  | fuel + 1, n => if n < 2 then 0 else floorLog2Aux fuel (n / 2) + 1

/-- The index of the leading bit of `n`: the largest `k` with `2 ^ k ≤ n`, for `n ≥ 1`. -/
def floorLog2 (n : ℕ) : ℕ := floorLog2Aux n n

/-- The binary exponent of the positive rational `n / d`: the integer `e` with
`2 ^ e ≤ n / d < 2 ^ (e + 1)`. -/
def binaryExponent (n d : ℕ) : ℤ :=
  if n * 2 ^ ((floorLog2 d : ℤ) - (floorLog2 n : ℤ)).toNat
      < d * 2 ^ ((floorLog2 n : ℤ) - (floorLog2 d : ℤ)).toNat then
    (floorLog2 n : ℤ) - (floorLog2 d : ℤ) - 1
  else (floorLog2 n : ℤ) - (floorLog2 d : ℤ)

/-- The integer nearest to `n / d`, the even one of the two when `n / d` is half-way. -/
def roundHalfEven (n d : ℕ) : ℕ :=
  if 2 * (n % d) < d then n / d
  else if d < 2 * (n % d) then n / d + 1
  else if (n / d) % 2 = 0 then n / d
  else n / d + 1

/-- The exponent of the unit in the last place of the doubles around the positive rational
`n / d`. -/
def ulpExponent (n d : ℕ) : ℤ :=
  max (binaryExponent n d - 52) (-1074)

/-- The value `k * 2 ^ u`. -/
def scaleBinary (k : ℕ) (u : ℤ) : ℚ :=
  mkRat ((k * 2 ^ u.toNat : ℕ) : ℤ) (2 ^ (-u).toNat)

/-- The magnitude of the rounding of the positive rational `n / d` when the exponent range
is unbounded above. -/
def roundMagnitude (n d : ℕ) : ℚ :=
  scaleBinary
    (roundHalfEven (n * 2 ^ (-(ulpExponent n d)).toNat) (d * 2 ^ (ulpExponent n d).toNat))
    (ulpExponent n d)

/-- The double nearest to a rational: the value of a decimal literal, of `parseFloat` on a
decimal text, and of an arithmetic operation with that exact result. -/
def roundDouble (q : ℚ) : JSNum :=
  if q = 0 then .fin 0
  else if (2 : ℚ) ^ 1024 ≤ roundMagnitude q.num.natAbs q.den then
    (if 0 < q then .pinf else .ninf)
  else if 0 < q then .fin (roundMagnitude q.num.natAbs q.den)
  else .fin (-roundMagnitude q.num.natAbs q.den)

/-- The rounding of the exact result of an operation. -/
def JSNum.round : JSNum → JSNum
  | .fin q => roundDouble q
  | x => x

/-- The operator `+` on doubles. -/
def JSNum.addD (x y : JSNum) : JSNum := (JSNum.add x y).round

/-- The operator `-` on doubles. -/
def JSNum.subD (x y : JSNum) : JSNum := (JSNum.sub x y).round

/-- The operator `*` on doubles. -/
def JSNum.mulD (x y : JSNum) : JSNum := (JSNum.mul x y).round

/-- The operator `/` on doubles. -/
def JSNum.divD (x y : JSNum) : JSNum := (JSNum.div x y).round

/-- The auxiliary function of `isqrt`: the bits of the root from bit `i` down. -/
def isqrtAux (n : ℕ) : ℕ → ℕ → ℕ
  | 0, r => if (r + 1) * (r + 1) ≤ n then r + 1 else r
  | i + 1, r =>
    isqrtAux n i (if (r + 2 ^ (i + 1)) * (r + 2 ^ (i + 1)) ≤ n then r + 2 ^ (i + 1) else r)

/-- The integer square root: the largest `r` with `r * r ≤ n`. -/
def isqrt (n : ℕ) : ℕ := isqrtAux n (floorLog2 n / 2) 0

/-- The exponent of the unit in the last place of the square root of the positive rational
`n / d`; the root of a double is never subnormal. -/
def sqrtUlpExponent (n d : ℕ) : ℤ :=
  binaryExponent n d / 2 - 52

/-- The integer part `k` of `sqrt (n / d)`, rounded to the nearest integer with ties to
even, by comparing `n / d` with `(k + 1/2) ^ 2`. -/
def roundSqrt (n d : ℕ) : ℕ :=
  if 4 * n < (2 * isqrt (n / d) + 1) ^ 2 * d then isqrt (n / d)
  else if (2 * isqrt (n / d) + 1) ^ 2 * d < 4 * n then isqrt (n / d) + 1
  else if isqrt (n / d) % 2 = 0 then isqrt (n / d)
  else isqrt (n / d) + 1

/-- The double nearest to the square root of the positive rational `n / d`. -/
def sqrtMagnitude (n d : ℕ) : ℚ :=
  scaleBinary
    (roundSqrt (n * 4 ^ (-(sqrtUlpExponent n d)).toNat) (d * 4 ^ (sqrtUlpExponent n d).toNat))
    (sqrtUlpExponent n d)

/-- The function `Math.sqrt` on doubles, correctly rounded. -/
def JSNum.sqrtD : JSNum → JSNum
  | .nan => .nan
  | .ninf => .nan
  | .fin q =>
    if q < 0 then .nan
    else if q = 0 then .fin 0
    else .fin (sqrtMagnitude q.num.natAbs q.den)
  | .pinf => .pinf

/-- The call `Math.pow(x, 2)` on doubles: the rounded product `x * x`. -/
def JSNum.squareD (x : JSNum) : JSNum := JSNum.mulD x x

/-! ## Statistics of the stress test

`calculateStatistics` of `stress-test-spaced-repetition.js`, in double-precision
arithmetic. The two arrays are the retention rates already parsed by `parseFloat`. -/

/-- The function `Math.abs`. -/
def JSNum.abs : JSNum → JSNum
  | .nan => .nan
  | .ninf => .pinf
  | .fin q => .fin |q|
  | .pinf => .pinf

/-- The function `Math.floor`. -/
def JSNum.floor : JSNum → JSNum
  | .nan => .nan
  | .ninf => .ninf
  | .fin q => .fin (⌊q⌋ : ℤ)
  | .pinf => .pinf

/-- The function `mean` of `calculateStatistics`. -/
def mean (arr : List JSNum) : JSNum :=
  JSNum.divD (arr.foldl (fun a b => JSNum.addD a b) (.fin 0)) (.fin (arr.length : ℚ))

/-- The function `std` of `calculateStatistics`. -/
def std (arr : List JSNum) : JSNum :=
  let m := mean arr
  JSNum.sqrtD
    (JSNum.divD
      (arr.foldl (fun a b => JSNum.addD a (JSNum.squareD (JSNum.subD b m))) (.fin 0))
      (.fin (arr.length : ℚ)))

/-- The object returned by `tTest`. -/
structure TTestResult where
  t : JSNum
  df : JSNum
  p : String
  significant : Bool
  deriving DecidableEq

/-- The standard error `se` of `tTest(a, b)`. -/
def standardError (a b : List JSNum) : JSNum :=
  JSNum.sqrtD
    (JSNum.addD (JSNum.divD (JSNum.mulD (std a) (std a)) (.fin (a.length : ℚ)))
      (JSNum.divD (JSNum.mulD (std b) (std b)) (.fin (b.length : ℚ))))

/-- The function `tTest(a, b)` of `calculateStatistics`. -/
def tTest (a b : List JSNum) : TTestResult :=
  let ma := mean a
  let mb := mean b
  let sa := std a
  let sb := std b
  let na : JSNum := .fin (a.length : ℚ)
  let nb : JSNum := .fin (b.length : ℚ)
  let se := standardError a b
  let t := JSNum.divD (JSNum.subD ma mb) se
  let df := JSNum.divD
    (JSNum.squareD
      (JSNum.addD (JSNum.divD (JSNum.mulD sa sa) na) (JSNum.divD (JSNum.mulD sb sb) nb)))
    (JSNum.addD
      (JSNum.divD (JSNum.squareD (JSNum.divD (JSNum.mulD sa sa) na))
        (JSNum.subD na (.fin 1)))
      (JSNum.divD (JSNum.squareD (JSNum.divD (JSNum.mulD sb sb) nb))
        (JSNum.subD nb (.fin 1))))
  let p := if JSNum.lt (.fin 2) (JSNum.abs t) then "< 0.05" else "> 0.05"
  { t := t
    df := JSNum.floor df
    p := p
    significant := JSNum.lt (.fin 2) (JSNum.abs t) }

/-- The descriptive part of the object returned by `calculateStatistics`, for one
algorithm; each field holds the number that `toFixed` formats. -/
structure Descriptive where
  mean : JSNum
  std : JSNum
  min : JSNum
  max : JSNum
  deriving DecidableEq

/-- The object returned by `calculateStatistics`. -/
structure Statistics where
  fibonacci : Descriptive
  exponential : Descriptive
  tTest : TTestResult
  deriving DecidableEq

/-- The function `calculateStatistics(results)`, on the parsed retention rates
`fibRetention` and `expRetention` of `results`. -/
def calculateStatistics (fibRetention expRetention : List JSNum) : Statistics :=
  { fibonacci :=
      { mean := mean fibRetention
        std := std fibRetention
        min := fibRetention.foldl JSNum.min .pinf
        max := fibRetention.foldl JSNum.max .ninf }
    exponential :=
      { mean := mean expRetention
        std := std expRetention
        min := expRetention.foldl JSNum.min .pinf
        max := expRetention.foldl JSNum.max .ninf }
    tTest := tTest fibRetention expRetention }

/-- The mean of a sample, in the words of the specification. -/
def sampleMean (a : List ℚ) : ℚ := a.sum / a.length

/-- The population variance of a sample: the sum of the squared deviations from the
mean, divided by the length of the sample. -/
def populationVariance (a : List ℚ) : ℚ :=
  (a.map (fun x => (x - sampleMean a) ^ 2)).sum / a.length

/-- The square of the standard error of the specification,
`var(a)/|a| + var(b)/|b|`. -/
def squaredStandardError (a b : List ℚ) : ℚ :=
  populationVariance a / a.length + populationVariance b / b.length

/-- The doubles `0.5` and `0.7`: the retention rates parsed from `'0.5'` and `'0.7'`. -/
def roundingSampleA : List ℚ :=
  [1 / 2, 3152519739159347 / 4503599627370496]

/-- The doubles `0.7` and `0.9`: the retention rates parsed from `'0.7'` and `'0.9'`. -/
def roundingSampleB : List ℚ :=
  [3152519739159347 / 4503599627370496, 8106479329266893 / 9007199254740992]

end SpacedRepetition

/-! # Export and import of palaces

A shallow embedding of the Markdown pair of `features/export-import/manager.js`. A text
is a `String`; `exportMarkdown` is the text it writes to its output file and
`importMarkdown` takes the text it reads from its input file. -/

namespace ExportImport

/-- A memory of a locus, with the properties that the Markdown pair reads or writes. -/
structure PalaceMemory where
  id : Option String
  subject : String
  image : Option String
  content : Option String
  confidence : Option ℕ
  created : Option String
  deriving DecidableEq

/-- A locus of a palace. -/
structure Locus where
  id : Option String
  name : String
  anchor : Option String
  memories : Option (List PalaceMemory)
  deriving DecidableEq

/-- A palace. -/
structure Palace where
  name : String
  theme : Option String
  created : Option String
  loci : List Locus
  deriving DecidableEq

/-- The idiom `x || d` on a text that may be absent: `d` replaces an absent and an
empty text. -/
def orText (x : Option String) (d : String) : String :=
  match x with
  | some v => if v = "" then d else v
  | none => d

/-- The part of `exportMarkdown` written for one memory. -/
def exportMemory (md : String) (memory : PalaceMemory) : String :=
  let md := md ++ "#### " ++ memory.subject ++ "\n\n"
  let md := md ++ "**Image:** " ++ orText memory.image "None" ++ "\n\n"
  let md := md ++ orText memory.content "" ++ "\n\n"
  let md := match memory.confidence with
    | some c => if c = 0 then md else md ++ "*Confidence: " ++ toString c ++ "/5*\n\n"
    | none => md
  md ++ "---\n\n"

/-- The part of `exportMarkdown` written for one locus. -/
def exportLocus (md : String) (locus : Locus) : String :=
  let md := md ++ "## " ++ locus.name ++ "\n\n"
  let md := md ++ "**Anchor:** " ++ orText locus.anchor "None" ++ "\n\n"
  let md := match locus.memories with
    | some memories =>
      if memories.length > 0 then
        memories.foldl exportMemory (md ++ "### Memories\n\n")
      else md
    | none => md
  md ++ "\n"

/-- The text that `PalaceExporter.exportMarkdown(palace, outputPath)` writes. -/
def exportMarkdown (palace : Palace) : String :=
  let md := "# " ++ palace.name ++ "\n\n"
  let md := md ++ "**Theme:** " ++ orText palace.theme "None" ++ "\n\n"
  let md := md ++ "**Created:** " ++ orText palace.created "Unknown" ++ "\n\n"
  let md := md ++ "---\n\n"
  palace.loci.foldl exportLocus md

/-- The lines of a text, as characters: the pieces between its newline characters. -/
def splitLines : List Char → List (List Char)
  | [] => [[]]
  | c :: cs =>
    if c = '\n' then [] :: splitLines cs
    else match splitLines cs with
      | line :: lines => (c :: line) :: lines
      | [] => [[c]]

/-- The call `data.split('\n')`. -/
def lines (data : String) : List String :=
  (splitLines data.data).map String.mk

/-- The call `line.startsWith(start)`. -/
def startsWith (line start : String) : Bool :=
  start.data.isPrefixOf line.data

/-- The call `line.substring(n)`. -/
def substring (line : String) (n : ℕ) : String :=
  String.mk (line.data.drop n)

/-- The white space and line terminator characters that `trim` strips. -/
def isWhiteSpace (c : Char) : Bool :=
  c.toNat = 0x09 || c.toNat = 0x0A || c.toNat = 0x0B || c.toNat = 0x0C || c.toNat = 0x0D ||
  c.toNat = 0x20 || c.toNat = 0xA0 || c.toNat = 0x1680 ||
  (0x2000 ≤ c.toNat && c.toNat ≤ 0x200A) ||
  c.toNat = 0x2028 || c.toNat = 0x2029 || c.toNat = 0x202F || c.toNat = 0x205F ||
  c.toNat = 0x3000 || c.toNat = 0xFEFF

/-- The call `text.trim()`. -/
def trim (text : String) : String :=
  String.mk (((text.data.dropWhile isWhiteSpace).reverse.dropWhile isWhiteSpace).reverse)

/-- The variables that the line loop of `importMarkdown` updates. -/
structure ImportState where
  palace : Palace
  currentLocus : Option Locus
  currentMemory : Option PalaceMemory
  deriving DecidableEq

/-- The number of memories of the current locus, `currentLocus?.memories.length || 0`. -/
def memoryCount (currentLocus : Option Locus) : ℕ :=
  match currentLocus with
  | some locus =>
    (match locus.memories with
      | some memories => memories.length
      | none => 0)
  | none => 0

/-- The statement `currentLocus.memories.push(currentMemory)`. -/
def pushMemory (locus : Locus) (memory : PalaceMemory) : Locus :=
  { locus with memories := some ((locus.memories.getD []) ++ [memory]) }

/-- The body of `lines.forEach(line => ...)` in `importMarkdown`; `now` is the creation
date given to imported memories. -/
def importLine (now : String) (state : ImportState) (line : String) : ImportState :=
  if startsWith line "# " then
    { state with palace := { state.palace with name := substring line 2 } }
  else if startsWith line "## " then
    let palace := match state.currentLocus with
      | some locus => { state.palace with loci := state.palace.loci ++ [locus] }
      | none => state.palace
    { state with
      palace := palace
      currentLocus := some
        { id := some ("locus-" ++ toString palace.loci.length)
          name := substring line 3
          anchor := none
          memories := some [] } }
  else if startsWith line "#### " then
    let currentLocus := match state.currentMemory, state.currentLocus with
      | some memory, some locus => some (pushMemory locus memory)
      | _, _ => state.currentLocus
    { state with
      currentLocus := currentLocus
      currentMemory := some
        { id := some ("mem-" ++ toString (memoryCount currentLocus))
          subject := substring line 5
          image := none
          content := none
          confidence := some 3
          created := some now } }
  else match state.currentMemory with
    | some memory =>
      if startsWith line "**Image:**" then
        { state with
          currentMemory := some { memory with image := some (trim (substring line 10)) } }
      else if !startsWith line "**" && !startsWith line "---" then
        { state with
          currentMemory := some
            { memory with content := some (orText memory.content "" ++ line ++ "\n") } }
      else state
    | none => state

/-- The function `PalaceImporter.importMarkdown(filePath)` on the text `data` of the
file. -/
def importMarkdown (now : String) (data : String) : Palace :=
  let start : ImportState :=
    { palace := { name := "Imported Palace", theme := none, created := none, loci := [] }
      currentLocus := none
      currentMemory := none }
  let state := (lines data).foldl (importLine now) start
  let currentLocus := match state.currentMemory, state.currentLocus with
    | some memory, some locus => some (pushMemory locus memory)
    | _, _ => state.currentLocus
  match currentLocus with
  | some locus => { state.palace with loci := state.palace.loci ++ [locus] }
  | none => state.palace

/-- The structure of a palace that a round trip is to keep: its name and, for each
locus in order, the name of the locus and the subjects of its memories in order. -/
def outline (palace : Palace) : String × List (String × List String) :=
  (palace.name,
    palace.loci.map (fun locus =>
      (locus.name, (locus.memories.getD []).map (fun memory => memory.subject))))

/-- A palace with two loci, `A` holding the memory `a` and `B` holding the memory `b`. -/
def twoLociPalace : Palace :=
  { name := "P"
    theme := none
    created := none
    loci :=
      [ { id := none, name := "A", anchor := none
          memories := some
            [{ id := none, subject := "a", image := none, content := none
               confidence := none, created := none }] },
        { id := none, name := "B", anchor := none
          memories := some
            [{ id := none, subject := "b", image := none, content := none
               confidence := none, created := none }] } ] }

end ExportImport

/-! # Gamification

A shallow embedding of the levels and achievements of
`features/gamification/gamified.js`. Experience points are integers. -/

namespace Gamification

/-- An entry of `stats.history`. -/
structure HistoryItem where
  date : String
  action : String
  xp : ℤ
  achievementId : Option String
  metadata : Option String
  deriving DecidableEq

/-- The statistics of a user, as created by `getStats`. -/
structure Stats where
  xp : ℤ
  level : ℕ
  streak : ℕ
  longestStreak : ℕ
  lastReviewDate : Option String
  totalReviews : ℕ
  perfectRecalls : ℕ
  achievements : List String
  history : List HistoryItem
  deriving DecidableEq

/-- The statistics with which `getStats` starts a new user. -/
def Stats.fresh : Stats :=
  { xp := 0, level := 1, streak := 0, longestStreak := 0, lastReviewDate := none
    totalReviews := 0, perfectRecalls := 0, achievements := [], history := [] }

/-- The object built by `new GamificationEngine(userId)`. -/
structure GamificationEngine where
  userId : String
  xpValues : List (String × ℤ)
  levelThresholds : List ℤ
  deriving DecidableEq

/-- The constructor of `GamificationEngine`. -/
def GamificationEngine.new (userId : String) : GamificationEngine :=
  { userId := userId
    xpValues :=
      [("review", 10), ("perfectRecall", 20), ("newPalace", 50), ("newMemory", 15),
       ("dailyLogin", 5), ("streak7", 100), ("streak30", 500), ("sharePalace", 25)]
    levelThresholds := [0, 100, 250, 500, 1000, 2000, 5000, 10000] }

/-- The loop of `calculateLevel`, with `i + 1` indices left to visit: the index `i` is
tested and, when the threshold is not reached, the loop goes on below it. -/
def levelLoop (thresholds : List ℤ) (xp : ℤ) : ℕ → ℕ
  | 0 => 1
  | i + 1 =>
    match thresholds[i]? with
    | some threshold => if xp ≥ threshold then i + 1 else levelLoop thresholds xp i
    | none => levelLoop thresholds xp i

/-- The method `GamificationEngine.calculateLevel(xp)`. -/
def GamificationEngine.calculateLevel (engine : GamificationEngine) (xp : ℤ) : ℕ :=
  levelLoop engine.levelThresholds xp engine.levelThresholds.length

/-- An element of the array returned by `getAchievementDefinitions`. -/
structure Achievement where
  id : String
  name : String
  description : String
  check : Stats → Bool

/-- The method `GamificationEngine.getAchievementDefinitions()`, without the icons. -/
def getAchievementDefinitions : List Achievement :=
  [ { id := "first_steps", name := "First Steps"
      description := "Review your first memory"
      check := fun stats => decide (stats.totalReviews ≥ 1) },
    { id := "getting_warmer", name := "Getting Warmer"
      description := "Complete a 3-day streak"
      check := fun stats => decide (stats.streak ≥ 3) || decide (stats.longestStreak ≥ 3) },
    { id := "week_streak", name := "On Fire"
      description := "Complete a 7-day streak"
      check := fun stats => decide (stats.streak ≥ 7) || decide (stats.longestStreak ≥ 7) },
    { id := "month_streak", name := "Unstoppable"
      description := "Complete a 30-day streak"
      check := fun stats =>
        decide (stats.streak ≥ 30) || decide (stats.longestStreak ≥ 30) },
    { id := "perfect_memory", name := "Perfect Memory"
      description := "Achieve 10 perfect recalls"
      check := fun stats => decide (stats.perfectRecalls ≥ 10) },
    { id := "novice", name := "Novice"
      description := "Reach level 2"
      check := fun stats => decide (stats.level ≥ 2) },
    { id := "adept", name := "Adept"
      description := "Reach level 5"
      check := fun stats => decide (stats.level ≥ 5) },
    { id := "master", name := "Master"
      description := "Reach level 10"
      check := fun stats => decide (stats.level ≥ 10) },
    { id := "grandmaster", name := "Grandmaster"
      description := "Earn 10,000 XP"
      check := fun stats => decide (stats.xp ≥ 10000) } ]

/-- The readings of `new Date()` during one call of `awardXP`: the ISO timestamp, and
the date strings of today and of yesterday. -/
structure Clock where
  iso : String
  today : String
  yesterday : String
  deriving DecidableEq

/-- The lookup `this.xpValues[action] || 0`. -/
def GamificationEngine.xpValue (engine : GamificationEngine) (action : String) : ℤ :=
  (engine.xpValues.lookup action).getD 0

/-- The method `GamificationEngine.unlockAchievement(stats, achievementId)`. -/
def unlockAchievement (clock : Clock) (stats : Stats) (achievementId : String) : Stats :=
  if stats.achievements.contains achievementId then stats
  else
    { stats with
      achievements := stats.achievements ++ [achievementId]
      xp := stats.xp + 50
      history := stats.history ++
        [{ date := clock.iso, action := "achievement_unlocked", xp := 50
           achievementId := some achievementId, metadata := none }] }

/-- The body of the loop of `checkAchievements`, on the statistics and the list of the
achievements unlocked so far. -/
def checkAchievement (clock : Clock) (state : Stats × List Achievement)
    (achievement : Achievement) : Stats × List Achievement :=
  if state.1.achievements.contains achievement.id then state
  else if achievement.check state.1 then
    (unlockAchievement clock state.1 achievement.id, state.2 ++ [achievement])
  else state

/-- The method `GamificationEngine.checkAchievements(stats)`: the statistics after it
and the achievements it returns. -/
def checkAchievements (clock : Clock) (stats : Stats) : Stats × List Achievement :=
  getAchievementDefinitions.foldl (checkAchievement clock) (stats, [])

/-- The object returned by `getProgress`; `percentage` is the number that `Math.round`
gives. -/
structure Progress where
  current : ℤ
  needed : ℤ
  percentage : SpacedRepetition.JSNum
  nextLevel : ℕ

/-- The method `GamificationEngine.getProgress(stats)`. -/
def GamificationEngine.getProgress (engine : GamificationEngine) (stats : Stats) :
    Progress :=
  let currentLevel := stats.level
  let nextThreshold := SpacedRepetition.orDefault engine.levelThresholds[currentLevel]?
    ((engine.levelThresholds.getLast?.getD 0) * 2)
  let currentThreshold :=
    if currentLevel = 0 then 0
    else SpacedRepetition.orDefault engine.levelThresholds[currentLevel - 1]? 0
  let xpInLevel := stats.xp - currentThreshold
  let xpNeeded := nextThreshold - currentThreshold
  let percentage := SpacedRepetition.JSNum.min (.fin 100)
    (SpacedRepetition.JSNum.mulD
      (SpacedRepetition.JSNum.divD (.fin (xpInLevel : ℚ)) (.fin (xpNeeded : ℚ))) (.fin 100))
  { current := xpInLevel
    needed := xpNeeded
    percentage := SpacedRepetition.JSNum.floor
      (SpacedRepetition.JSNum.add percentage (.fin 0.5))
    nextLevel := currentLevel + 1 }

/-- The object returned by `awardXP`. -/
structure AwardResult where
  xpGained : ℤ
  totalXP : ℤ
  level : ℕ
  leveledUp : Bool
  streak : ℕ
  newAchievements : List Achievement
  progress : Progress

/-- The streak block of `awardXP`, run when the last review was not today. -/
def updateStreak (engine : GamificationEngine) (clock : Clock) (lastDate : Option String)
    (stats : Stats) : Stats :=
  let stats :=
    if lastDate = some clock.yesterday then
      let stats := { stats with streak := stats.streak + 1 }
      if stats.streak = 7 then
        let stats := unlockAchievement clock stats "week_streak"
        { stats with xp := stats.xp + engine.xpValue "streak7" }
      else if stats.streak = 30 then
        let stats := unlockAchievement clock stats "month_streak"
        { stats with xp := stats.xp + engine.xpValue "streak30" }
      else stats
    else
      let stats :=
        if stats.streak > stats.longestStreak then
          { stats with longestStreak := stats.streak }
        else stats
      { stats with streak := 1 }
  { stats with lastReviewDate := some clock.iso }

/-- The first part of `awardXP`: the points of the action are added, the counters and
the level are updated. The result holds the statistics, `totalXP` and `leveledUp`. -/
def gainXP (engine : GamificationEngine) (stats : Stats) (action : String) :
    Stats × ℤ × Bool :=
  let baseXP := engine.xpValue action
  let bonusXP : ℤ :=
    if action = "review" ∧ stats.streak > 0 then min ((stats.streak : ℤ) * 2) 20 else 0
  let totalXP := baseXP + bonusXP
  let stats := { stats with xp := stats.xp + totalXP, totalReviews := stats.totalReviews + 1 }
  let stats :=
    if action = "perfectRecall" then { stats with perfectRecalls := stats.perfectRecalls + 1 }
    else stats
  let newLevel := engine.calculateLevel stats.xp
  let leveledUp := decide (newLevel > stats.level)
  ({ stats with level := newLevel }, totalXP, leveledUp)

/-- The part of `awardXP` that logs the action: the entry is pushed and the history is
trimmed to its last 100 entries. -/
def logHistory (clock : Clock) (stats : Stats) (action : String) (totalXP : ℤ)
    (metadata : Option String) : Stats :=
  let stats := { stats with
    history := stats.history ++
      [{ date := clock.iso, action := action, xp := totalXP, achievementId := none
         metadata := metadata }] }
  if stats.history.length > 100 then
    { stats with history := stats.history.drop (stats.history.length - 100) }
  else stats

/-- The method `GamificationEngine.awardXP(action, metadata)` on the statistics that
`getStats` returns: the statistics that `saveStats` stores and the object returned.
`toDateString` is the conversion of a stored ISO timestamp to its date string. -/
def GamificationEngine.awardXP (engine : GamificationEngine)
    (toDateString : String → String) (clock : Clock) (stats : Stats) (action : String)
    (metadata : Option String) : Stats × AwardResult :=
  let gained := gainXP engine stats action
  let totalXP := gained.2.1
  let stats := gained.1
  let lastDate := stats.lastReviewDate.map toDateString
  let stats :=
    if lastDate ≠ some clock.today then updateStreak engine clock lastDate stats
    else stats
  let stats := logHistory clock stats action totalXP metadata
  let checked := checkAchievements clock stats
  let stats := checked.1
  (stats,
    { xpGained := totalXP
      totalXP := stats.xp
      level := stats.level
      leveledUp := gained.2.2
      streak := stats.streak
      newAchievements := checked.2
      progress := engine.getProgress stats })

/-- The statistics stored after a sequence of calls of `awardXP`, one per action, all
within the day of `clock`. -/
def awardAll (engine : GamificationEngine) (toDateString : String → String)
    (clock : Clock) (stats : Stats) (actions : List String) : Stats :=
  actions.foldl (fun stats action =>
    (engine.awardXP toDateString clock stats action none).1) stats

/-- The statistics that a user starting from fresh statistics can have stored: those
after any sequence of calls of `awardXP`, each with its own clock readings. -/
inductive Reachable (engine : GamificationEngine) (toDateString : String → String) :
    Stats → Prop where
  | fresh : Reachable engine toDateString Stats.fresh
  | award (stats : Stats) (clock : Clock) (action : String) (metadata : Option String) :
      Reachable engine toDateString stats →
      Reachable engine toDateString
        (engine.awardXP toDateString clock stats action metadata).1

end Gamification

/-! # Utility tracking

Source: `features/gamification/utility.js`, `UtilityTracker.calculateStreak`. The entries
of `activeDays` are ISO day keys; a key is represented by the number of its calendar day,
and `new Date(key)` is the UTC midnight of that day in milliseconds. -/

namespace Utility

/-- The divisor `1000 * 60 * 60 * 24` of `calculateStreak`. -/
def msPerDay : ℤ := 1000 * 60 * 60 * 24

/-- The time value of `new Date(key)` for the key of calendar day `day`. -/
def dateOfDay (day : ℤ) : ℤ := day * msPerDay

/-- The value `diff = (curr - prev) / (1000 * 60 * 60 * 24)` of the loop body. -/
def dayDiff (prevDay currDay : ℤ) : ℚ :=
  ((dateOfDay currDay - dateOfDay prevDay : ℤ) : ℚ) / (msPerDay : ℚ)

/-- The `for` loop of `calculateStreak` from index `i` on: `prevDay` is `activeDays[i - 1]`
and the list holds `activeDays[i]`, `activeDays[i + 1]`, ... -/
def streakLoop : ℕ → ℕ → ℤ → List ℤ → ℕ
  | maxStreak, _, _, [] => maxStreak
  | maxStreak, currentStreak, prevDay, currDay :: rest =>
    if dayDiff prevDay currDay = 1 then
      streakLoop (max maxStreak (currentStreak + 1)) (currentStreak + 1) currDay rest
    else
      streakLoop maxStreak 1 currDay rest

/-- The method `calculateStreak(activeDays)`. -/
def calculateStreak : List ℤ → ℕ
  | [] => 0
  | first :: rest => streakLoop 1 1 first rest

/-- A run of consecutive days: every entry is exactly one day after the previous one. -/
def consecutiveDays : List ℤ → Bool
  | [] => true
  | [_] => true
  | prevDay :: currDay :: rest =>
    decide (currDay = prevDay + 1) && consecutiveDays (currDay :: rest)

end Utility

/-! # Palace size stress test

Source: `evolutions/hypothesis-003-palace-size/stress-test-enhanced.js`, the class
`WorkingMemory`, the table `PALACES` and `generateMemories`. Capacities and locus counts
are whole numbers, as in every entry of `PALACES`. The draws of `Math.random()` are a
stream `rng`; every locus draws five values, so the locus at position `i` of a palace
uses the draws `5 * i`, ..., `5 * i + 4`. -/

namespace PalaceSize

open SpacedRepetition

/-- The state of a `WorkingMemory` object. -/
structure WorkingMemory (α : Type) where
  capacity : ℕ
  items : List α
  load : ℕ

/-- The constructor `new WorkingMemory(capacity)`. -/
def WorkingMemory.new {α : Type} (capacity : ℕ) : WorkingMemory α :=
  { capacity := capacity, items := [], load := 0 }

/-- The method `add(item)`: at full capacity the oldest item is shifted out and `load` is
incremented, then the item is pushed. -/
def WorkingMemory.add {α : Type} (wm : WorkingMemory α) (item : α) : WorkingMemory α :=
  if wm.items.length ≥ wm.capacity then
    { wm with items := wm.items.tail ++ [item], load := wm.load + 1 }
  else
    { wm with items := wm.items ++ [item] }

/-- The method `has(item)`. -/
def WorkingMemory.has {α : Type} [BEq α] (wm : WorkingMemory α) (item : α) : Bool :=
  wm.items.contains item

/-- The method `clear()`. -/
def WorkingMemory.clear {α : Type} (wm : WorkingMemory α) : WorkingMemory α :=
  { wm with items := [], load := 0 }

/-- The method `getUtilization()`. -/
def WorkingMemory.getUtilization {α : Type} (wm : WorkingMemory α) : JSNum :=
  JSNum.div (JSNum.fin wm.items.length) (JSNum.fin wm.capacity)

/-- The method `getForgottenCount()`. -/
def WorkingMemory.getForgottenCount {α : Type} (wm : WorkingMemory α) : ℕ :=
  wm.load

/-- A sequence of `add` calls, in the order of the list. -/
def WorkingMemory.addAll {α : Type} (wm : WorkingMemory α) (added : List α) :
    WorkingMemory α :=
  added.foldl WorkingMemory.add wm

/-- A memory of a generated locus. -/
structure MemoryItem where
  id : String
  subject : String
  strength : ℚ

/-- A locus of a generated palace; `wing` is present in the hierarchical palace only. -/
structure Locus where
  id : ℕ
  name : String
  wing : Option String
  connections : List ℕ
  memories : List MemoryItem

/-- The draws of a stream from position `offset` on. -/
def drawsFrom (rng : ℕ → ℚ) (offset : ℕ) : ℕ → ℚ :=
  fun i => rng (offset + i)

/-- The function `generateMemories(count, locusId)`; `random i` is the draw of
`Math.random()` for the memory `i`. -/
def generateMemories (random : ℕ → ℚ) (count locusId : ℕ) : List MemoryItem :=
  (List.range count).map fun i =>
    { id := "mem-" ++ toString locusId ++ "-" ++ toString i,
      subject := "Topic " ++ toString locusId ++ "-" ++ toString i,
      strength := 1 / 2 + random i * (1 / 2) }

/-- An entry of the table `PALACES`. -/
structure PalaceType where
  name : String
  loci : ℕ
  workingMemoryCapacity : ℕ
  structureKind : String
  complexity : ℕ
  generate : (ℕ → ℚ) → List Locus

/-- The names of the loci of the small palace. -/
def smallNames : List String :=
  ["Entrance", "Hallway", "Kitchen", "Living Room", "Bedroom"]

/-- The entry `PALACES.small`. -/
def PALACES.small : PalaceType :=
  { name := "Small (5 loci)"
    loci := 5
    workingMemoryCapacity := 5
    structureKind := "linear"
    complexity := 1
    generate := fun rng =>
      (List.range 5).map fun i =>
        { id := i
          name := smallNames.getD i ""
          wing := none
          connections := if i < 4 then [i + 1] else []
          memories := generateMemories (drawsFrom rng (5 * i)) 5 i } }

/-- The entry `PALACES.medium`. -/
def PALACES.medium : PalaceType :=
  { name := "Medium (9 loci) - Miller Optimal"
    loci := 9
    workingMemoryCapacity := 7
    structureKind := "branched"
    complexity := 2
    generate := fun rng =>
      [ ⟨0, "Entrance", none, [1, 2], generateMemories (drawsFrom rng 0) 5 0⟩,
        ⟨1, "Left Wing", none, [0, 3, 4], generateMemories (drawsFrom rng 5) 5 1⟩,
        ⟨2, "Right Wing", none, [0, 5, 6], generateMemories (drawsFrom rng 10) 5 2⟩,
        ⟨3, "Kitchen", none, [1], generateMemories (drawsFrom rng 15) 5 3⟩,
        ⟨4, "Dining", none, [1], generateMemories (drawsFrom rng 20) 5 4⟩,
        ⟨5, "Study", none, [2], generateMemories (drawsFrom rng 25) 5 5⟩,
        ⟨6, "Living Room", none, [2, 7], generateMemories (drawsFrom rng 30) 5 6⟩,
        ⟨7, "Bedroom", none, [6, 8], generateMemories (drawsFrom rng 35) 5 7⟩,
        ⟨8, "Bathroom", none, [7], generateMemories (drawsFrom rng 40) 5 8⟩ ] }

/-- The entry `PALACES.large`. -/
def PALACES.large : PalaceType :=
  { name := "Large (15 loci) - Flat"
    loci := 15
    workingMemoryCapacity := 7
    structureKind := "linear_long"
    complexity := 3
    generate := fun rng =>
      (List.range 15).map fun i =>
        { id := i
          name := "Room " ++ toString (i + 1)
          wing := none
          connections := (if i > 0 then [i - 1] else []) ++ (if i < 14 then [i + 1] else [])
          memories := generateMemories (drawsFrom rng (5 * i)) 5 i } }

/-- The array `wingNames` of the hierarchical palace. -/
def wingNames : List String := ["East", "West", "North"]

/-- The first loop of the hierarchical `generate()`: the main wing. -/
def mainWing (rng : ℕ → ℚ) : List Locus :=
  (List.range 4).map fun i =>
    { id := i
      name := "Main " ++ toString (i + 1)
      wing := some "main"
      connections := [i + 1, 4, 7, 10].filter fun c => c > i
      memories := generateMemories (drawsFrom rng (5 * i)) 5 i }

/-- The loci pushed by `wingNames.forEach` for the wing `wing` at index `w`. -/
def subWing (rng : ℕ → ℚ) (w : ℕ) (wing : String) : List Locus :=
  (List.range 3).map fun i =>
    { id := 4 + w * 3 + i
      name := wing ++ " " ++ toString (i + 1)
      wing := some wing.toLower
      connections := if i < 2 then [4 + w * 3 + i + 1] else []
      memories := generateMemories (drawsFrom rng (5 * (4 + w * 3 + i))) 5 (4 + w * 3 + i) }

/-- The entry `PALACES.hierarchical`. -/
def PALACES.hierarchical : PalaceType :=
  { name := "Hierarchical (12+3 wings)"
    loci := 15
    workingMemoryCapacity := 4
    structureKind := "hierarchical"
    complexity := 2
    generate := fun rng =>
      mainWing rng ++ (wingNames.enum.map fun entry => subWing rng entry.1 entry.2).flatten }

/-- The table `PALACES` with its keys. -/
def PALACES : List (String × PalaceType) :=
  [("small", PALACES.small), ("medium", PALACES.medium), ("large", PALACES.large),
    ("hierarchical", PALACES.hierarchical)]

/-- The ids of the loci of a palace, in order. -/
def locusIds (palace : List Locus) : List ℕ :=
  palace.map Locus.id

/-- Every connection of every locus is the id of a locus of the palace. -/
def connectionsExist (palace : List Locus) : Bool :=
  palace.all fun locus => locus.connections.all fun c => (locusIds palace).contains c

end PalaceSize

/-! # Hook system

Source: `evolutions/hypothesis-001-hooks/automated-system.js`, the class
`InterruptionBudget` and the calls that `HookOrchestrator` makes on its budget. Every
`new Date()` is an explicit argument, a time in milliseconds. The constructor arguments
`maxPerSession` and `cooldownMinutes` are arbitrary numbers; `used` is a counter. -/

namespace Hooks

open SpacedRepetition

/-- The state of an `InterruptionBudget` object. -/
structure InterruptionBudget where
  maxPerSession : JSNum
  cooldownMinutes : JSNum
  used : ℤ
  lastInterruption : Option ℤ
  sessionStart : ℤ
  deriving DecidableEq

/-- The constructor `new InterruptionBudget(maxPerSession = 3, cooldownMinutes = 15)`; an
argument that is not passed is `none`. -/
def InterruptionBudget.new (now : ℤ) (maxPerSession cooldownMinutes : Option JSNum) :
    InterruptionBudget :=
  { maxPerSession := maxPerSession.getD (JSNum.fin 3)
    cooldownMinutes := cooldownMinutes.getD (JSNum.fin 15)
    used := 0
    lastInterruption := none
    sessionStart := now }

/-- The method `reset()`. -/
def InterruptionBudget.reset (budget : InterruptionBudget) (now : ℤ) : InterruptionBudget :=
  { budget with used := 0, lastInterruption := none, sessionStart := now }

/-- The times read by one call of `canInterrupt()`: for the session check, inside `reset()`
and for the cooldown check. -/
structure CheckTimes where
  session : ℤ
  reset : ℤ
  cooldown : ℤ

/-- The first statement of `canInterrupt()`: the reset after two hours of session. -/
def InterruptionBudget.sessionTimeout (budget : InterruptionBudget) (times : CheckTimes) :
    InterruptionBudget :=
  if (((times.session - budget.sessionStart : ℤ) : ℚ) / (1000 * 60 * 60)) > 2 then
    budget.reset times.reset
  else budget

/-- The method `canInterrupt()`: the state it leaves and the value it returns. The test
`this.used >= this.maxPerSession` is the comparison `maxPerSession <= used`. -/
def InterruptionBudget.canInterrupt (budget : InterruptionBudget) (times : CheckTimes) :
    InterruptionBudget × Bool :=
  if JSNum.le (budget.sessionTimeout times).maxPerSession
      (JSNum.fin ((budget.sessionTimeout times).used : ℚ)) = true then
    (budget.sessionTimeout times, false)
  else
    match (budget.sessionTimeout times).lastInterruption with
    | some last =>
      if JSNum.lt (JSNum.fin (((times.cooldown - last : ℤ) : ℚ) / (1000 * 60)))
          (budget.sessionTimeout times).cooldownMinutes = true then
        (budget.sessionTimeout times, false)
      else (budget.sessionTimeout times, true)
    | none => (budget.sessionTimeout times, true)

/-- The method `recordInterruption()`. -/
def InterruptionBudget.recordInterruption (budget : InterruptionBudget) (now : ℤ) :
    InterruptionBudget :=
  { budget with used := budget.used + 1, lastInterruption := some now }

/-- The object returned by `getStatus()`. -/
structure Status where
  remaining : JSNum
  used : ℤ
  max : JSNum
  lastInterruption : Option ℤ
  canInterrupt : Bool
  deriving DecidableEq

/-- The method `getStatus()`: the state it leaves and the object it returns. The first
four properties are read before `canInterrupt()` is called. -/
def InterruptionBudget.getStatus (budget : InterruptionBudget) (times : CheckTimes) :
    InterruptionBudget × Status :=
  ((budget.canInterrupt times).1,
    { remaining := JSNum.sub budget.maxPerSession (JSNum.fin (budget.used : ℚ))
      used := budget.used
      max := budget.maxPerSession
      lastInterruption := budget.lastInterruption
      canInterrupt := (budget.canInterrupt times).2 })

/-- The budget after `HookOrchestrator.processMessage`: `topicHook` says whether the
`on_topic_mentioned` test succeeds, `learningHook` whether the `on_learning_detected`
test does. -/
def processMessage (budget : InterruptionBudget) (times : CheckTimes) (now : ℤ)
    (topicHook learningHook : Bool) : InterruptionBudget :=
  if (budget.canInterrupt times).2 = false then (budget.canInterrupt times).1
  else if topicHook then (budget.canInterrupt times).1.recordInterruption now
  else if learningHook then (budget.canInterrupt times).1.recordInterruption now
  else (budget.canInterrupt times).1

/-- The budget after `HookOrchestrator.onSessionStart`: `due` says whether
`dueMemories.length > 0`. -/
def onSessionStart (budget : InterruptionBudget) (times : CheckTimes) (now : ℤ)
    (due : Bool) : InterruptionBudget :=
  if due then
    if (budget.canInterrupt times).2 then
      (budget.canInterrupt times).1.recordInterruption now
    else (budget.canInterrupt times).1
  else budget

/-- The states of a budget when `recordInterruption()` is only called right after a call
of `canInterrupt()` that returned true. -/
inductive Reachable : InterruptionBudget → Prop
  | new (now : ℤ) (maxPerSession cooldownMinutes : Option JSNum) :
      Reachable (InterruptionBudget.new now maxPerSession cooldownMinutes)
  | reset (budget : InterruptionBudget) (now : ℤ) :
      Reachable budget → Reachable (budget.reset now)
  | canInterrupt (budget : InterruptionBudget) (times : CheckTimes) :
      Reachable budget → Reachable (budget.canInterrupt times).1
  | recordInterruption (budget : InterruptionBudget) (times : CheckTimes) (now : ℤ) :
      Reachable budget → (budget.canInterrupt times).2 = true →
      Reachable ((budget.canInterrupt times).1.recordInterruption now)
  | getStatus (budget : InterruptionBudget) (times : CheckTimes) :
      Reachable budget → Reachable (budget.getStatus times).1

/-- One step of the protocol: `canInterrupt()` at time `now`, then `recordInterruption()`
at the same time. -/
def interruptAt (budget : InterruptionBudget) (now : ℤ) : InterruptionBudget :=
  (budget.canInterrupt ⟨now, now, now⟩).1.recordInterruption now

/-- A budget of one interruption per session after its first recorded interruption. -/
def sampleBudget : InterruptionBudget :=
  interruptAt (InterruptionBudget.new 0 (some (JSNum.fin 1)) none) 1000

/-- The budget `new InterruptionBudget(2.5)` after three steps of the protocol, spaced by
one million milliseconds. -/
def fractionalBudget : InterruptionBudget :=
  interruptAt
    (interruptAt (interruptAt (InterruptionBudget.new 0 (some (JSNum.fin (5 / 2))) none) 0)
      1000000)
    2000000

end Hooks

/-! # Cross-palace links

Source: `features/cross-palace/linker.js`, the class `CrossPalaceLinker`. The string
functions and regular expressions used by `extractKeywords` are the fields of `TextOps`;
a `Map` is the list of its entries in insertion order; `maxLinksPerMemory` is a whole
number and similarities are exact rationals. -/

namespace CrossPalace

/-- The string functions of `extractKeywords`. -/
structure TextOps where
  /-- The method `s.toLowerCase()`. -/
  toLowerCase : String → String
  /-- The call `s.split(/\s+/)`. -/
  splitWhitespace : String → List String
  /-- The global match of capitalised words, `none` for `null`. -/
  matchCapitalized : String → Option (List String)
  /-- The global match of the technical terms, `none` for `null`. -/
  matchTechnical : String → Option (List String)
  /-- The property `s.length`. -/
  length : String → ℕ

/-- A stand-in for the string functions on plain ASCII text. -/
def sampleOps : TextOps :=
  { toLowerCase := String.toLower
    splitWhitespace := fun s => s.splitOn " "
    matchCapitalized := fun _ => none
    matchTechnical := fun _ => none
    length := String.length }

/-- A memory of a palace file. -/
structure Memory where
  id : String
  subject : String
  content : Option String
  deriving DecidableEq

/-- A locus of a palace file. -/
structure Locus where
  name : String
  memories : Option (List Memory)

/-- A palace file. -/
structure Palace where
  name : String
  loci : Option (List Locus)

/-- A value of the map `palaceIndex`. -/
structure IndexEntry where
  palace : String
  locus : String
  memory : Memory
  vector : List String
  deriving DecidableEq

/-- An element of a link list of the map `linkGraph`. -/
structure Link where
  target : String
  palace : String
  locus : String
  subject : String
  similarity : ℚ
  deriving DecidableEq

/-- The argument of the constructor; an absent property is `none`. -/
structure ConfigInput where
  similarityThreshold : Option ℚ
  maxLinksPerMemory : Option ℕ
  palacesPath : Option String

/-- The object `this.config`. -/
structure Config where
  similarityThreshold : ℚ
  maxLinksPerMemory : ℕ
  palacesPath : String

/-- The state of a `CrossPalaceLinker`. -/
structure CrossPalaceLinker where
  config : Config
  linkGraph : List (String × List Link)
  palaceIndex : List (String × IndexEntry)

/-- The expression `value || fallback` on a number. -/
def orNumber {α : Type} [Zero α] [DecidableEq α] (value : Option α) (fallback : α) : α :=
  match value with
  | some v => if v = 0 then fallback else v
  | none => fallback

/-- The expression `value || fallback` on a string. -/
def orString (value : Option String) (fallback : String) : String :=
  match value with
  | some v => if v = "" then fallback else v
  | none => fallback

/-- The effect of the trailing `...config` on one property: a property of the argument
replaces the value computed before it. -/
def spread {α : Type} (value : Option α) (current : α) : α :=
  value.getD current

/-- The constructor `new CrossPalaceLinker(config)`. -/
def CrossPalaceLinker.new (config : ConfigInput) : CrossPalaceLinker :=
  { config :=
      { similarityThreshold :=
          spread config.similarityThreshold (orNumber config.similarityThreshold (3 / 5))
        maxLinksPerMemory :=
          spread config.maxLinksPerMemory (orNumber config.maxLinksPerMemory 5)
        palacesPath := spread config.palacesPath (orString config.palacesPath "./palaces") }
    linkGraph := []
    palaceIndex := [] }

/-- The method `map.set(key, value)`: the value of an existing key is replaced in place, a
new key is appended. -/
def mapSet {V : Type} : List (String × V) → String → V → List (String × V)
  | [], key, value => [(key, value)]
  | entry :: rest, key, value =>
    if entry.1 = key then (key, value) :: rest else entry :: mapSet rest key value

/-- The method `extractKeywords(memory)`. -/
def extractKeywords (ops : TextOps) (memory : Memory) : List String :=
  ((ops.splitWhitespace (ops.toLowerCase memory.subject)
      ++ (ops.matchCapitalized (memory.content.getD "")).getD []
      ++ (ops.matchTechnical
          (ops.toLowerCase (memory.subject ++ " " ++ memory.content.getD ""))).getD []
    ).eraseDups).filter fun k => ops.length k > 3

/-- The method `calculateSimilarity(memoryA, memoryB)`. -/
def calculateSimilarity (ops : TextOps) (memoryA memoryB : Memory) : ℚ :=
  if ((extractKeywords ops memoryA ++ extractKeywords ops memoryB).eraseDups).length > 0 then
    (((extractKeywords ops memoryA).filter
        fun k => (extractKeywords ops memoryB).contains k).length : ℚ)
      / (((extractKeywords ops memoryA ++ extractKeywords ops memoryB).eraseDups).length : ℚ)
  else 0

/-- The callback of `locus.memories.forEach` in `indexPalace`. -/
def indexMemory (ops : TextOps) (palace : Palace) (locus : Locus)
    (linker : CrossPalaceLinker) (memory : Memory) : CrossPalaceLinker :=
  { linker with
    palaceIndex := mapSet linker.palaceIndex (palace.name ++ "::" ++ memory.id)
      { palace := palace.name
        locus := locus.name
        memory := memory
        vector := extractKeywords ops memory } }

/-- The callback of `palace.loci.forEach` in `indexPalace`. -/
def indexLocus (ops : TextOps) (palace : Palace) (linker : CrossPalaceLinker)
    (locus : Locus) : CrossPalaceLinker :=
  match locus.memories with
  | none => linker
  | some memories => memories.foldl (indexMemory ops palace locus) linker

/-- The method `indexPalace(palace)`. -/
def indexPalace (ops : TextOps) (linker : CrossPalaceLinker) (palace : Palace) :
    CrossPalaceLinker :=
  match palace.loci with
  | none => linker
  | some loci => loci.foldl (indexLocus ops palace) linker

/-- The inner loop of `buildLinks` from index `j` on: the links pushed for the memory at
index `i` with data `dataA`. -/
def linkCandidates (ops : TextOps) (config : Config) (i : ℕ) (dataA : IndexEntry) :
    ℕ → List (String × IndexEntry) → List Link
  | _, [] => []
  | j, (keyB, dataB) :: rest =>
    if i = j then linkCandidates ops config i dataA (j + 1) rest
    else if dataA.palace = dataB.palace then linkCandidates ops config i dataA (j + 1) rest
    else if calculateSimilarity ops dataA.memory dataB.memory ≥ config.similarityThreshold then
      { target := keyB
        palace := dataB.palace
        locus := dataB.locus
        subject := dataB.memory.subject
        similarity := calculateSimilarity ops dataA.memory dataB.memory }
        :: linkCandidates ops config i dataA (j + 1) rest
    else linkCandidates ops config i dataA (j + 1) rest

/-- The order of `links.sort((a, b) => b.similarity - a.similarity)`. -/
def bySimilarity (a b : Link) : Prop :=
  a.similarity ≥ b.similarity

instance bySimilarity.decidable : DecidableRel bySimilarity :=
  fun a b => inferInstanceAs (Decidable (a.similarity ≥ b.similarity))

/-- The list stored for the memory at index `i`: the pushed links, sorted by the stable
sort, cut by `slice(0, maxLinksPerMemory)`. -/
def linksFor (ops : TextOps) (config : Config) (memories : List (String × IndexEntry))
    (i : ℕ) (dataA : IndexEntry) : List Link :=
  ((linkCandidates ops config i dataA 0 memories).insertionSort bySimilarity).take
    config.maxLinksPerMemory

/-- The outer loop of `buildLinks` from index `i` on. -/
def buildLoop (ops : TextOps) (config : Config) (memories : List (String × IndexEntry)) :
    ℕ → List (String × IndexEntry) → List (String × List Link) → List (String × List Link)
  | _, [], linkGraph => linkGraph
  | i, (keyA, dataA) :: rest, linkGraph =>
    buildLoop ops config memories (i + 1) rest
      (mapSet linkGraph keyA (linksFor ops config memories i dataA))

/-- The method `buildLinks()`. -/
def buildLinks (ops : TextOps) (linker : CrossPalaceLinker) : CrossPalaceLinker :=
  { linker with
    linkGraph := buildLoop ops linker.config linker.palaceIndex 0 linker.palaceIndex
      linker.linkGraph }

/-- The expression `this.linkGraph.get(key) || []` of `getRelatedMemories` and `findPath`. -/
def linksOf (linker : CrossPalaceLinker) (key : String) : List Link :=
  (linker.linkGraph.lookup key).getD []

/-- The states of a linker: construction, then calls of `indexPalace` and `buildLinks`. -/
inductive Reachable (ops : TextOps) : CrossPalaceLinker → Prop
  | new (config : ConfigInput) : Reachable ops (CrossPalaceLinker.new config)
  | indexPalace (linker : CrossPalaceLinker) (palace : Palace) :
      Reachable ops linker → Reachable ops (indexPalace ops linker palace)
  | buildLinks (linker : CrossPalaceLinker) :
      Reachable ops linker → Reachable ops (buildLinks ops linker)

/-- A palace with one memory. -/
def samplePalaceP : Palace :=
  { name := "P"
    loci := some [{ name := "A", memories := some [⟨"m1", "cache pattern", none⟩] }] }

/-- A second palace with one memory, on the same subject. -/
def samplePalaceQ : Palace :=
  { name := "Q"
    loci := some [{ name := "B", memories := some [⟨"m2", "cache pattern", none⟩] }] }

/-- The linker of the default configuration after indexing the two sample palaces. -/
def sampleLinker : CrossPalaceLinker :=
  indexPalace sampleOps
    (indexPalace sampleOps (CrossPalaceLinker.new ⟨none, none, none⟩) samplePalaceP)
    samplePalaceQ

end CrossPalace

namespace SpacedRepetition

/-! ## Auxiliary lemmas -/

theorem orDefault_zero_nat (x : Option ℕ) : orDefault x 0 = x.getD 0 := by
  cases x with
  | none => rfl
  | some v =>
    by_cases hv : v = 0
    · simp [orDefault, hv]
    · simp [orDefault, hv]

theorem fibonacci_lookup (n : ℕ) :
    ∃ days, getFibonacciIntervals[min n (getFibonacciIntervals.length - 1)]? = some days := by
  have h : min n (getFibonacciIntervals.length - 1) < getFibonacciIntervals.length := by
    have : min n (getFibonacciIntervals.length - 1) ≤ 11 := min_le_right _ _
    simp only [getFibonacciIntervals, List.length_cons, List.length_nil]
    omega
  exact ⟨_, List.getElem?_eq_getElem h⟩

theorem exponential_lookup (n : ℕ) :
    ∃ days, getExponentialIntervals[min n (getExponentialIntervals.length - 1)]? = some days := by
  have h : min n (getExponentialIntervals.length - 1) < getExponentialIntervals.length := by
    have : min n (getExponentialIntervals.length - 1) ≤ 8 := min_le_right _ _
    simp only [getExponentialIntervals, List.length_cons, List.length_nil]
    omega
  exact ⟨_, List.getElem?_eq_getElem h⟩

/-- With a finite result of `Math.exp`-and-divide replaced by any value `x`, the last
line of `calculateRetention` is a clamp of rationals. -/
theorem calculateRetention_shape (mathExp : ℚ → ℚ) (rnd d n b : ℚ)
    (hd : 0 ≤ d) (hn : 0 ≤ n) (hb : 0 ≤ b) (hcorner : ¬ (b = 0 ∧ d = 0)) :
    ∃ x, calculateRetention mathExp rnd (.fin d) (.fin n) (.fin b)
      = .fin (min 0.98 (max (0.1 + n * 0.02) (x + (rnd - 0.5) * 0.15))) := by
  rcases eq_or_lt_of_le hb with hb0 | hbpos
  · have hd0 : d ≠ 0 := fun h => hcorner ⟨hb0.symm, h⟩
    have hdpos : 0 < d := lt_of_le_of_ne hd (Ne.symm hd0)
    have hneg : ¬ (0 < -d) := by linarith
    have hne : ¬ (-d = 0) := by
      intro h
      apply hd0
      linarith
    refine ⟨0, ?_⟩
    subst hb0
    simp only [calculateRetention, retentionFloor, retentionVariance, JSNum.add, JSNum.mul,
      JSNum.div, JSNum.neg, JSNum.exp, JSNum.min, JSNum.max, JSNum.sub, zero_mul, if_true,
      if_neg hne, if_neg hneg]
    congr 3
    ring
  · have h2 : b * (1 + n * 0.15) * 10 ≠ 0 := by positivity
    refine ⟨mathExp (-d / (b * (1 + n * 0.15) * 10)), ?_⟩
    simp only [calculateRetention, retentionFloor, retentionVariance, JSNum.add, JSNum.mul,
      JSNum.div, JSNum.neg, JSNum.exp, JSNum.min, JSNum.max, JSNum.sub, if_neg h2]
    congr 3
    ring

/-! ## Retention probability -/

/-- C1, as stated, fails: with `reviewCount = 45` the floor `0.1 + 0.02 * 45` is `1`,
and `calculateRetention(0, 45, 0.5)` returns `0.98`, which is below that floor. -/
theorem calculateRetention_below_floor :
    retentionFloor (.fin 45) = .fin 1 ∧
    calculateRetention expSample (1 / 2) (.fin 0) (.fin 45) (.fin (1 / 2)) = .fin 0.98 ∧
    JSNum.le (retentionFloor (.fin 45))
      (calculateRetention expSample (1 / 2) (.fin 0) (.fin 45) (.fin (1 / 2))) = false := by
  have hf : retentionFloor (.fin 45) = .fin 1 := by
    simp only [retentionFloor, JSNum.add, JSNum.mul]
    norm_num
  have hr : calculateRetention expSample (1 / 2) (.fin 0) (.fin 45) (.fin (1 / 2))
      = .fin 0.98 := by
    simp only [calculateRetention, retentionFloor, retentionVariance, JSNum.add, JSNum.mul,
      JSNum.div, JSNum.neg, JSNum.exp, JSNum.min, JSNum.max, JSNum.sub, expSample]
    norm_num
  refine ⟨hf, hr, ?_⟩
  rw [hf, hr]
  simp only [JSNum.le]
  norm_num

/-- C1, amended: for `daysSinceReview ≥ 0`, `reviewCount ≥ 0`, `baseStrength` in `[0, 1]`
other than the corner `baseStrength = 0, daysSinceReview = 0`, and every value of the
random draw, `calculateRetention` returns a finite `r` with
`min(floor, 0.98) ≤ r ≤ 0.98` where `floor = 0.1 + 0.02 * reviewCount`; so `floor ≤ r`
whenever `floor ≤ 0.98`, and `r = 0.98` whenever `floor ≥ 0.98`. -/
theorem calculateRetention_clamped (mathExp : ℚ → ℚ) (rnd d n b : ℚ)
    (hd : 0 ≤ d) (hn : 0 ≤ n) (hb0 : 0 ≤ b) (_hb1 : b ≤ 1) (hcorner : ¬ (b = 0 ∧ d = 0)) :
    ∃ r floor : ℚ,
      retentionFloor (.fin n) = .fin floor ∧ floor = 0.1 + 0.02 * n ∧
      calculateRetention mathExp rnd (.fin d) (.fin n) (.fin b) = .fin r ∧
      min floor 0.98 ≤ r ∧ r ≤ 0.98 ∧
      (if floor ≤ 0.98 then floor ≤ r else r = 0.98) := by
  obtain ⟨x, hx⟩ := calculateRetention_shape mathExp rnd d n b hd hn hb0 hcorner
  refine ⟨_, 0.1 + 0.02 * n, ?_, rfl, hx, ?_, min_le_left _ _, ?_⟩
  · simp only [retentionFloor, JSNum.add, JSNum.mul]
    congr 1
    ring
  · have h : 0.1 + 0.02 * n = 0.1 + n * 0.02 := by ring
    rw [h]
    exact le_min (min_le_right _ _) (le_trans (min_le_left _ _) (le_max_left _ _))
  · have h : 0.1 + 0.02 * n = 0.1 + n * 0.02 := by ring
    rw [h]
    split_ifs with hle
    · exact le_min hle (le_max_left _ _)
    · have hlt : (0.98 : ℚ) < 0.1 + n * 0.02 := not_le.mp hle
      exact min_eq_left (le_trans hlt.le (le_max_left _ _))

/-- The amended C1 at `calculateRetention(5, 2, 0.5)`. -/
theorem calculateRetention_clamped_witness :
    (0 : ℚ) ≤ 5 ∧ (0 : ℚ) ≤ 2 ∧ (0 : ℚ) ≤ 1 / 2 ∧ (1 / 2 : ℚ) ≤ 1 ∧
    ¬ ((1 / 2 : ℚ) = 0 ∧ (5 : ℚ) = 0) ∧
    ∃ r floor : ℚ,
      retentionFloor (.fin 2) = .fin floor ∧ floor = 0.1 + 0.02 * 2 ∧
      calculateRetention expSample (1 / 2) (.fin 5) (.fin 2) (.fin (1 / 2)) = .fin r ∧
      min floor 0.98 ≤ r ∧ r ≤ 0.98 ∧
      (if floor ≤ 0.98 then floor ≤ r else r = 0.98) :=
  ⟨by norm_num, by norm_num, by norm_num, by norm_num, by norm_num,
    calculateRetention_clamped expSample (1 / 2) 5 2 (1 / 2)
      (by norm_num) (by norm_num) (by norm_num) (by norm_num) (by norm_num)⟩

/-- C2, failing input: `calculateRetention(0, n, 0)` is `NaN` for every review count
`n`, every random draw and every `Math.exp`, so it is neither `>= 0` nor `<= 1`. -/
theorem calculateRetention_zero_strength_zero_days (mathExp : ℚ → ℚ) (rnd n : ℚ) :
    calculateRetention mathExp rnd (.fin 0) (.fin n) (.fin 0) = .nan ∧
    JSNum.le (.fin 0) (calculateRetention mathExp rnd (.fin 0) (.fin n) (.fin 0)) = false ∧
    JSNum.le (calculateRetention mathExp rnd (.fin 0) (.fin n) (.fin 0)) (.fin 1) = false := by
  have h : calculateRetention mathExp rnd (.fin 0) (.fin n) (.fin 0) = .nan := by
    simp [calculateRetention, retentionFloor, retentionVariance, JSNum.sub, JSNum.add,
      JSNum.mul, JSNum.div, JSNum.neg, JSNum.exp, JSNum.min, JSNum.max]
  rw [h]
  exact ⟨rfl, rfl, rfl⟩

/-- C3: for `baseStrength b > 0`, `reviewCount n ≥ 0`, every `daysSinceReview d` and
every draw `u` in `[0, 1)`, `calculateRetention(d, n, b)` equals
`min(0.98, max(0.1 + 0.02 n, exp(-d / (b (1 + 0.15 n) 10)) + (u - 0.5) 0.15))`, and the
jitter term added to the decay lies in `[-0.075, 0.075]`. -/
theorem calculateRetention_formula (mathExp : ℚ → ℚ) (u d n b : ℚ)
    (hn : 0 ≤ n) (hb : 0 < b) (hu0 : 0 ≤ u) (hu1 : u < 1) :
    calculateRetention mathExp u (.fin d) (.fin n) (.fin b)
      = .fin (retentionFormula mathExp u d n b) ∧
    ∃ j : ℚ, retentionVariance u = .fin j ∧ j = (u - 0.5) * 0.15 ∧
      -0.075 ≤ j ∧ j ≤ 0.075 := by
  have h2 : b * (1 + n * 0.15) * 10 ≠ 0 := by positivity
  refine ⟨?_, (u - 0.5) * 0.15, ?_, rfl, ?_, ?_⟩
  · simp only [calculateRetention, retentionFloor, retentionVariance, JSNum.add, JSNum.mul,
      JSNum.div, JSNum.neg, JSNum.exp, JSNum.min, JSNum.max, JSNum.sub, retentionFormula,
      if_neg h2]
    congr 3
    · ring
    · ring_nf
  · simp only [retentionVariance, JSNum.sub, JSNum.neg, JSNum.add, JSNum.mul]
    congr 1
    ring
  · linarith
  · linarith

/-- C3 at `calculateRetention(5, 2, 0.5)` with the draw `0.25`. -/
theorem calculateRetention_formula_witness :
    (0 : ℚ) ≤ 2 ∧ (0 : ℚ) < 1 / 2 ∧ (0 : ℚ) ≤ 1 / 4 ∧ (1 / 4 : ℚ) < 1 ∧
    calculateRetention expSample (1 / 4) (.fin 5) (.fin 2) (.fin (1 / 2))
      = .fin (retentionFormula expSample (1 / 4) 5 2 (1 / 2)) ∧
    ∃ j : ℚ, retentionVariance (1 / 4) = .fin j ∧ j = (1 / 4 - 0.5) * 0.15 ∧
      -0.075 ≤ j ∧ j ≤ 0.075 :=
  ⟨by norm_num, by norm_num, by norm_num, by norm_num,
    calculateRetention_formula expSample (1 / 4) 5 2 (1 / 2)
      (by norm_num) (by norm_num) (by norm_num) (by norm_num)⟩

/-! ## Interval tables and next review -/

/-- C4: with `n` the review count of the memory (0 when absent), both
`calculateNextReview` functions return `intervalIndex = min(n, len(table) - 1)` and
`daysFromNow = table[min(n, len(table) - 1)]`, a defined entry of their table; a review
count of 2 gives 3 under the Fibonacci table, every count `11 + k` gives the last entry
233 and every count `8 + k` gives the last exponential entry 480. -/
theorem calculateNextReview_table_lookup (memory : Memory) (k : ℕ) :
    (calculateNextReviewFibonacci memory).intervalIndex
      = min (memory.reviewCount.getD 0) (getFibonacciIntervals.length - 1) ∧
    (∃ days, getFibonacciIntervals[min (memory.reviewCount.getD 0)
        (getFibonacciIntervals.length - 1)]? = some days ∧
      (calculateNextReviewFibonacci memory).daysFromNow = some days) ∧
    (calculateNextReviewExponential memory).intervalIndex
      = min (memory.reviewCount.getD 0) (getExponentialIntervals.length - 1) ∧
    (∃ days, getExponentialIntervals[min (memory.reviewCount.getD 0)
        (getExponentialIntervals.length - 1)]? = some days ∧
      (calculateNextReviewExponential memory).daysFromNow = some days) ∧
    (calculateNextReviewFibonacci { memory with reviewCount := some 2 }).daysFromNow
      = some 3 ∧
    (calculateNextReviewFibonacci { memory with reviewCount := some (11 + k) }).daysFromNow
      = some 233 ∧
    (calculateNextReviewExponential { memory with reviewCount := some (8 + k) }).daysFromNow
      = some 480 := by
  refine ⟨?_, ?_, ?_, ?_, ?_, ?_, ?_⟩
  · simp only [calculateNextReviewFibonacci, orDefault_zero_nat]
  · obtain ⟨days, hdays⟩ := fibonacci_lookup (memory.reviewCount.getD 0)
    refine ⟨days, hdays, ?_⟩
    simp only [calculateNextReviewFibonacci, orDefault_zero_nat]
    exact hdays
  · simp only [calculateNextReviewExponential, orDefault_zero_nat]
  · obtain ⟨days, hdays⟩ := exponential_lookup (memory.reviewCount.getD 0)
    refine ⟨days, hdays, ?_⟩
    simp only [calculateNextReviewExponential, orDefault_zero_nat]
    exact hdays
  · simp [calculateNextReviewFibonacci, orDefault, getFibonacciIntervals]
  · have h : min (11 + k) (getFibonacciIntervals.length - 1) = 11 := by
      simp [getFibonacciIntervals]
    simp only [calculateNextReviewFibonacci, orDefault_zero_nat, Option.getD_some, h]
    rfl
  · have h : min (8 + k) (getExponentialIntervals.length - 1) = 8 := by
      simp [getExponentialIntervals]
    simp only [calculateNextReviewExponential, orDefault_zero_nat, Option.getD_some, h]
    rfl

/-- C5: `getFibonacciIntervals()` is `[1,2,3,5,8,13,21,34,55,89,144,233]`,
`getExponentialIntervals()` is `[1,3,7,14,30,60,120,240,480]`, a model constructed with
`'fibonacci'` holds the first table and a model constructed with any other tag holds the
second. -/
theorem intervals_tables (algorithm : String) (h : algorithm ≠ "fibonacci") :
    getFibonacciIntervals = [1, 2, 3, 5, 8, 13, 21, 34, 55, 89, 144, 233] ∧
    getExponentialIntervals = [1, 3, 7, 14, 30, 60, 120, 240, 480] ∧
    (RetentionModel.new "fibonacci").intervals = getFibonacciIntervals ∧
    (RetentionModel.new algorithm).intervals = getExponentialIntervals := by
  refine ⟨rfl, rfl, ?_, ?_⟩
  · simp [RetentionModel.new]
  · simp [RetentionModel.new, h]

/-- C5 at the tag `'exponential'`. -/
theorem intervals_tables_witness :
    "exponential" ≠ "fibonacci" ∧
    getFibonacciIntervals = [1, 2, 3, 5, 8, 13, 21, 34, 55, 89, 144, 233] ∧
    getExponentialIntervals = [1, 3, 7, 14, 30, 60, 120, 240, 480] ∧
    (RetentionModel.new "fibonacci").intervals = getFibonacciIntervals ∧
    (RetentionModel.new "exponential").intervals = getExponentialIntervals :=
  ⟨by decide, intervals_tables "exponential" (by decide)⟩

/-- C6: each of the two interval tables consists of positive integers, begins with 1,
and is strictly increasing: `table[i] < table[i+1]` for every valid `i`. -/
theorem intervals_strictly_increasing (table : List ℕ)
    (htable : table = getFibonacciIntervals ∨ table = getExponentialIntervals)
    (i : ℕ) (hi : i + 1 < table.length) :
    (∀ x ∈ table, 0 < x) ∧ table[0]? = some 1 ∧
    ∃ a b, table[i]? = some a ∧ table[i + 1]? = some b ∧ a < b := by
  rcases htable with rfl | rfl
  · refine ⟨by decide, rfl, ?_⟩
    have hi12 : i + 1 < 12 := hi
    have hi11 : i < 11 := by omega
    interval_cases i <;> exact ⟨_, _, rfl, rfl, by decide⟩
  · refine ⟨by decide, rfl, ?_⟩
    have hi9 : i + 1 < 9 := hi
    have hi8 : i < 8 := by omega
    interval_cases i <;> exact ⟨_, _, rfl, rfl, by decide⟩

/-- C6 at the last step of the Fibonacci table, `144 < 233`. -/
theorem intervals_strictly_increasing_witness :
    (getFibonacciIntervals = getFibonacciIntervals ∨
      getFibonacciIntervals = getExponentialIntervals) ∧
    10 + 1 < getFibonacciIntervals.length ∧
    (∀ x ∈ getFibonacciIntervals, 0 < x) ∧ getFibonacciIntervals[0]? = some 1 ∧
    ∃ a b, getFibonacciIntervals[10]? = some a ∧ getFibonacciIntervals[10 + 1]? = some b ∧
      a < b :=
  ⟨Or.inl rfl, by decide,
    intervals_strictly_increasing getFibonacciIntervals (Or.inl rfl) 10 (by decide)⟩

/-! ## Review -/

/-- C7: for every model, memory, success flag, day and random draw, the record returned
by `review` has `reviewCount` equal to the input's `reviewCount` (0 if absent) plus 1
and `lastReviewDay` equal to `currentDay`. -/
theorem review_count_and_day (model : RetentionModel) (memory : Memory) (success : Bool)
    (currentDay : ℤ) (rnd : ℚ) :
    (model.review memory success currentDay rnd).reviewCount
      = some (memory.reviewCount.getD 0 + 1) ∧
    (model.review memory success currentDay rnd).lastReviewDay = some currentDay := by
  refine ⟨?_, rfl⟩
  simp only [RetentionModel.review, orDefault_zero_nat]

/-- C8, as stated, fails: a record with `baseStrength = 0` reviewed with success comes
back with `baseStrength = 0.6`, not `min(0.95, 0 + 0.10) = 0.1`. -/
theorem review_zero_strength :
    ((RetentionModel.new "fibonacci").review
      { Memory.empty with baseStrength := some 0 } true 1 (1 / 2)).baseStrength
      = some 0.6 ∧
    (0.6 : ℚ) ≠ min 0.95 (0 + 0.10) := by
  refine ⟨?_, ?_⟩
  · simp only [RetentionModel.review, orDefault, Memory.empty]
    norm_num
  · norm_num

/-- C8, amended: for a record whose `baseStrength` `b` lies in `[0, 1]`, `review`
returns `baseStrength = min(0.95, b' + 0.10)` on success and `min(0.95, b' + 0.03)` on
failure, where `b'` is `b` when `b > 0` and the default `0.5` when `b = 0`; the returned
`baseStrength` lies in `[0, 0.95]`. -/
theorem review_baseStrength (model : RetentionModel) (memory : Memory) (success : Bool)
    (currentDay : ℤ) (rnd b : ℚ)
    (hmem : memory.baseStrength = some b) (hb0 : 0 ≤ b) (_hb1 : b ≤ 1) :
    ∃ s : ℚ,
      (model.review memory success currentDay rnd).baseStrength = some s ∧
      s = min 0.95 ((if b = 0 then 0.5 else b) + (if success then 0.10 else 0.03)) ∧
      0 ≤ s ∧ s ≤ 0.95 := by
  have hgain : (0 : ℚ) ≤ (if success then (0.10 : ℚ) else 0.03) := by
    split_ifs <;> norm_num
  have hbase : (0 : ℚ) ≤ (if b = 0 then (0.5 : ℚ) else b) := by
    split_ifs
    · norm_num
    · exact hb0
  refine ⟨_, ?_, rfl, ?_, min_le_left _ _⟩
  · simp only [RetentionModel.review, orDefault, hmem]
    congr 3
    cases success <;> norm_num
  · exact le_min (by norm_num) (add_nonneg hbase hgain)

/-- The amended C8 on a record with `baseStrength = 0.9`, reviewed with success. -/
theorem review_baseStrength_witness :
    ({ Memory.empty with baseStrength := some 0.9 } : Memory).baseStrength = some 0.9 ∧
    (0 : ℚ) ≤ 0.9 ∧ (0.9 : ℚ) ≤ 1 ∧
    ∃ s : ℚ,
      ((RetentionModel.new "fibonacci").review
        { Memory.empty with baseStrength := some 0.9 } true 7 (1 / 2)).baseStrength
        = some s ∧
      s = min 0.95 ((if (0.9 : ℚ) = 0 then 0.5 else 0.9) + (if true then 0.10 else 0.03)) ∧
      0 ≤ s ∧ s ≤ 0.95 :=
  ⟨rfl, by norm_num, by norm_num,
    review_baseStrength (RetentionModel.new "fibonacci")
      { Memory.empty with baseStrength := some 0.9 } true 7 (1 / 2) 0.9 rfl
      (by norm_num) (by norm_num)⟩

/-- C9, as stated, fails: a record with `baseStrength = 1` reviewed with success comes
back with `baseStrength = 0.95`, which is not greater than 1. -/
theorem review_full_strength :
    ((RetentionModel.new "exponential").review
      { Memory.empty with baseStrength := some 1, reviewCount := some 0 }
      true 1 (1 / 2)).baseStrength = some 0.95 ∧
    ¬ ((1 : ℚ) < 0.95) := by
  refine ⟨?_, ?_⟩
  · simp only [RetentionModel.review, orDefault, Memory.empty]
    norm_num
  · norm_num

/-- C9, amended: for every record whose `baseStrength` `b` lies in `[0, 1]` and every day,
`review(memory, true, day)` returns a record whose `reviewCount` is the input's (0 if
absent) plus 1 and whose `baseStrength` is strictly greater than `b` when `b < 0.95`, and
is the cap `0.95` when `b` lies in `[0.95, 1]`. -/
theorem review_increases_strength (model : RetentionModel) (memory : Memory)
    (currentDay : ℤ) (rnd b : ℚ)
    (hmem : memory.baseStrength = some b) (_hb0 : 0 ≤ b) (_hb1 : b ≤ 1) :
    ∃ s : ℚ,
      (model.review memory true currentDay rnd).baseStrength = some s ∧
      (if b < 0.95 then b < s else s = 0.95) ∧
      (model.review memory true currentDay rnd).reviewCount
        = some (memory.reviewCount.getD 0 + 1) := by
  refine ⟨min 0.95 (orDefault (some b) 0.5 + 0.1), ?_, ?_, ?_⟩
  · simp only [RetentionModel.review, hmem, if_true]
  · by_cases hcap : b < 0.95
    · rw [if_pos hcap]
      apply lt_min hcap
      simp only [orDefault, if_true]
      split_ifs with h0
      · rw [h0]
        norm_num
      · linarith
    · rw [if_neg hcap]
      have hge : (0.95 : ℚ) ≤ b := not_lt.mp hcap
      have hne : b ≠ 0 := by
        intro h0
        rw [h0] at hge
        norm_num at hge
      apply min_eq_left
      simp only [orDefault, if_true, if_neg hne]
      linarith
  · simp only [RetentionModel.review, orDefault_zero_nat]

/-- The amended C9 on the record of the regression test, `baseStrength = 0.5` and
`reviewCount = 0`: the reviewed record has `baseStrength > 0.5` and `reviewCount = 1`. -/
theorem review_increases_strength_witness :
    ({ Memory.empty with baseStrength := some 0.5, reviewCount := some 0 } :
      Memory).baseStrength = some 0.5 ∧
    (0 : ℚ) ≤ 0.5 ∧ (0.5 : ℚ) ≤ 1 ∧
    ∃ s : ℚ,
      ((RetentionModel.new "exponential").review
        { Memory.empty with baseStrength := some 0.5, reviewCount := some 0 }
        true 1 (1 / 2)).baseStrength = some s ∧
      (if (0.5 : ℚ) < 0.95 then 0.5 < s else s = 0.95) ∧
      ((RetentionModel.new "exponential").review
        { Memory.empty with baseStrength := some 0.5, reviewCount := some 0 }
        true 1 (1 / 2)).reviewCount = some (0 + 1) :=
  ⟨rfl, by norm_num, by norm_num,
    review_increases_strength (RetentionModel.new "exponential")
      { Memory.empty with baseStrength := some 0.5, reviewCount := some 0 } 1 (1 / 2) 0.5
      rfl (by norm_num) (by norm_num)⟩

/-- C10: for every algorithm tag, memory, success flag, day and random draw, `review` on
the model constructed with that tag sets `nextReviewDay = currentDay + table[min(c,
len(table) - 1)]`, where `c` is the review count of the returned record and `table` is
the interval table of the model; hence `nextReviewDay ≥ lastReviewDay`. -/
theorem review_nextReviewDay (algorithm : String) (memory : Memory) (success : Bool)
    (currentDay : ℤ) (rnd : ℚ) :
    ∃ (c days : ℕ) (next last : ℤ),
      ((RetentionModel.new algorithm).review memory success currentDay rnd).reviewCount
        = some c ∧
      c = memory.reviewCount.getD 0 + 1 ∧
      (RetentionModel.new algorithm).intervals[
        min c ((RetentionModel.new algorithm).intervals.length - 1)]? = some days ∧
      ((RetentionModel.new algorithm).review memory success currentDay rnd).nextReviewDay
        = some next ∧
      next = currentDay + (days : ℤ) ∧
      ((RetentionModel.new algorithm).review memory success currentDay rnd).lastReviewDay
        = some last ∧
      last = currentDay ∧ last ≤ next := by
  by_cases halg : algorithm = "fibonacci"
  · obtain ⟨days, hdays⟩ := fibonacci_lookup (memory.reviewCount.getD 0 + 1)
    refine ⟨memory.reviewCount.getD 0 + 1, days, currentDay + (days : ℤ), currentDay,
      ?_, rfl, ?_, ?_, rfl, rfl, rfl, ?_⟩
    · simp only [RetentionModel.review, orDefault_zero_nat]
    · simp only [RetentionModel.new, if_pos halg]
      exact hdays
    · simp only [RetentionModel.review, RetentionModel.new, if_pos halg,
        calculateNextReviewFibonacci, orDefault_zero_nat, Option.getD_some, hdays]
    · have : (0 : ℤ) ≤ (days : ℤ) := Int.natCast_nonneg days
      linarith
  · obtain ⟨days, hdays⟩ := exponential_lookup (memory.reviewCount.getD 0 + 1)
    refine ⟨memory.reviewCount.getD 0 + 1, days, currentDay + (days : ℤ), currentDay,
      ?_, rfl, ?_, ?_, rfl, rfl, rfl, ?_⟩
    · simp only [RetentionModel.review, orDefault_zero_nat]
    · simp only [RetentionModel.new, if_neg halg]
      exact hdays
    · simp only [RetentionModel.review, RetentionModel.new, if_neg halg,
        calculateNextReviewExponential, orDefault_zero_nat, Option.getD_some, hdays]
    · have : (0 : ℤ) ≤ (days : ℤ) := Int.natCast_nonneg days
      linarith


/-! ## Lemmas on the simulation -/

theorem orDefault_zero_int (x : Option ℤ) : orDefault x 0 = x.getD 0 := by
  cases x with
  | none => rfl
  | some v =>
    by_cases hv : v = 0
    · simp [orDefault, hv]
    · simp [orDefault, hv]

theorem digitChar_value (k : ℕ) (hk : k < 10) : (Nat.digitChar k).toNat - 48 = k := by
  interval_cases k <;> rfl

theorem toDigitsCore_value (fuel : ℕ) : ∀ (n : ℕ) (ds : List Char), n < fuel →
    ∃ pre, Nat.toDigitsCore 10 fuel n ds = pre ++ ds ∧
      pre.foldl (fun acc c => 10 * acc + (c.toNat - 48)) 0 = n := by
  induction fuel with
  | zero => intro n ds h; omega
  | succ fuel ih =>
    intro n ds h
    simp only [Nat.toDigitsCore]
    by_cases h0 : n / 10 = 0
    · rw [if_pos h0]
      refine ⟨[Nat.digitChar (n % 10)], rfl, ?_⟩
      simp only [List.foldl_cons, List.foldl_nil]
      rw [digitChar_value _ (Nat.mod_lt _ (by norm_num))]
      omega
    · rw [if_neg h0]
      have hlt : n / 10 < fuel := by omega
      obtain ⟨pre, hpre, hval⟩ := ih (n / 10) (Nat.digitChar (n % 10) :: ds) hlt
      refine ⟨pre ++ [Nat.digitChar (n % 10)], ?_, ?_⟩
      · rw [hpre]; simp
      · simp only [List.foldl_append, List.foldl_cons, List.foldl_nil]
        rw [digitChar_value _ (Nat.mod_lt _ (by norm_num)), hval]
        omega

theorem memId_injective (i j : ℕ) (h : memId i = memId j) : i = j := by
  have h1 : (toString i : String) = toString j := by
    have := congrArg String.data h
    simp only [memId, String.data_append] at this
    exact String.ext (List.append_cancel_left this)
  have h2 : Nat.toDigits 10 i = Nat.toDigits 10 j := by
    have := congrArg String.data h1
    simpa [toString, Nat.repr, List.asString] using this
  obtain ⟨p, hp, hv⟩ := toDigitsCore_value (i + 1) i [] (by omega)
  obtain ⟨q, hq, hw⟩ := toDigitsCore_value (j + 1) j [] (by omega)
  simp only [Nat.toDigits] at h2
  rw [hp, hq] at h2
  simp only [List.append_nil] at h2
  rw [← hv, ← hw, h2]

theorem review_scheduleKey (model : RetentionModel) (memory : Memory) (success : Bool)
    (day : ℤ) (rnd : ℚ) :
    scheduleKey (model.review memory success day rnd)
      = reviewKey model day (scheduleKey memory) := by
  by_cases h : model.algorithm = "fibonacci"
  · simp only [scheduleKey, reviewKey, RetentionModel.review, scheduleNext, if_pos h,
      calculateNextReviewFibonacci, orDefault_zero_nat, Option.getD_some]
  · simp only [scheduleKey, reviewKey, RetentionModel.review, scheduleNext, if_neg h,
      calculateNextReviewExponential, orDefault_zero_nat, Option.getD_some]

theorem set_append_cons (done : List Memory) (m x : Memory) (rest : List Memory) :
    (done ++ m :: rest).set done.length x = done ++ x :: rest := by
  rw [List.set_append_right _ _ (le_refl _)]
  simp

theorem findIdx_append_cons (done rest : List Memory) (m : Memory)
    (h : ∀ a ∈ done, a.id ≠ m.id) :
    (done ++ m :: rest).findIdx? (fun a => decide (a.id = m.id)) = some done.length := by
  have hnone : done.findIdx? (fun a => decide (a.id = m.id)) = none := by
    rw [List.findIdx?_eq_none_iff]
    intro a ha
    simp [h a ha]
  rw [List.findIdx?_append, hnone]
  simp

/-- The reviews of a day in which the records still to review are `todo`, in the order
of the population: each is replaced in place by a reviewed copy. -/
theorem foldl_reviewScheduled (model : RetentionModel) (mathExp : ℚ → ℚ) (rng : ℕ → ℚ)
    (day d : ℤ) : ∀ (todo done : List Memory) (draws : ℕ),
    (∀ a ∈ done, ∀ b ∈ todo, a.id ≠ b.id) → (todo.map (fun m => m.id)).Nodup →
    ∃ todo', ((todo.map (fun m => (⟨m, d⟩ : ScheduledReview))).foldl
        (reviewScheduled model mathExp rng day) (done ++ todo, draws)).1 = done ++ todo' ∧
      todo'.map scheduleKey = todo.map (fun m => reviewKey model day (scheduleKey m)) := by
  intro todo
  induction todo with
  | nil =>
    intro done draws _ _
    exact ⟨[], rfl, rfl⟩
  | cons m rest ih =>
    intro done draws hdone hnodup
    have hm : ∀ a ∈ done, a.id ≠ m.id := fun a ha => hdone a ha m (List.mem_cons_self _ _)
    rw [List.map_cons, List.nodup_cons] at hnodup
    obtain ⟨hnot, hrest⟩ := hnodup
    simp only [List.map_cons, List.foldl_cons]
    have hstep : ∃ x draws', reviewScheduled model mathExp rng day (done ++ m :: rest, draws) ⟨m, d⟩
        = ((done ++ [x]) ++ rest, draws') ∧ scheduleKey x = reviewKey model day (scheduleKey m) := by
      refine ⟨model.review m
          (model.attemptRecall mathExp m day (rng draws) (rng (draws + 1))).recalled day
          (rng (draws + 2)), draws + 3, ?_, review_scheduleKey model m _ day _⟩
      simp only [reviewScheduled, findIdx_append_cons done rest m hm, set_append_cons]
      simp
    obtain ⟨x, draws', hx, hkey⟩ := hstep
    rw [hx]
    have hxid : x.id = m.id := by
      have := congrArg Prod.fst hkey
      simpa [scheduleKey, reviewKey] using this
    have hdone' : ∀ a ∈ done ++ [x], ∀ b ∈ rest, a.id ≠ b.id := by
      intro a ha b hb
      rcases List.mem_append.mp ha with ha | ha
      · exact hdone a ha b (List.mem_cons_of_mem _ hb)
      · rw [List.mem_singleton] at ha
        subst ha
        rw [hxid]
        intro heq
        exact hnot (List.mem_map.mpr ⟨b, hb, heq.symm⟩)
    obtain ⟨rest', hfold, hkeys⟩ := ih (done ++ [x]) draws' hdone' hrest
    refine ⟨x :: rest', ?_, ?_⟩
    · rw [hfold]; simp
    · simp [hkey, hkeys]


theorem uniform_length {n count : ℕ} {next : Option ℤ} {memories : List Memory}
    (h : Uniform n count next memories) : memories.length = n := by
  have := congrArg List.length h
  simpa using this

theorem uniform_mem {n count : ℕ} {next : Option ℤ} {memories : List Memory}
    (h : Uniform n count next memories) (m : Memory) (hm : m ∈ memories) :
    m.reviewCount = some count ∧ m.nextReviewDay = next := by
  have hk : scheduleKey m ∈ memories.map scheduleKey := List.mem_map.mpr ⟨m, hm, rfl⟩
  rw [h] at hk
  obtain ⟨i, _, hi⟩ := List.mem_map.mp hk
  simp only [scheduleKey, Prod.mk.injEq] at hi
  exact ⟨hi.2.1.symm, hi.2.2.symm⟩

theorem uniform_nodup {n count : ℕ} {next : Option ℤ} {memories : List Memory}
    (h : Uniform n count next memories) : (memories.map (fun m => m.id)).Nodup := by
  have h1 : memories.map (fun m => m.id) = (memories.map scheduleKey).map Prod.fst := by
    simp [scheduleKey, Function.comp_def]
  rw [h1, h]
  simp only [List.map_map]
  apply List.Nodup.map _ (List.nodup_range n)
  intro i j hij
  simp only [Function.comp_apply, Option.some.injEq] at hij
  exact memId_injective i j hij

/-- On a day on which no record is due, no review is scheduled and nothing changes. -/
theorem reviewDue_not_due (model : RetentionModel) (mathExp : ℚ → ℚ) (rng : ℕ → ℚ)
    (n count : ℕ) (next : Option ℤ) (memories : List Memory) (draws : ℕ) (day : ℤ)
    (h : Uniform n count next memories) (hday : ¬ orDefault next 1 ≤ day) :
    (reviewDue model mathExp rng memories draws day).1 = memories ∧
    (reviewDue model mathExp rng memories draws day).2.2 = 0 := by
  have hfilter : memories.filter (fun m => decide (orDefault m.nextReviewDay 1 ≤ day)) = [] := by
    rw [List.filter_eq_nil_iff]
    intro m hm
    rw [(uniform_mem h m hm).2]
    simpa using hday
  simp [reviewDue, RetentionModel.getScheduledReviews, hfilter]

/-- On a day on which the records are due, all are scheduled, in the order of the
population, and each is replaced by a reviewed copy. -/
theorem reviewDue_due (model : RetentionModel) (mathExp : ℚ → ℚ) (rng : ℕ → ℚ)
    (n count : ℕ) (next : Option ℤ) (memories : List Memory) (draws : ℕ) (day : ℤ)
    (h : Uniform n count next memories) (hday : orDefault next 1 ≤ day) :
    Uniform n (count + 1) (scheduleNext model day (count + 1))
      (reviewDue model mathExp rng memories draws day).1 ∧
    (reviewDue model mathExp rng memories draws day).2.2 = n := by
  have hfilter : memories.filter (fun m => decide (orDefault m.nextReviewDay 1 ≤ day))
      = memories := by
    rw [List.filter_eq_self]
    intro m hm
    rw [(uniform_mem h m hm).2]
    simpa using hday
  have hmap : memories.map (fun m => (⟨m, orDefault m.nextReviewDay 1⟩ : ScheduledReview))
      = memories.map (fun m => (⟨m, orDefault next 1⟩ : ScheduledReview)) := by
    apply List.map_congr_left
    intro m hm
    rw [(uniform_mem h m hm).2]
  have hsorted : List.Sorted (fun a b : ScheduledReview => a.day ≤ b.day)
      (memories.map (fun m => (⟨m, orDefault next 1⟩ : ScheduledReview))) := by
    rw [List.Sorted, List.pairwise_map]
    exact List.pairwise_of_forall (fun _ _ => le_refl _)
  have hsched : model.getScheduledReviews memories day
      = memories.map (fun m => (⟨m, orDefault next 1⟩ : ScheduledReview)) := by
    simp only [RetentionModel.getScheduledReviews, hfilter, hmap]
    exact List.Sorted.insertionSort_eq hsorted
  obtain ⟨todo', hfold, hkeys⟩ := foldl_reviewScheduled model mathExp rng day
    (orDefault next 1) memories [] draws (by simp) (uniform_nodup h)
  simp only [List.nil_append] at hfold
  refine ⟨?_, ?_⟩
  · simp only [reviewDue, hsched, hfold, Uniform, hkeys]
    have : memories.map (fun m => reviewKey model day (scheduleKey m))
        = (memories.map scheduleKey).map (reviewKey model day) := by simp
    rw [this, h]
    simp [reviewKey]
  · simp only [reviewDue, hsched, List.length_map]
    exact uniform_length h

/-- One day of the schedule of a uniform population. -/
theorem reviewDue_uniform (model : RetentionModel) (mathExp : ℚ → ℚ) (rng : ℕ → ℚ)
    (n : ℕ) (state : ℕ × Option ℤ × ℕ) (memories : List Memory) (draws : ℕ) (day : ℕ)
    (h : Uniform n state.1 state.2.1 memories) :
    Uniform n (scheduleStep model state day).1 (scheduleStep model state day).2.1
      (reviewDue model mathExp rng memories draws day).1 ∧
    n * state.2.2 + (reviewDue model mathExp rng memories draws day).2.2
      = n * (scheduleStep model state day).2.2 := by
  by_cases hday : orDefault state.2.1 1 ≤ (day : ℤ)
  · obtain ⟨h1, h2⟩ := reviewDue_due model mathExp rng n state.1 state.2.1 memories draws
      day h hday
    simp only [scheduleStep, if_pos hday]
    refine ⟨h1, ?_⟩
    rw [h2]
    ring
  · obtain ⟨h1, h2⟩ := reviewDue_not_due model mathExp rng n state.1 state.2.1 memories
      draws day h hday
    simp only [scheduleStep, if_neg hday]
    rw [h1, h2]
    exact ⟨h, rfl⟩


theorem createMemory_uniform (rng : ℕ → ℚ) (now : ℤ) (n : ℕ) :
    Uniform n 0 none ((List.range n).foldl (createMemory rng now) ([], [], 0)).1 ∧
    Uniform n 0 none ((List.range n).foldl (createMemory rng now) ([], [], 0)).2.1 := by
  induction n with
  | zero => exact ⟨rfl, rfl⟩
  | succ n ih =>
    obtain ⟨h1, h2⟩ := ih
    simp only [Uniform] at h1 h2 ⊢
    simp only [List.range_succ, List.foldl_append, List.foldl_cons, List.foldl_nil,
      List.map_append, List.map_cons, List.map_nil]
    refine ⟨?_, ?_⟩
    · simp only [createMemory, List.map_append, h1, List.map_cons, List.map_nil, scheduleKey]
    · simp only [createMemory, List.map_append, h2, List.map_cons, List.map_nil, scheduleKey]

theorem startSimulation_uniform (rng : ℕ → ℚ) (now : ℤ) (n : ℕ) :
    Uniform n 0 none (startSimulation rng now n).fibonacciMemories ∧
    Uniform n 0 none (startSimulation rng now n).exponentialMemories ∧
    (startSimulation rng now n).fibReviews = 0 ∧
    (startSimulation rng now n).expReviews = 0 :=
  ⟨(createMemory_uniform rng now n).1, (createMemory_uniform rng now n).2, rfl, rfl⟩

theorem simulateDays_succ (mathExp : ℚ → ℚ) (rng : ℕ → ℚ) (now : ℤ) (n d : ℕ) :
    simulateDays mathExp rng now n (d + 1)
      = simulateDay mathExp rng (simulateDays mathExp rng now n d) (d + 1) := by
  simp only [simulateDays, List.range_succ, List.map_append, List.foldl_append,
    List.map_cons, List.map_nil, List.foldl_cons, List.foldl_nil]

theorem scheduleAfter_succ (model : RetentionModel) (d : ℕ) :
    scheduleAfter model (d + 1) = scheduleStep model (scheduleAfter model d) (d + 1) := by
  simp only [scheduleAfter, List.range_succ, List.map_append, List.foldl_append,
    List.map_cons, List.map_nil, List.foldl_cons, List.foldl_nil]

theorem recordCheckpoints_memories (mathExp : ℚ → ℚ) (rng : ℕ → ℚ) (sim : Simulation)
    (day : ℕ) :
    (recordCheckpoints mathExp rng sim day).fibonacciMemories = sim.fibonacciMemories ∧
    (recordCheckpoints mathExp rng sim day).exponentialMemories = sim.exponentialMemories ∧
    (recordCheckpoints mathExp rng sim day).fibReviews = sim.fibReviews ∧
    (recordCheckpoints mathExp rng sim day).expReviews = sim.expReviews := by
  unfold recordCheckpoints
  split_ifs
  · exact ⟨rfl, rfl, rfl, rfl⟩
  · exact ⟨rfl, rfl, rfl, rfl⟩

/-- After every number of days both populations are uniform and follow the schedule of
a single record; the reviews counted are those of the schedule, once per record. -/
theorem simulateDays_uniform (mathExp : ℚ → ℚ) (rng : ℕ → ℚ) (now : ℤ) (n d : ℕ) :
    Uniform n (scheduleAfter (RetentionModel.new "fibonacci") d).1
      (scheduleAfter (RetentionModel.new "fibonacci") d).2.1
      (simulateDays mathExp rng now n d).fibonacciMemories ∧
    Uniform n (scheduleAfter (RetentionModel.new "exponential") d).1
      (scheduleAfter (RetentionModel.new "exponential") d).2.1
      (simulateDays mathExp rng now n d).exponentialMemories ∧
    (simulateDays mathExp rng now n d).fibReviews
      = n * (scheduleAfter (RetentionModel.new "fibonacci") d).2.2 ∧
    (simulateDays mathExp rng now n d).expReviews
      = n * (scheduleAfter (RetentionModel.new "exponential") d).2.2 := by
  induction d with
  | zero =>
    obtain ⟨h1, h2, h3, h4⟩ := startSimulation_uniform rng now n
    exact ⟨h1, h2, by simpa [simulateDays, scheduleAfter] using h3,
      by simpa [simulateDays, scheduleAfter] using h4⟩
  | succ d ih =>
    obtain ⟨h1, h2, h3, h4⟩ := ih
    obtain ⟨m1, m2, m3, m4⟩ := recordCheckpoints_memories mathExp rng
      (reviewsOfDay mathExp rng (simulateDays mathExp rng now n d) (d + 1)) (d + 1)
    rw [simulateDays_succ, scheduleAfter_succ, scheduleAfter_succ]
    simp only [simulateDay, m1, m2, m3, m4]
    obtain ⟨f1, f2⟩ := reviewDue_uniform (RetentionModel.new "fibonacci") mathExp rng n
      (scheduleAfter (RetentionModel.new "fibonacci") d)
      (simulateDays mathExp rng now n d).fibonacciMemories
      (simulateDays mathExp rng now n d).draws (d + 1) h1
    obtain ⟨e1, e2⟩ := reviewDue_uniform (RetentionModel.new "exponential") mathExp rng n
      (scheduleAfter (RetentionModel.new "exponential") d)
      (simulateDays mathExp rng now n d).exponentialMemories
      (reviewDue (RetentionModel.new "fibonacci") mathExp rng
        (simulateDays mathExp rng now n d).fibonacciMemories
        (simulateDays mathExp rng now n d).draws ((d + 1 : ℕ) : ℤ)).2.1 (d + 1) h2
    refine ⟨f1, e1, ?_, ?_⟩
    · simp only [reviewsOfDay, h3]
      exact f2
    · simp only [reviewsOfDay, h4]
      exact e2


theorem push_get (results : ByCheckpoint (List CheckpointRecord)) (day k : ℕ)
    (x : CheckpointRecord) :
    (results.push day x).get k
      = if day = k then (results.get k).map (fun l => l ++ [x]) else results.get k := by
  simp only [ByCheckpoint.push, ByCheckpoint.get]
  split_ifs <;> simp_all

theorem foldl_recordCheckpoint (model : RetentionModel) (mathExp : ℚ → ℚ) (rng : ℕ → ℚ)
    (day : ℕ) : ∀ (memories : List Memory) (results : ByCheckpoint (List CheckpointRecord))
      (draws : ℕ),
    ∃ records, List.Forall₂ (RecordedFrom model mathExp day) memories records ∧
      ∀ k, (memories.foldl (recordCheckpoint model mathExp rng day) (results, draws)).1.get k
        = if day = k then (results.get k).map (fun l => l ++ records) else results.get k := by
  intro memories
  induction memories with
  | nil =>
    intro results draws
    refine ⟨[], List.Forall₂.nil, ?_⟩
    intro k
    simp
  | cons m rest ih =>
    intro results draws
    obtain ⟨records, hrec, hget⟩ := ih
      (recordCheckpoint model mathExp rng day (results, draws) m).1
      (recordCheckpoint model mathExp rng day (results, draws) m).2
    refine ⟨({ id := m.id
               recalled := (model.attemptRecall mathExp m day (rng draws)
                 (rng (draws + 1))).recalled
               confidence := (model.attemptRecall mathExp m day (rng draws)
                 (rng (draws + 1))).confidence
               reviews := m.reviewCount } : CheckpointRecord) :: records,
      List.Forall₂.cons ?_ hrec, ?_⟩
    rotate_left
    · intro k
      rw [List.foldl_cons, hget k]
      simp only [recordCheckpoint, push_get]
      split_ifs
      · simp [Option.map_map, Function.comp_def]
      · rfl
    · exact ⟨rfl, rfl, rng draws, rng (draws + 1), rfl, rfl⟩


theorem get_eq_none {α : Type} (results : ByCheckpoint α) (k : ℕ) (hk : k ∉ [30, 60, 90]) :
    results.get k = none := by
  simp only [List.mem_cons, List.mem_singleton, List.not_mem_nil, or_false, not_or] at hk
  simp [ByCheckpoint.get, hk.1, hk.2.1, hk.2.2]

/-- What the checkpoint step of a day records: one entry per record of each population,
appended to the array of that day; the other arrays are left as they are. -/
theorem recordCheckpoints_get (mathExp : ℚ → ℚ) (rng : ℕ → ℚ) (sim : Simulation)
    (day : ℕ) :
    ∃ fibRecords expRecords,
      List.Forall₂ (RecordedFrom (RetentionModel.new "fibonacci") mathExp day)
        sim.fibonacciMemories fibRecords ∧
      List.Forall₂ (RecordedFrom (RetentionModel.new "exponential") mathExp day)
        sim.exponentialMemories expRecords ∧
      ∀ k,
        (recordCheckpoints mathExp rng sim day).fibResults.get k
          = (if day = k then (sim.fibResults.get k).map (fun l => l ++ fibRecords)
             else sim.fibResults.get k) ∧
        (recordCheckpoints mathExp rng sim day).expResults.get k
          = (if day = k then (sim.expResults.get k).map (fun l => l ++ expRecords)
             else sim.expResults.get k) := by
  obtain ⟨fibRecords, hfib, hfget⟩ := foldl_recordCheckpoint
    (RetentionModel.new "fibonacci") mathExp rng day sim.fibonacciMemories sim.fibResults
    sim.draws
  obtain ⟨expRecords, hexp, heget⟩ := foldl_recordCheckpoint
    (RetentionModel.new "exponential") mathExp rng day sim.exponentialMemories
    sim.expResults
    (sim.fibonacciMemories.foldl
      (recordCheckpoint (RetentionModel.new "fibonacci") mathExp rng day)
      (sim.fibResults, sim.draws)).2
  refine ⟨fibRecords, expRecords, hfib, hexp, ?_⟩
  intro k
  by_cases hday : day ∈ [30, 60, 90]
  · simp only [recordCheckpoints, if_pos hday]
    exact ⟨hfget k, heget k⟩
  · simp only [recordCheckpoints, if_neg hday]
    by_cases hk : day = k
    · subst hk
      simp [get_eq_none _ day hday]
    · simp [hk]

/-- The array of checkpoint `k` is empty before day `k`, and from day `k` on it holds
what was recorded on day `k`: one entry per record of the population of that day. -/
theorem simulateDays_results (mathExp : ℚ → ℚ) (rng : ℕ → ℚ) (now : ℤ) (n k : ℕ)
    (hk : k ∈ [30, 60, 90]) (d : ℕ) :
    (d < k →
      (simulateDays mathExp rng now n d).fibResults.get k = some [] ∧
      (simulateDays mathExp rng now n d).expResults.get k = some []) ∧
    (k ≤ d → ∃ fibRecords expRecords,
      (simulateDays mathExp rng now n d).fibResults.get k = some fibRecords ∧
      (simulateDays mathExp rng now n d).expResults.get k = some expRecords ∧
      List.Forall₂ (RecordedFrom (RetentionModel.new "fibonacci") mathExp k)
        (simulateDays mathExp rng now n k).fibonacciMemories fibRecords ∧
      List.Forall₂ (RecordedFrom (RetentionModel.new "exponential") mathExp k)
        (simulateDays mathExp rng now n k).exponentialMemories expRecords) := by
  have hkpos : 0 < k := by
    simp only [List.mem_cons, List.mem_singleton, List.not_mem_nil, or_false] at hk
    omega
  induction d with
  | zero =>
    refine ⟨fun _ => ?_, fun h => by omega⟩
    simp only [List.mem_cons, List.mem_singleton, List.not_mem_nil, or_false] at hk
    rcases hk with rfl | rfl | rfl <;> exact ⟨rfl, rfl⟩
  | succ d ih =>
    obtain ⟨ihlt, ihge⟩ := ih
    obtain ⟨fibRecords, expRecords, hfib, hexp, hget⟩ := recordCheckpoints_get mathExp rng
      (reviewsOfDay mathExp rng (simulateDays mathExp rng now n d) (d + 1)) (d + 1)
    obtain ⟨m1, m2, _, _⟩ := recordCheckpoints_memories mathExp rng
      (reviewsOfDay mathExp rng (simulateDays mathExp rng now n d) (d + 1)) (d + 1)
    have hsucc := simulateDays_succ mathExp rng now n d
    have hf : (simulateDays mathExp rng now n (d + 1)).fibResults.get k
        = if d + 1 = k then
            ((simulateDays mathExp rng now n d).fibResults.get k).map
              (fun l => l ++ fibRecords)
          else (simulateDays mathExp rng now n d).fibResults.get k := by
      rw [hsucc]
      exact (hget k).1
    have he : (simulateDays mathExp rng now n (d + 1)).expResults.get k
        = if d + 1 = k then
            ((simulateDays mathExp rng now n d).expResults.get k).map
              (fun l => l ++ expRecords)
          else (simulateDays mathExp rng now n d).expResults.get k := by
      rw [hsucc]
      exact (hget k).2
    refine ⟨fun hlt => ?_, fun hge => ?_⟩
    · have hne : ¬ (d + 1 = k) := by omega
      rw [hf, he, if_neg hne, if_neg hne]
      exact ihlt (by omega)
    · by_cases heq : d + 1 = k
      · obtain ⟨i1, i2⟩ := ihlt (by omega)
        refine ⟨fibRecords, expRecords, ?_, ?_, ?_, ?_⟩
        · rw [hf, if_pos heq, i1]; rfl
        · rw [he, if_pos heq, i2]; rfl
        · rw [← heq, hsucc]
          simp only [simulateDay, m1]
          exact hfib
        · rw [← heq, hsucc]
          simp only [simulateDay, m2]
          exact hexp
      · obtain ⟨fr, er, j1, j2, j3, j4⟩ := ihge (by omega)
        refine ⟨fr, er, ?_, ?_, j3, j4⟩
        · rw [hf, if_neg heq, j1]
        · rw [he, if_neg heq, j2]


theorem recordedFrom_reviews (model : RetentionModel) (mathExp : ℚ → ℚ) (day count : ℕ) :
    ∀ (memories : List Memory) (records : List CheckpointRecord),
    List.Forall₂ (RecordedFrom model mathExp day) memories records →
    (∀ m ∈ memories, m.reviewCount = some count) →
    ∀ r ∈ records, r.reviews = some count := by
  intro memories records h
  induction h with
  | nil => intro _ r hr; cases hr
  | cons hab _ ih =>
    intro hall r hr
    rcases List.mem_cons.mp hr with rfl | hr
    · rw [hab.2.1]
      exact hall _ (List.mem_cons_self _ _)
    · exact ih (fun m hm => hall m (List.mem_cons_of_mem _ hm)) r hr

/-- From day `k` on, the array of checkpoint `k` has one entry per record, and every
entry carries the review count that the schedule gives on day `k`. -/
theorem simulateDays_records (mathExp : ℚ → ℚ) (rng : ℕ → ℚ) (now : ℤ) (n k : ℕ)
    (hk : k ∈ [30, 60, 90]) (d : ℕ) (hkd : k ≤ d) :
    ∃ fibRecords expRecords,
      (simulateDays mathExp rng now n d).fibResults.get k = some fibRecords ∧
      (simulateDays mathExp rng now n d).expResults.get k = some expRecords ∧
      fibRecords.length = n ∧ expRecords.length = n ∧
      (∀ r ∈ fibRecords,
        r.reviews = some (scheduleAfter (RetentionModel.new "fibonacci") k).1) ∧
      (∀ r ∈ expRecords,
        r.reviews = some (scheduleAfter (RetentionModel.new "exponential") k).1) := by
  obtain ⟨fr, er, h1, h2, h3, h4⟩ := (simulateDays_results mathExp rng now n k hk d).2 hkd
  obtain ⟨u1, u2, _, _⟩ := simulateDays_uniform mathExp rng now n k
  refine ⟨fr, er, h1, h2, ?_, ?_, ?_, ?_⟩
  · rw [← h3.length_eq]
    exact uniform_length u1
  · rw [← h4.length_eq]
    exact uniform_length u2
  · exact recordedFrom_reviews _ mathExp k _ _ fr h3 (fun m hm => (uniform_mem u1 m hm).1)
  · exact recordedFrom_reviews _ mathExp k _ _ er h4 (fun m hm => (uniform_mem u2 m hm).1)

theorem foldl_reviews (count : ℕ) : ∀ (records : List CheckpointRecord) (start : ℚ),
    (∀ r ∈ records, r.reviews = some count) →
    records.foldl (fun a r => JSNum.add a (optionalNumber r.reviews)) (.fin start)
      = .fin (start + records.length * count) := by
  intro records
  induction records with
  | nil => intro start _; simp
  | cons r rest ih =>
    intro start hall
    have hstep : JSNum.add (.fin start) (optionalNumber (some count))
        = .fin (start + count) := rfl
    rw [List.foldl_cons, hall r (List.mem_cons_self _ _), hstep,
      ih _ (fun x hx => hall x (List.mem_cons_of_mem _ hx))]
    congr 1
    simp only [List.length_cons]
    push_cast
    ring

theorem calculateStats_avgReviews (records : List CheckpointRecord) (count : ℕ)
    (hlen : records ≠ []) (hall : ∀ r ∈ records, r.reviews = some count) :
    (calculateStats records).avgReviews = .fin count := by
  have hpos : (records.length : ℚ) ≠ 0 := by
    have : records.length ≠ 0 := fun h => hlen (List.length_eq_zero.mp h)
    exact_mod_cast this
  simp only [calculateStats, foldl_reviews count records 0 hall, JSNum.div, if_neg hpos]
  congr 1
  field_simp

theorem calculateStats_nil :
    calculateStats [] = { retentionRate := .nan, avgConfidence := .nan, avgReviews := .nan,
                          sampleSize := 0 } := by
  simp [calculateStats, JSNum.div, JSNum.mul]

theorem get_day30 {α : Type} (r : ByCheckpoint α) : r.get 30 = some r.day30 := rfl
theorem get_day60 {α : Type} (r : ByCheckpoint α) : r.get 60 = some r.day60 := rfl
theorem get_day90 {α : Type} (r : ByCheckpoint α) : r.get 90 = some r.day90 := rfl

set_option maxRecDepth 100000 in
theorem scheduleAfter_values :
    scheduleAfter (RetentionModel.new "fibonacci") 30 = (5, some 32, 5) ∧
    scheduleAfter (RetentionModel.new "fibonacci") 60 = (7, some 87, 7) ∧
    scheduleAfter (RetentionModel.new "fibonacci") 90 = (8, some 142, 8) ∧
    scheduleAfter (RetentionModel.new "exponential") 30 = (4, some 55, 4) ∧
    scheduleAfter (RetentionModel.new "exponential") 60 = (5, some 115, 5) ∧
    scheduleAfter (RetentionModel.new "exponential") 90 = (5, some 115, 5) := by
  refine ⟨?_, ?_, ?_, ?_, ?_, ?_⟩ <;> decide

set_option maxRecDepth 100000 in
theorem scheduleAfter_fibonacci_days : ∀ d : Fin 91,
    (scheduleAfter (RetentionModel.new "fibonacci") d.val).2.2
      = ([1, 3, 6, 11, 19, 32, 53, 87].filter (fun day => decide (day ≤ d.val))).length := by
  decide

set_option maxRecDepth 100000 in
theorem scheduleAfter_exponential_days : ∀ d : Fin 91,
    (scheduleAfter (RetentionModel.new "exponential") d.val).2.2
      = ([1, 4, 11, 25, 55].filter (fun day => decide (day ≤ d.val))).length := by
  decide


/-- With an empty population every checkpoint array stays empty. -/
theorem simulateDays_empty (mathExp : ℚ → ℚ) (rng : ℕ → ℚ) (now : ℤ) (k : ℕ)
    (hk : k ∈ [30, 60, 90]) (d : ℕ) :
    (simulateDays mathExp rng now 0 d).fibResults.get k = some [] ∧
    (simulateDays mathExp rng now 0 d).expResults.get k = some [] := by
  by_cases hkd : k ≤ d
  · obtain ⟨fr, er, h1, h2, l1, l2, _, _⟩ := simulateDays_records mathExp rng now 0 k hk d hkd
    rw [h1, h2, List.length_eq_zero.mp l1, List.length_eq_zero.mp l2]
    exact ⟨rfl, rfl⟩
  · exact (simulateDays_results mathExp rng now 0 k hk d).1 (by omega)

theorem compareAlgorithms_empty (mathExp : ℚ → ℚ) (rng : ℕ → ℚ) (now : ℤ) (duration : ℕ) :
    (compareAlgorithms mathExp rng now duration 0).checkpoints.day30.fibonacci
      = { retentionRate := .nan, avgConfidence := .nan, avgReviews := .nan, sampleSize := 0 } ∧
    (compareAlgorithms mathExp rng now duration 0).checkpoints.day30.exponential
      = { retentionRate := .nan, avgConfidence := .nan, avgReviews := .nan, sampleSize := 0 } ∧
    (compareAlgorithms mathExp rng now duration 0).checkpoints.day60.fibonacci
      = { retentionRate := .nan, avgConfidence := .nan, avgReviews := .nan, sampleSize := 0 } ∧
    (compareAlgorithms mathExp rng now duration 0).checkpoints.day60.exponential
      = { retentionRate := .nan, avgConfidence := .nan, avgReviews := .nan, sampleSize := 0 } ∧
    (compareAlgorithms mathExp rng now duration 0).checkpoints.day90.fibonacci
      = { retentionRate := .nan, avgConfidence := .nan, avgReviews := .nan, sampleSize := 0 } ∧
    (compareAlgorithms mathExp rng now duration 0).checkpoints.day90.exponential
      = { retentionRate := .nan, avgConfidence := .nan, avgReviews := .nan, sampleSize := 0 } := by
  obtain ⟨a1, a2⟩ := simulateDays_empty mathExp rng now 30 (by decide) duration
  obtain ⟨b1, b2⟩ := simulateDays_empty mathExp rng now 60 (by decide) duration
  obtain ⟨c1, c2⟩ := simulateDays_empty mathExp rng now 90 (by decide) duration
  rw [get_day30, Option.some.injEq] at a1 a2
  rw [get_day60, Option.some.injEq] at b1 b2
  rw [get_day90, Option.some.injEq] at c1 c2
  simp only [compareAlgorithms, a1, a2, b1, b2, c1, c2, calculateStats_nil, and_self]

/-- The average review counts of the six checkpoint entries of a run of 90 days. -/
theorem compareAlgorithms_avgReviews (mathExp : ℚ → ℚ) (rng : ℕ → ℚ) (now : ℤ) (n : ℕ)
    (hn : 1 ≤ n) :
    (compareAlgorithms mathExp rng now 90 n).checkpoints.day30.fibonacci.avgReviews = .fin 5 ∧
    (compareAlgorithms mathExp rng now 90 n).checkpoints.day60.fibonacci.avgReviews = .fin 7 ∧
    (compareAlgorithms mathExp rng now 90 n).checkpoints.day90.fibonacci.avgReviews = .fin 8 ∧
    (compareAlgorithms mathExp rng now 90 n).checkpoints.day30.exponential.avgReviews = .fin 4 ∧
    (compareAlgorithms mathExp rng now 90 n).checkpoints.day60.exponential.avgReviews = .fin 5 ∧
    (compareAlgorithms mathExp rng now 90 n).checkpoints.day90.exponential.avgReviews = .fin 5 := by
  obtain ⟨s1, s2, s3, s4, s5, s6⟩ := scheduleAfter_values
  have hne : ∀ l : List CheckpointRecord, l.length = n → l ≠ [] := by
    intro l hl h
    rw [h] at hl
    simp at hl
    omega
  obtain ⟨fa, ea, a1, a2, a3, a4, a5, a6⟩ :=
    simulateDays_records mathExp rng now n 30 (by decide) 90 (by norm_num)
  obtain ⟨fb, eb, b1, b2, b3, b4, b5, b6⟩ :=
    simulateDays_records mathExp rng now n 60 (by decide) 90 (by norm_num)
  obtain ⟨fc, ec, c1, c2, c3, c4, c5, c6⟩ :=
    simulateDays_records mathExp rng now n 90 (by decide) 90 (by norm_num)
  rw [get_day30, Option.some.injEq] at a1 a2
  rw [get_day60, Option.some.injEq] at b1 b2
  rw [get_day90, Option.some.injEq] at c1 c2
  rw [s1] at a5
  rw [s4] at a6
  rw [s2] at b5
  rw [s5] at b6
  rw [s3] at c5
  rw [s6] at c6
  simp only [compareAlgorithms, a1, a2, b1, b2, c1, c2]
  refine ⟨?_, ?_, ?_, ?_, ?_, ?_⟩
  · exact_mod_cast calculateStats_avgReviews fa 5 (hne fa a3) a5
  · exact_mod_cast calculateStats_avgReviews fb 7 (hne fb b3) b5
  · exact_mod_cast calculateStats_avgReviews fc 8 (hne fc c3) c5
  · exact_mod_cast calculateStats_avgReviews ea 4 (hne ea a4) a6
  · exact_mod_cast calculateStats_avgReviews eb 5 (hne eb b4) b6
  · exact_mod_cast calculateStats_avgReviews ec 5 (hne ec c4) c6


/-- On an object whose history address is valid, `review` on the store returns the
object that denotes the record returned by `review` on records. -/
theorem reviewInStore_read (model : RetentionModel) (store : ArrayStore)
    (memory : MemoryObject) (success : Bool) (currentDay : ℤ) (rnd : ℚ)
    (hwf : ∀ a, memory.reviewHistory = some a → a < store.length) :
    (model.reviewInStore store memory success currentDay rnd).1.read
        (model.reviewInStore store memory success currentDay rnd).2
      = model.review (memory.read store) success currentDay rnd := by
  cases hh : memory.reviewHistory with
  | none =>
    simp [RetentionModel.reviewInStore, RetentionModel.review, MemoryObject.read, hh,
      calculateNextReviewFibonacci, calculateNextReviewExponential]
  | some a =>
    have ha : a < store.length := hwf a hh
    simp [RetentionModel.reviewInStore, RetentionModel.review, MemoryObject.read, hh,
      calculateNextReviewFibonacci, calculateNextReviewExponential, ha,
      List.getElem?_eq_getElem]


/-! ## Copy-on-write, recall and scheduling -/

/-- C11, failing input: when the reviewed object carries a `reviewHistory` array, the
array of the original object has the new entry after `review` returns: the copy shares
the array and `push` changes it in place. -/
theorem reviewInStore_mutates_original (model : RetentionModel) (store : ArrayStore)
    (memory : MemoryObject) (success : Bool) (currentDay : ℤ) (rnd : ℚ)
    (a : ℕ) (history : List HistoryEntry)
    (hmem : memory.reviewHistory = some a) (hstore : store[a]? = some history) :
    (memory.read store).reviewHistory = some history ∧
    (memory.read (model.reviewInStore store memory success currentDay rnd).2).reviewHistory
      = some (history ++
          [⟨currentDay, success, if success then 0.7 + rnd * 0.3 else rnd * 0.4⟩]) ∧
    memory.read (model.reviewInStore store memory success currentDay rnd).2
      ≠ memory.read store := by
  have ha : a < store.length := by
    by_contra h
    rw [List.getElem?_eq_none (by omega)] at hstore
    cases hstore
  have h1 : (memory.read store).reviewHistory = some history := by
    simp [MemoryObject.read, hmem, hstore]
  have h2 : (memory.read
      (model.reviewInStore store memory success currentDay rnd).2).reviewHistory
      = some (history ++
          [⟨currentDay, success, if success then 0.7 + rnd * 0.3 else rnd * 0.4⟩]) := by
    simp [RetentionModel.reviewInStore, MemoryObject.read, hmem, hstore, ha]
  refine ⟨h1, h2, ?_⟩
  intro heq
  have := congrArg Memory.reviewHistory heq
  rw [h1, h2] at this
  simp at this

/-- C11 on the record `{ reviewCount: 0, baseStrength: 0.5, reviewHistory: [] }`: after
`review(memory, true, 1)` the history of the original has one entry. -/
theorem reviewInStore_mutates_original_witness :
    sharedHistoryRecord.reviewHistory = some 0 ∧
    ([[]] : ArrayStore)[0]? = some [] ∧
    (sharedHistoryRecord.read [[]]).reviewHistory = some [] ∧
    (sharedHistoryRecord.read
      ((RetentionModel.new "fibonacci").reviewInStore [[]] sharedHistoryRecord
        true 1 (1 / 2)).2).reviewHistory
      = some ([] ++ [⟨1, true, if true then 0.7 + (1 / 2) * 0.3 else (1 / 2) * 0.4⟩]) ∧
    sharedHistoryRecord.read
      ((RetentionModel.new "fibonacci").reviewInStore [[]] sharedHistoryRecord
        true 1 (1 / 2)).2
      ≠ sharedHistoryRecord.read [[]] :=
  ⟨rfl, rfl,
    reviewInStore_mutates_original (RetentionModel.new "fibonacci") [[]]
      sharedHistoryRecord true 1 (1 / 2) 0 [] rfl rfl⟩

/-- C12, as stated, fails: for a record with `baseStrength = 0` last reviewed on day 5,
`attemptRecall(memory, 5)` uses the strength 0.5, reports the confidence 0.98 and
recalls, while `calculateRetention(0, 0, 0)` on the stored strength is `NaN`, below which
no draw lies. -/
theorem attemptRecall_zero_strength :
    ((RetentionModel.new "fibonacci").attemptRecall expSample
      { Memory.empty with baseStrength := some 0, lastReviewDay := some 5 }
      5 (1 / 2) (1 / 2)).confidence = .fin 0.98 ∧
    ((RetentionModel.new "fibonacci").attemptRecall expSample
      { Memory.empty with baseStrength := some 0, lastReviewDay := some 5 }
      5 (1 / 2) (1 / 2)).recalled = true ∧
    calculateRetention expSample (1 / 2) (.fin ((5 : ℤ) - 5 : ℤ)) (.fin 0) (.fin 0) = .nan ∧
    JSNum.lt (.fin (1 / 2)) (calculateRetention expSample (1 / 2) (.fin ((5 : ℤ) - 5 : ℤ)) (.fin 0) (.fin 0)) = false := by
  have h : calculateRetention expSample (1 / 2) (.fin ((5 : ℤ) - 5 : ℤ)) (.fin 0) (.fin 0) = .nan := by
    simp [calculateRetention, retentionFloor, retentionVariance, JSNum.sub, JSNum.add,
      JSNum.mul, JSNum.div, JSNum.neg, JSNum.exp, JSNum.min, JSNum.max]
  have hc : ((RetentionModel.new "fibonacci").attemptRecall expSample
      { Memory.empty with baseStrength := some 0, lastReviewDay := some 5 }
      5 (1 / 2) (1 / 2)).confidence = .fin 0.98 := by
    simp only [RetentionModel.attemptRecall, Memory.empty, orDefault, calculateRetention,
      retentionFloor, retentionVariance, JSNum.add, JSNum.mul,
      JSNum.div, JSNum.neg, JSNum.exp, JSNum.min, JSNum.max, JSNum.sub, expSample]
    norm_num
  refine ⟨hc, ?_, h, ?_⟩
  · have : ((RetentionModel.new "fibonacci").attemptRecall expSample
      { Memory.empty with baseStrength := some 0, lastReviewDay := some 5 }
      5 (1 / 2) (1 / 2)).recalled = JSNum.lt (.fin (1/2)) ((RetentionModel.new "fibonacci").attemptRecall expSample
      { Memory.empty with baseStrength := some 0, lastReviewDay := some 5 }
      5 (1 / 2) (1 / 2)).confidence := rfl
    rw [this, hc]
    simp only [JSNum.lt]
    norm_num
  · rw [h]; rfl

/-- C12, amended: `attemptRecall` computes `daysSinceReview = currentDay - lastReviewDay`
(`lastReviewDay` taken as 0 when absent), obtains `p` from `calculateRetention` on that
number of days, the review count (0 when absent) and the base strength (0.5 when absent
or zero), and returns `recalled = (draw < p)`, `confidence = p` and `daysSinceReview`. -/
theorem attemptRecall_spec (model : RetentionModel) (mathExp : ℚ → ℚ) (memory : Memory) (currentDay : ℤ)
    (rnd1 rnd2 : ℚ) :
    ∃ p : JSNum,
      p = calculateRetention mathExp rnd1
        (.fin ((currentDay - memory.lastReviewDay.getD 0 : ℤ) : ℚ))
        (.fin ((memory.reviewCount.getD 0 : ℕ) : ℚ))
        (.fin (match memory.baseStrength with
          | some b => if b = 0 then 0.5 else b
          | none => 0.5)) ∧
      (model.attemptRecall mathExp memory currentDay rnd1 rnd2).daysSinceReview
        = currentDay - memory.lastReviewDay.getD 0 ∧
      (model.attemptRecall mathExp memory currentDay rnd1 rnd2).confidence = p ∧
      (model.attemptRecall mathExp memory currentDay rnd1 rnd2).recalled
        = JSNum.lt (.fin rnd2) p := by
  refine ⟨_, rfl, ?_, ?_, ?_⟩
  · simp only [RetentionModel.attemptRecall, orDefault_zero_int]
  · simp only [RetentionModel.attemptRecall, orDefault_zero_int, orDefault_zero_nat]
    cases memory.baseStrength <;> rfl
  · simp only [RetentionModel.attemptRecall, orDefault_zero_int, orDefault_zero_nat]
    cases memory.baseStrength <;> rfl

/-- C13, as stated, fails: a record with `nextReviewDay = 0` is not returned by
`getScheduledReviews(memories, 0)`, although `0 <= 0`. -/
theorem getScheduledReviews_day_zero :
    (RetentionModel.new "fibonacci").getScheduledReviews
      [{ Memory.empty with nextReviewDay := some 0 }] 0 = [] ∧
    ({ Memory.empty with nextReviewDay := some 0 } : Memory).nextReviewDay = some 0 ∧
    (0 : ℤ) ≤ 0 := by
  refine ⟨?_, rfl, le_refl _⟩
  simp [RetentionModel.getScheduledReviews, Memory.empty, orDefault]

/-- C13, amended: with the next review day of a record taken as 1 when it is absent or
zero, `getScheduledReviews(memories, upToDay)` returns exactly the records whose day is
`<= upToDay`, each exactly once and paired with that day, in non-decreasing order of
day. -/
theorem getScheduledReviews_spec (model : RetentionModel) (memories : List Memory) (upToDay : ℤ) :
    List.Perm (model.getScheduledReviews memories upToDay)
      ((memories.filter (fun m => decide (orDefault m.nextReviewDay 1 ≤ upToDay))).map
        (fun m => ⟨m, orDefault m.nextReviewDay 1⟩)) ∧
    List.Sorted (fun a b => a.day ≤ b.day) (model.getScheduledReviews memories upToDay) := by
  haveI : IsTotal ScheduledReview (fun a b => a.day ≤ b.day) :=
    ⟨fun a b => le_total a.day b.day⟩
  haveI : IsTrans ScheduledReview (fun a b => a.day ≤ b.day) :=
    ⟨fun a b c hab hbc => le_trans hab hbc⟩
  exact ⟨List.perm_insertionSort _ _, List.sorted_insertionSort _ _⟩


/-! ## The comparison run -/

/-- C14: in `compareAlgorithms` with `duration >= 90`, for each checkpoint day `k` in
30, 60, 90 and each algorithm, the array recorded holds exactly `sampleSize` entries,
one per record of the population of day `k` and in its order, each with the id and the
review count of its record and the outcome of one `attemptRecall` on it; and the
checkpoint step of any day leaves both populations as they are. -/
theorem compareAlgorithms_checkpoints (mathExp : ℚ → ℚ) (rng : ℕ → ℚ) (now : ℤ)
    (duration sampleSize k : ℕ) (hduration : 90 ≤ duration) (hk : k ∈ [30, 60, 90]) :
    (∃ fibRecords expRecords,
      (compareAlgorithms mathExp rng now duration sampleSize).raw.fibonacci.get k
        = some fibRecords ∧
      (compareAlgorithms mathExp rng now duration sampleSize).raw.exponential.get k
        = some expRecords ∧
      fibRecords.length = sampleSize ∧ expRecords.length = sampleSize ∧
      (calculateStats fibRecords).sampleSize = sampleSize ∧
      (calculateStats expRecords).sampleSize = sampleSize ∧
      List.Forall₂ (RecordedFrom (RetentionModel.new "fibonacci") mathExp k)
        (simulateDays mathExp rng now sampleSize k).fibonacciMemories fibRecords ∧
      List.Forall₂ (RecordedFrom (RetentionModel.new "exponential") mathExp k)
        (simulateDays mathExp rng now sampleSize k).exponentialMemories expRecords) ∧
    ∀ (sim : Simulation) (day : ℕ),
      (recordCheckpoints mathExp rng sim day).fibonacciMemories = sim.fibonacciMemories ∧
      (recordCheckpoints mathExp rng sim day).exponentialMemories
        = sim.exponentialMemories := by
  have hkd : k ≤ duration := by
    simp only [List.mem_cons, List.mem_singleton, List.not_mem_nil, or_false] at hk
    omega
  obtain ⟨fr, er, h1, h2, h3, h4⟩ :=
    (simulateDays_results mathExp rng now sampleSize k hk duration).2 hkd
  obtain ⟨u1, u2, _, _⟩ := simulateDays_uniform mathExp rng now sampleSize k
  have l1 : fr.length = sampleSize := by
    rw [← h3.length_eq]
    exact uniform_length u1
  have l2 : er.length = sampleSize := by
    rw [← h4.length_eq]
    exact uniform_length u2
  refine ⟨⟨fr, er, h1, h2, l1, l2, l1, l2, h3, h4⟩, ?_⟩
  intro sim day
  exact ⟨(recordCheckpoints_memories mathExp rng sim day).1,
    (recordCheckpoints_memories mathExp rng sim day).2.1⟩

/-- C14 on a run of 90 days with one record, at checkpoint 60. -/
theorem compareAlgorithms_checkpoints_witness :
    90 ≤ 90 ∧ 60 ∈ [30, 60, 90] ∧
    (∃ fibRecords expRecords,
      (compareAlgorithms expSample (fun _ => 1 / 2) 0 90 1).raw.fibonacci.get 60
        = some fibRecords ∧
      (compareAlgorithms expSample (fun _ => 1 / 2) 0 90 1).raw.exponential.get 60
        = some expRecords ∧
      fibRecords.length = 1 ∧ expRecords.length = 1 ∧
      (calculateStats fibRecords).sampleSize = 1 ∧
      (calculateStats expRecords).sampleSize = 1 ∧
      List.Forall₂ (RecordedFrom (RetentionModel.new "fibonacci") expSample 60)
        (simulateDays expSample (fun _ => 1 / 2) 0 1 60).fibonacciMemories fibRecords ∧
      List.Forall₂ (RecordedFrom (RetentionModel.new "exponential") expSample 60)
        (simulateDays expSample (fun _ => 1 / 2) 0 1 60).exponentialMemories expRecords) ∧
    ∀ (sim : Simulation) (day : ℕ),
      (recordCheckpoints expSample (fun _ => 1 / 2) sim day).fibonacciMemories
        = sim.fibonacciMemories ∧
      (recordCheckpoints expSample (fun _ => 1 / 2) sim day).exponentialMemories
        = sim.exponentialMemories :=
  ⟨le_refl 90, by decide,
    compareAlgorithms_checkpoints expSample (fun _ => 1 / 2) 0 90 1 60 (le_refl 90)
      (by decide)⟩

/-- C15: in `compareAlgorithms` with duration 90 and `sampleSize >= 1`, for each
algorithm and every outcome of the random draws, the average review count recorded at
checkpoint 30 is at most the one at checkpoint 60, which is at most the one at
checkpoint 90: the averages are 5, 7, 8 under Fibonacci and 4, 5, 5 under exponential. -/
theorem compareAlgorithms_avgReviews_monotone (mathExp : ℚ → ℚ) (rng : ℕ → ℚ) (now : ℤ)
    (sampleSize : ℕ) (hsize : 1 ≤ sampleSize) :
    JSNum.le (compareAlgorithms mathExp rng now 90 sampleSize).checkpoints.day30.fibonacci.avgReviews
      (compareAlgorithms mathExp rng now 90 sampleSize).checkpoints.day60.fibonacci.avgReviews = true ∧
    JSNum.le (compareAlgorithms mathExp rng now 90 sampleSize).checkpoints.day60.fibonacci.avgReviews
      (compareAlgorithms mathExp rng now 90 sampleSize).checkpoints.day90.fibonacci.avgReviews = true ∧
    JSNum.le (compareAlgorithms mathExp rng now 90 sampleSize).checkpoints.day30.exponential.avgReviews
      (compareAlgorithms mathExp rng now 90 sampleSize).checkpoints.day60.exponential.avgReviews = true ∧
    JSNum.le (compareAlgorithms mathExp rng now 90 sampleSize).checkpoints.day60.exponential.avgReviews
      (compareAlgorithms mathExp rng now 90 sampleSize).checkpoints.day90.exponential.avgReviews = true ∧
    (compareAlgorithms mathExp rng now 90 sampleSize).checkpoints.day30.fibonacci.avgReviews = .fin 5 ∧
    (compareAlgorithms mathExp rng now 90 sampleSize).checkpoints.day60.fibonacci.avgReviews = .fin 7 ∧
    (compareAlgorithms mathExp rng now 90 sampleSize).checkpoints.day90.fibonacci.avgReviews = .fin 8 ∧
    (compareAlgorithms mathExp rng now 90 sampleSize).checkpoints.day30.exponential.avgReviews = .fin 4 ∧
    (compareAlgorithms mathExp rng now 90 sampleSize).checkpoints.day60.exponential.avgReviews = .fin 5 ∧
    (compareAlgorithms mathExp rng now 90 sampleSize).checkpoints.day90.exponential.avgReviews = .fin 5 := by
  obtain ⟨a, b, c, d, e, f⟩ := compareAlgorithms_avgReviews mathExp rng now sampleSize hsize
  refine ⟨?_, ?_, ?_, ?_, a, b, c, d, e, f⟩
  · rw [a, b]
    simp only [JSNum.le]
    norm_num
  · rw [b, c]
    simp only [JSNum.le]
    norm_num
  · rw [d, e]
    simp only [JSNum.le]
    norm_num
  · rw [e, f]
    simp only [JSNum.le]
    norm_num

/-- C15 on the scenario of the specification: 50 records, 90 days. -/
theorem compareAlgorithms_avgReviews_monotone_witness :
    1 ≤ 50 ∧
    JSNum.le (compareAlgorithms expSample (fun _ => 1 / 2) 0 90 50).checkpoints.day30.fibonacci.avgReviews
      (compareAlgorithms expSample (fun _ => 1 / 2) 0 90 50).checkpoints.day60.fibonacci.avgReviews = true ∧
    JSNum.le (compareAlgorithms expSample (fun _ => 1 / 2) 0 90 50).checkpoints.day60.fibonacci.avgReviews
      (compareAlgorithms expSample (fun _ => 1 / 2) 0 90 50).checkpoints.day90.fibonacci.avgReviews = true ∧
    JSNum.le (compareAlgorithms expSample (fun _ => 1 / 2) 0 90 50).checkpoints.day30.exponential.avgReviews
      (compareAlgorithms expSample (fun _ => 1 / 2) 0 90 50).checkpoints.day60.exponential.avgReviews = true ∧
    JSNum.le (compareAlgorithms expSample (fun _ => 1 / 2) 0 90 50).checkpoints.day60.exponential.avgReviews
      (compareAlgorithms expSample (fun _ => 1 / 2) 0 90 50).checkpoints.day90.exponential.avgReviews = true ∧
    (compareAlgorithms expSample (fun _ => 1 / 2) 0 90 50).checkpoints.day30.fibonacci.avgReviews = .fin 5 ∧
    (compareAlgorithms expSample (fun _ => 1 / 2) 0 90 50).checkpoints.day60.fibonacci.avgReviews = .fin 7 ∧
    (compareAlgorithms expSample (fun _ => 1 / 2) 0 90 50).checkpoints.day90.fibonacci.avgReviews = .fin 8 ∧
    (compareAlgorithms expSample (fun _ => 1 / 2) 0 90 50).checkpoints.day30.exponential.avgReviews = .fin 4 ∧
    (compareAlgorithms expSample (fun _ => 1 / 2) 0 90 50).checkpoints.day60.exponential.avgReviews = .fin 5 ∧
    (compareAlgorithms expSample (fun _ => 1 / 2) 0 90 50).checkpoints.day90.exponential.avgReviews = .fin 5 :=
  ⟨by decide,
    compareAlgorithms_avgReviews_monotone expSample (fun _ => 1 / 2) 0 50 (by decide)⟩

/-- C16, as stated, fails: `compareAlgorithms(90, 0)` returns a result, and the entry of
checkpoint 30 for the Fibonacci algorithm has `retentionRate`, `avgConfidence` and
`avgReviews` equal to `NaN`. -/
theorem compareAlgorithms_zero_sample_nan :
    (compareAlgorithms expSample (fun _ => 1 / 2) 0 90 0).checkpoints.day30.fibonacci.retentionRate
      = .nan ∧
    (compareAlgorithms expSample (fun _ => 1 / 2) 0 90 0).checkpoints.day30.fibonacci.avgConfidence
      = .nan ∧
    (compareAlgorithms expSample (fun _ => 1 / 2) 0 90 0).checkpoints.day30.fibonacci.avgReviews
      = .nan := by
  have h := (compareAlgorithms_empty expSample (fun _ => 1 / 2) 0 90).1
  rw [h]
  exact ⟨rfl, rfl, rfl⟩

/-- C16, amended: when the sample size is 0, `compareAlgorithms` signals no error: for
every duration it returns a result in which each of the six checkpoint entries has
`sampleSize = 0` and `retentionRate`, `avgConfidence` and `avgReviews` equal to `NaN`,
the value of `0 / 0`. -/
theorem compareAlgorithms_zero_sample (mathExp : ℚ → ℚ) (rng : ℕ → ℚ) (now : ℤ)
    (duration : ℕ) :
    calculateStats [] = { retentionRate := .nan, avgConfidence := .nan, avgReviews := .nan, sampleSize := 0 } ∧
    (compareAlgorithms mathExp rng now duration 0).checkpoints.day30.fibonacci
      = { retentionRate := .nan, avgConfidence := .nan, avgReviews := .nan, sampleSize := 0 } ∧
    (compareAlgorithms mathExp rng now duration 0).checkpoints.day30.exponential
      = { retentionRate := .nan, avgConfidence := .nan, avgReviews := .nan, sampleSize := 0 } ∧
    (compareAlgorithms mathExp rng now duration 0).checkpoints.day60.fibonacci
      = { retentionRate := .nan, avgConfidence := .nan, avgReviews := .nan, sampleSize := 0 } ∧
    (compareAlgorithms mathExp rng now duration 0).checkpoints.day60.exponential
      = { retentionRate := .nan, avgConfidence := .nan, avgReviews := .nan, sampleSize := 0 } ∧
    (compareAlgorithms mathExp rng now duration 0).checkpoints.day90.fibonacci
      = { retentionRate := .nan, avgConfidence := .nan, avgReviews := .nan, sampleSize := 0 } ∧
    (compareAlgorithms mathExp rng now duration 0).checkpoints.day90.exponential
      = { retentionRate := .nan, avgConfidence := .nan, avgReviews := .nan, sampleSize := 0 } :=
  ⟨calculateStats_nil, compareAlgorithms_empty mathExp rng now duration⟩

/-- C18: for every sample size `n` and every outcome of the random draws,
`compareAlgorithms(90, n)` returns `totalReviews.fibonacci = 8 n` and
`totalReviews.exponential = 5 n`; after each day `d` of the run the reviews counted are
`n` times the number of days among 1, 3, 6, 11, 19, 32, 53, 87 (Fibonacci) or
1, 4, 11, 25, 55 (exponential) that are at most `d`. -/
theorem compareAlgorithms_totalReviews (mathExp : ℚ → ℚ) (rng : ℕ → ℚ) (now : ℤ)
    (n : ℕ) :
    (compareAlgorithms mathExp rng now 90 n).totalReviews.fibonacci = 8 * n ∧
    (compareAlgorithms mathExp rng now 90 n).totalReviews.exponential = 5 * n ∧
    ∀ d : Fin 91,
      (simulateDays mathExp rng now n d.val).fibReviews
        = n * ([1, 3, 6, 11, 19, 32, 53, 87].filter
            (fun day => decide (day ≤ d.val))).length ∧
      (simulateDays mathExp rng now n d.val).expReviews
        = n * ([1, 4, 11, 25, 55].filter (fun day => decide (day ≤ d.val))).length := by
  obtain ⟨_, _, s3, _, _, s6⟩ := scheduleAfter_values
  obtain ⟨_, _, h3, h4⟩ := simulateDays_uniform mathExp rng now n 90
  refine ⟨?_, ?_, ?_⟩
  · simp only [compareAlgorithms, h3, s3]
    ring
  · simp only [compareAlgorithms, h4, s6]
    ring
  · intro d
    obtain ⟨_, _, g3, g4⟩ := simulateDays_uniform mathExp rng now n d.val
    rw [g3, g4, scheduleAfter_fibonacci_days d, scheduleAfter_exponential_days d]
    exact ⟨rfl, rfl⟩

/-! ## Lemmas on the statistics -/

theorem not_two_lt_abs_div_sqrt (x v : ℚ) (h : x ^ 2 ≤ 4 * v) :
    ¬ (2 : ℝ) < |(x : ℝ) / Real.sqrt (v : ℝ)| := by
  rw [not_lt, abs_div, abs_of_nonneg (Real.sqrt_nonneg _)]
  have hreal : (x : ℝ) ^ 2 ≤ 4 * (v : ℝ) := by exact_mod_cast h
  have habs : |(x : ℝ)| ≤ 2 * Real.sqrt (v : ℝ) := by
    have h1 : |(x : ℝ)| ≤ Real.sqrt (4 * (v : ℝ)) := Real.abs_le_sqrt hreal
    have h2 : Real.sqrt (4 * (v : ℝ)) = 2 * Real.sqrt (v : ℝ) := by
      rw [Real.sqrt_mul (by norm_num : (0 : ℝ) ≤ 4)]
      have : Real.sqrt 4 = 2 := by
        rw [show (4 : ℝ) = 2 ^ 2 by norm_num]
        exact Real.sqrt_sq (by norm_num)
      rw [this]
    rw [h2] at h1
    exact h1
  by_cases hz : Real.sqrt (v : ℝ) = 0
  · rw [hz, div_zero]
    norm_num
  · have hpos : 0 < Real.sqrt (v : ℝ) := lt_of_le_of_ne (Real.sqrt_nonneg _) (Ne.symm hz)
    rw [div_le_iff₀ hpos]
    exact habs

theorem tTest_significant_iff (a b : List JSNum) :
    (tTest a b).significant = true ↔
      (tTest a b).t = .pinf ∨ (tTest a b).t = .ninf ∨
        ∃ q : ℚ, (tTest a b).t = .fin q ∧ 2 < |q| := by
  have hsig : (tTest a b).significant = JSNum.lt (.fin 2) (JSNum.abs (tTest a b).t) := rfl
  rw [hsig]
  cases (tTest a b).t with
  | nan => simp [JSNum.abs, JSNum.lt]
  | ninf => simp [JSNum.abs, JSNum.lt]
  | pinf => simp [JSNum.abs, JSNum.lt]
  | fin q => simp [JSNum.abs, JSNum.lt]

/-! ## Significance test -/

/-- C17, as stated, fails: for the retention rates `0.5, 0.7` and `0.7, 0.9` the standard
error is not zero and the quotient `(mean(a) - mean(b)) / sqrt(var(a)/|a| + var(b)/|b|)` is
at most 2 in absolute value, but `calculateStatistics` computes in double precision
`t = -2.0000000000000004` and reports `significant = true` with the label `'< 0.05'`. -/
theorem calculateStatistics_rounding :
    roundingSampleA.map JSNum.fin = [roundDouble (1 / 2), roundDouble (7 / 10)] ∧
    roundingSampleB.map JSNum.fin = [roundDouble (7 / 10), roundDouble (9 / 10)] ∧
    squaredStandardError roundingSampleA roundingSampleB ≠ 0 ∧
    ¬ (2 : ℝ) < |((sampleMean roundingSampleA - sampleMean roundingSampleB : ℚ) : ℝ)
      / Real.sqrt ((squaredStandardError roundingSampleA roundingSampleB : ℚ) : ℝ)| ∧
    (calculateStatistics (roundingSampleA.map JSNum.fin)
      (roundingSampleB.map JSNum.fin)).tTest.t = .fin (-(2 + 1 / 2 ^ 51)) ∧
    (calculateStatistics (roundingSampleA.map JSNum.fin)
      (roundingSampleB.map JSNum.fin)).tTest.significant = true ∧
    (calculateStatistics (roundingSampleA.map JSNum.fin)
      (roundingSampleB.map JSNum.fin)).tTest.p = "< 0.05" := by
  refine ⟨by decide!, by decide!, by decide!, ?_, by decide!, by decide!, by decide!⟩
  apply not_two_lt_abs_div_sqrt
  decide!

/-- C17, amended: for every two samples, `calculateStatistics` reports as `tTest.t` the
double-precision value of `(mean(a) - mean(b)) / se`, where `se` is the rounded square root
of `sa * sa / |a| + sb * sb / |b|`, `mean` is the rounded sum divided by the length and
`sa`, `sb` are the rounded square roots of the rounded sums of squared deviations divided
by the length; `tTest.significant` is true exactly when that reported `t` satisfies
`|t| > 2` (it is infinite, or finite with absolute value above 2), and the label is
`'< 0.05'` exactly when `significant` is true, `'> 0.05'` otherwise. -/
theorem calculateStatistics_significant (a b : List JSNum) :
    mean a
      = JSNum.divD (a.foldl (fun x y => JSNum.addD x y) (.fin 0)) (.fin (a.length : ℚ)) ∧
    std a
      = JSNum.sqrtD
        (JSNum.divD
          (a.foldl (fun x y => JSNum.addD x (JSNum.squareD (JSNum.subD y (mean a)))) (.fin 0))
          (.fin (a.length : ℚ))) ∧
    (calculateStatistics a b).tTest.t
      = JSNum.divD (JSNum.subD (mean a) (mean b)) (standardError a b) ∧
    standardError a b
      = JSNum.sqrtD
        (JSNum.addD (JSNum.divD (JSNum.mulD (std a) (std a)) (.fin (a.length : ℚ)))
          (JSNum.divD (JSNum.mulD (std b) (std b)) (.fin (b.length : ℚ)))) ∧
    ((calculateStatistics a b).tTest.significant = true ↔
      (calculateStatistics a b).tTest.t = .pinf ∨ (calculateStatistics a b).tTest.t = .ninf ∨
        ∃ q : ℚ, (calculateStatistics a b).tTest.t = .fin q ∧ 2 < |q|) ∧
    ((calculateStatistics a b).tTest.p = "< 0.05" ↔
      (calculateStatistics a b).tTest.significant = true) ∧
    ((calculateStatistics a b).tTest.p = "> 0.05" ↔
      (calculateStatistics a b).tTest.significant = false) := by
  have hp : (tTest a b).p
      = if (tTest a b).significant = true then "< 0.05" else "> 0.05" := rfl
  refine ⟨rfl, rfl, rfl, rfl, tTest_significant_iff a b, ?_, ?_⟩
  · show (tTest a b).p = "< 0.05" ↔ (tTest a b).significant = true
    rw [hp]
    cases (tTest a b).significant <;> simp
  · show (tTest a b).p = "> 0.05" ↔ (tTest a b).significant = false
    rw [hp]
    cases (tTest a b).significant <;> simp

end SpacedRepetition

namespace ExportImport

/-! ## Markdown round trip -/

set_option maxRecDepth 100000 in
/-- C19, failing input: on the palace with the loci `A` holding `a` and `B` holding `b`,
importing the text that `exportMarkdown` writes gives the locus `A` with no memory and
the locus `B` with the memories `a` and `b`: the last memory of a locus is pushed into
the next locus. -/
theorem importMarkdown_moves_memories (now : String) :
    outline twoLociPalace = ("P", [("A", ["a"]), ("B", ["b"])]) ∧
    outline (importMarkdown now (exportMarkdown twoLociPalace))
      = ("P", [("A", []), ("B", ["a", "b"])]) ∧
    outline (importMarkdown now (exportMarkdown twoLociPalace)) ≠ outline twoLociPalace := by
  have h1 : outline twoLociPalace = ("P", [("A", ["a"]), ("B", ["b"])]) := rfl
  have h2 : outline (importMarkdown now (exportMarkdown twoLociPalace))
      = ("P", [("A", []), ("B", ["a", "b"])]) := by rfl
  refine ⟨h1, h2, ?_⟩
  rw [h1, h2]
  decide

end ExportImport

namespace Gamification

/-! ## Levels -/

theorem calculateLevel_le (userId : String) (xp : ℤ) :
    1 ≤ (GamificationEngine.new userId).calculateLevel xp ∧
    (GamificationEngine.new userId).calculateLevel xp ≤ 8 := by
  simp only [GamificationEngine.calculateLevel, GamificationEngine.new, List.length_cons,
    List.length_nil, levelLoop]
  simp
  split_ifs <;> omega

/-- C20, failing input: for every XP total, `calculateLevel` returns a level between 1
and 8 (8 for `xp = 1000000`), so the check of the achievement `master`,
`stats.level >= 10`, is false on every statistics whose level `calculateLevel` gave. -/
theorem master_unattainable (userId : String) (stats : Stats) (xp : ℤ) :
    1 ≤ (GamificationEngine.new userId).calculateLevel xp ∧
    (GamificationEngine.new userId).calculateLevel xp ≤ 8 ∧
    (GamificationEngine.new userId).calculateLevel 1000000 = 8 ∧
    (getAchievementDefinitions.filter (fun a => decide (a.id = "master"))).map
        (fun a => (a.description,
          a.check { stats with level := (GamificationEngine.new userId).calculateLevel xp }))
      = [("Reach level 10", false)] := by
  obtain ⟨h1, h8⟩ := calculateLevel_le userId xp
  refine ⟨h1, h8, ?_, ?_⟩
  · simp [GamificationEngine.calculateLevel, GamificationEngine.new, levelLoop]
  · simp [getAchievementDefinitions, List.filter]
    omega


theorem unlockAchievement_facts (clock : Clock) (stats : Stats) (id : String) :
    (unlockAchievement clock stats id).perfectRecalls = stats.perfectRecalls ∧
    stats.history.length ≤ (unlockAchievement clock stats id).history.length ∧
    (∀ x, x ≠ id →
      (x ∈ (unlockAchievement clock stats id).achievements ↔ x ∈ stats.achievements)) ∧
    (id ∉ stats.achievements →
      (unlockAchievement clock stats id).history.length = stats.history.length + 1) := by
  unfold unlockAchievement
  by_cases h : stats.achievements.contains id = true
  · rw [if_pos h]
    refine ⟨rfl, le_refl _, fun _ _ => Iff.rfl, ?_⟩
    intro hn
    have hm : id ∈ stats.achievements := by simpa using h
    exact absurd hm hn
  · rw [if_neg h]
    refine ⟨rfl, ?_, ?_, ?_⟩
    · simp
    · intro x hx
      simp [hx]
    · intro _
      simp

theorem checkAchievement_facts (clock : Clock) (state : Stats × List Achievement)
    (a : Achievement) :
    (checkAchievement clock state a).1.perfectRecalls = state.1.perfectRecalls ∧
    state.1.history.length ≤ (checkAchievement clock state a).1.history.length ∧
    (∀ x, x ≠ a.id →
      (x ∈ (checkAchievement clock state a).1.achievements ↔ x ∈ state.1.achievements)) := by
  obtain ⟨u1, u2, u3, _⟩ := unlockAchievement_facts clock state.1 a.id
  unfold checkAchievement
  split_ifs
  · exact ⟨rfl, le_refl _, fun _ _ => Iff.rfl⟩
  · exact ⟨u1, u2, u3⟩
  · exact ⟨rfl, le_refl _, fun _ _ => Iff.rfl⟩

theorem foldl_checkAchievement_facts (clock : Clock) (x : String) :
    ∀ (as : List Achievement) (state : Stats × List Achievement),
    (as.foldl (checkAchievement clock) state).1.perfectRecalls = state.1.perfectRecalls ∧
    state.1.history.length ≤ (as.foldl (checkAchievement clock) state).1.history.length ∧
    ((∀ a ∈ as, a.id ≠ x) →
      (x ∈ (as.foldl (checkAchievement clock) state).1.achievements
        ↔ x ∈ state.1.achievements)) := by
  intro as
  induction as with
  | nil => intro state; exact ⟨rfl, le_refl _, fun _ => Iff.rfl⟩
  | cons a rest ih =>
    intro state
    obtain ⟨c1, c2, c3⟩ := checkAchievement_facts clock state a
    obtain ⟨i1, i2, i3⟩ := ih (checkAchievement clock state a)
    rw [List.foldl_cons]
    refine ⟨i1.trans c1, le_trans c2 i2, ?_⟩
    intro hall
    rw [i3 (fun b hb => hall b (List.mem_cons_of_mem _ hb))]
    exact c3 x (fun h => hall a (List.mem_cons_self _ _) h.symm)

theorem updateStreak_facts (engine : GamificationEngine) (clock : Clock)
    (lastDate : Option String) (stats : Stats) :
    (updateStreak engine clock lastDate stats).perfectRecalls = stats.perfectRecalls ∧
    stats.history.length ≤ (updateStreak engine clock lastDate stats).history.length ∧
    ("perfect_memory" ∈ (updateStreak engine clock lastDate stats).achievements
      ↔ "perfect_memory" ∈ stats.achievements) := by
  obtain ⟨w1, w2, w3, _⟩ := unlockAchievement_facts clock
    { stats with streak := stats.streak + 1 } "week_streak"
  obtain ⟨m1, m2, m3, _⟩ := unlockAchievement_facts clock
    { stats with streak := stats.streak + 1 } "month_streak"
  dsimp only [updateStreak]
  split_ifs
  · exact ⟨w1, w2, w3 "perfect_memory" (by decide)⟩
  · exact ⟨m1, m2, m3 "perfect_memory" (by decide)⟩
  · exact ⟨rfl, le_refl _, Iff.rfl⟩
  · exact ⟨rfl, le_refl _, Iff.rfl⟩
  · exact ⟨rfl, le_refl _, Iff.rfl⟩

theorem gainXP_facts (engine : GamificationEngine) (stats : Stats) (action : String) :
    (gainXP engine stats action).1.perfectRecalls
      = stats.perfectRecalls + (if action = "perfectRecall" then 1 else 0) ∧
    (gainXP engine stats action).1.history = stats.history ∧
    (gainXP engine stats action).1.achievements = stats.achievements := by
  dsimp only [gainXP]
  split_ifs <;> exact ⟨rfl, rfl, rfl⟩

theorem logHistory_facts (clock : Clock) (stats : Stats) (action : String) (totalXP : ℤ)
    (metadata : Option String) :
    (logHistory clock stats action totalXP metadata).perfectRecalls = stats.perfectRecalls ∧
    (logHistory clock stats action totalXP metadata).achievements = stats.achievements ∧
    (logHistory clock stats action totalXP metadata).history.length
      = min (stats.history.length + 1) 100 := by
  dsimp only [logHistory]
  split_ifs with h
  · refine ⟨rfl, rfl, ?_⟩
    simp only [List.length_append, List.length_cons, List.length_nil] at h
    simp only [List.length_drop, List.length_append, List.length_cons, List.length_nil]
    omega
  · refine ⟨rfl, rfl, ?_⟩
    simp only [List.length_append, List.length_cons, List.length_nil] at h
    simp only [List.length_append, List.length_cons, List.length_nil]
    omega

/-- The statistics before the achievements are checked, in a call of `awardXP`. -/
theorem awardXP_eq (engine : GamificationEngine) (toDateString : String → String)
    (clock : Clock) (stats : Stats) (action : String) (metadata : Option String) :
    ∃ logged : Stats,
      (engine.awardXP toDateString clock stats action metadata).1
        = (checkAchievements clock logged).1 ∧
      logged.perfectRecalls
        = stats.perfectRecalls + (if action = "perfectRecall" then 1 else 0) ∧
      ("perfect_memory" ∈ logged.achievements ↔ "perfect_memory" ∈ stats.achievements) ∧
      min (stats.history.length + 1) 100 ≤ logged.history.length ∧
      (99 ≤ stats.history.length → logged.history.length = 100) := by
  obtain ⟨g1, g2, g3⟩ := gainXP_facts engine stats action
  obtain ⟨u1, u2, u3⟩ := updateStreak_facts engine clock
    ((gainXP engine stats action).1.lastReviewDate.map toDateString)
    (gainXP engine stats action).1
  by_cases hday : (gainXP engine stats action).1.lastReviewDate.map toDateString
      ≠ some clock.today
  · obtain ⟨l1, l2, l3⟩ := logHistory_facts clock
      (updateStreak engine clock
        ((gainXP engine stats action).1.lastReviewDate.map toDateString)
        (gainXP engine stats action).1)
      action (gainXP engine stats action).2.1 metadata
    refine ⟨_, ?_, l1.trans (u1.trans g1), ?_, ?_, ?_⟩
    · simp only [GamificationEngine.awardXP, if_pos hday]
    · rw [l2, u3, g3]
    · rw [l3]
      rw [g2] at u2
      omega
    · intro h99
      rw [l3]
      rw [g2] at u2
      omega
  · obtain ⟨l1, l2, l3⟩ := logHistory_facts clock (gainXP engine stats action).1
      action (gainXP engine stats action).2.1 metadata
    refine ⟨_, ?_, l1.trans g1, ?_, ?_, ?_⟩
    · simp only [GamificationEngine.awardXP, if_neg hday]
    · rw [l2, g3]
    · rw [l3, g2]
    · intro h99
      rw [l3, g2]
      omega

theorem perfect_memory_check (a : Achievement) (ha : a ∈ getAchievementDefinitions)
    (hid : a.id = "perfect_memory") (stats : Stats) (hcheck : a.check stats = true) :
    10 ≤ stats.perfectRecalls := by
  simp only [getAchievementDefinitions, List.mem_cons, List.mem_singleton,
    List.not_mem_nil, or_false] at ha
  rcases ha with rfl | rfl | rfl | rfl | rfl | rfl | rfl | rfl | rfl <;>
    first
      | (exfalso; revert hid; decide)
      | simpa using hcheck

theorem foldl_checkAchievement_inv (clock : Clock) :
    ∀ (as : List Achievement) (state : Stats × List Achievement),
    (∀ a ∈ as, a ∈ getAchievementDefinitions) →
    ("perfect_memory" ∈ state.1.achievements → 10 ≤ state.1.perfectRecalls) →
    ("perfect_memory" ∈ (as.foldl (checkAchievement clock) state).1.achievements →
      10 ≤ (as.foldl (checkAchievement clock) state).1.perfectRecalls) := by
  intro as
  induction as with
  | nil => intro state _ h; exact h
  | cons a rest ih =>
    intro state hsub hinv
    rw [List.foldl_cons]
    apply ih _ (fun b hb => hsub b (List.mem_cons_of_mem _ hb))
    obtain ⟨c1, _, c3⟩ := checkAchievement_facts clock state a
    intro hmem
    rw [c1]
    by_cases hid : a.id = "perfect_memory"
    · by_cases hcheck : a.check state.1 = true
      · exact perfect_memory_check a (hsub a (List.mem_cons_self _ _)) hid state.1 hcheck
      · apply hinv
        have hstate : checkAchievement clock state a = state := by
          unfold checkAchievement
          split_ifs <;> rfl
        rw [hstate] at hmem
        exact hmem
    · exact hinv ((c3 "perfect_memory" (fun h => hid h.symm)).mp hmem)

theorem checkAchievements_facts (clock : Clock) (stats : Stats) :
    (checkAchievements clock stats).1.perfectRecalls = stats.perfectRecalls ∧
    stats.history.length ≤ (checkAchievements clock stats).1.history.length ∧
    (("perfect_memory" ∈ stats.achievements → 10 ≤ stats.perfectRecalls) →
      "perfect_memory" ∈ (checkAchievements clock stats).1.achievements →
      10 ≤ (checkAchievements clock stats).1.perfectRecalls) := by
  have hfacts := foldl_checkAchievement_facts clock "" getAchievementDefinitions (stats, [])
  have hinv := foldl_checkAchievement_inv clock getAchievementDefinitions (stats, [])
    (fun a ha => ha)
  unfold checkAchievements
  exact ⟨hfacts.1, hfacts.2.1, hinv⟩

theorem awardXP_perfectRecalls (engine : GamificationEngine)
    (toDateString : String → String) (clock : Clock) (stats : Stats) (action : String)
    (metadata : Option String) :
    (engine.awardXP toDateString clock stats action metadata).1.perfectRecalls
      = stats.perfectRecalls + (if action = "perfectRecall" then 1 else 0) := by
  obtain ⟨logged, h, hp, _, _, _⟩ := awardXP_eq engine toDateString clock stats action metadata
  rw [h, ← hp]
  exact (checkAchievements_facts clock logged).1

theorem awardXP_history_ge (engine : GamificationEngine)
    (toDateString : String → String) (clock : Clock) (stats : Stats) (action : String)
    (metadata : Option String) :
    min (stats.history.length + 1) 100
      ≤ (engine.awardXP toDateString clock stats action metadata).1.history.length := by
  obtain ⟨logged, h, _, _, hl, _⟩ := awardXP_eq engine toDateString clock stats action metadata
  rw [h]
  exact le_trans hl (checkAchievements_facts clock logged).2.1

theorem awardXP_inv (engine : GamificationEngine)
    (toDateString : String → String) (clock : Clock) (stats : Stats) (action : String)
    (metadata : Option String)
    (hinv : "perfect_memory" ∈ stats.achievements → 10 ≤ stats.perfectRecalls) :
    "perfect_memory" ∈ (engine.awardXP toDateString clock stats action metadata).1.achievements
      → 10 ≤ (engine.awardXP toDateString clock stats action metadata).1.perfectRecalls := by
  obtain ⟨logged, h, hp, hm, _, _⟩ := awardXP_eq engine toDateString clock stats action metadata
  rw [h]
  apply (checkAchievements_facts clock logged).2.2
  intro hmem
  have := hinv (hm.mp hmem)
  rw [hp]
  omega

/-- No reachable statistics hold the achievement `perfect_memory` with fewer than 10
perfect recalls. -/
theorem reachable_perfect_memory (engine : GamificationEngine)
    (toDateString : String → String) (stats : Stats)
    (h : Reachable engine toDateString stats) :
    "perfect_memory" ∈ stats.achievements → 10 ≤ stats.perfectRecalls := by
  induction h with
  | fresh => intro hmem; simp [Stats.fresh] at hmem
  | award stats clock action metadata _ ih =>
    exact awardXP_inv engine toDateString clock stats action metadata ih

theorem awardAll_cons (engine : GamificationEngine) (toDateString : String → String)
    (clock : Clock) (stats : Stats) (action : String) (rest : List String) :
    awardAll engine toDateString clock stats (action :: rest)
      = awardAll engine toDateString clock
          (engine.awardXP toDateString clock stats action none).1 rest := by
  simp only [awardAll, List.foldl_cons]

theorem awardAll_reachable (engine : GamificationEngine) (toDateString : String → String)
    (clock : Clock) (actions : List String) : ∀ stats : Stats,
    Reachable engine toDateString stats →
    Reachable engine toDateString (awardAll engine toDateString clock stats actions) := by
  induction actions with
  | nil => intro stats h; exact h
  | cons action rest ih =>
    intro stats h
    rw [awardAll_cons]
    exact ih _ (Reachable.award stats clock action none h)

theorem awardAll_facts (engine : GamificationEngine) (toDateString : String → String)
    (clock : Clock) (actions : List String) : ∀ stats : Stats,
    (awardAll engine toDateString clock stats actions).perfectRecalls
      = stats.perfectRecalls + actions.count "perfectRecall" ∧
    min (stats.history.length + actions.length) 100
      ≤ (awardAll engine toDateString clock stats actions).history.length := by
  induction actions with
  | nil =>
    intro stats
    refine ⟨by simp [awardAll], ?_⟩
    simp only [awardAll, List.foldl_nil, List.length_nil, add_zero]
    exact min_le_left _ _
  | cons action rest ih =>
    intro stats
    obtain ⟨i1, i2⟩ := ih (engine.awardXP toDateString clock stats action none).1
    have p := awardXP_perfectRecalls engine toDateString clock stats action none
    have g := awardXP_history_ge engine toDateString clock stats action none
    rw [awardAll_cons]
    refine ⟨?_, ?_⟩
    · rw [i1, p, List.count_cons]
      by_cases ha : action = "perfectRecall"
      · simp [ha]
        omega
      · have hne : ¬ (("perfectRecall" : String) = action) := fun h => ha h.symm
        simp [ha, hne]
    · simp only [List.length_cons]
      omega

/-- When the achievement `a` is not yet held and its check holds, the loop over the
definitions `pre ++ a :: post` unlocks it and the history gains an entry. -/
theorem foldl_checkAchievement_unlock (clock : Clock) (pre post : List Achievement)
    (a : Achievement) (state : Stats × List Achievement)
    (hpre : ∀ b ∈ pre, b.id ≠ a.id) (hnot : a.id ∉ state.1.achievements)
    (hcheck : a.check (pre.foldl (checkAchievement clock) state).1 = true) :
    state.1.history.length + 1
      ≤ ((pre ++ a :: post).foldl (checkAchievement clock) state).1.history.length := by
  obtain ⟨_, p2, p3⟩ := foldl_checkAchievement_facts clock a.id pre state
  obtain ⟨_, q2, _⟩ := foldl_checkAchievement_facts clock a.id post
    (checkAchievement clock (pre.foldl (checkAchievement clock) state) a)
  have hnot2 : a.id ∉ (pre.foldl (checkAchievement clock) state).1.achievements :=
    fun x => hnot ((p3 hpre).mp x)
  have hc : (pre.foldl (checkAchievement clock) state).1.achievements.contains a.id
      = false := by
    simpa using hnot2
  have hstep : (checkAchievement clock (pre.foldl (checkAchievement clock) state) a).1
      = unlockAchievement clock (pre.foldl (checkAchievement clock) state).1 a.id := by
    simp only [checkAchievement, hc, hcheck, Bool.false_eq_true, if_false, if_true]
  have hunlock := (unlockAchievement_facts clock
    (pre.foldl (checkAchievement clock) state).1 a.id).2.2.2 hnot2
  rw [List.foldl_append, List.foldl_cons]
  rw [hstep, hunlock] at q2
  omega

theorem getAchievementDefinitions_split :
    ∃ pre post a, getAchievementDefinitions = pre ++ a :: post ∧
      a.id = "perfect_memory" ∧ (∀ b ∈ pre, b.id ≠ "perfect_memory") ∧
      ∀ stats : Stats, a.check stats = decide (stats.perfectRecalls ≥ 10) := by
  refine ⟨getAchievementDefinitions.take 4, getAchievementDefinitions.drop 5,
    { id := "perfect_memory", name := "Perfect Memory"
      description := "Achieve 10 perfect recalls"
      check := fun stats => decide (stats.perfectRecalls ≥ 10) }, rfl, rfl, ?_, fun _ => rfl⟩
  decide

/-- The call of `awardXP` that unlocks `perfect_memory` on a history that is full. -/
theorem awardXP_overflow (engine : GamificationEngine) (toDateString : String → String)
    (clock : Clock) (stats : Stats) (metadata : Option String)
    (hlen : 99 ≤ stats.history.length) (hrecalls : stats.perfectRecalls = 9)
    (hmem : "perfect_memory" ∉ stats.achievements) :
    101 ≤ (engine.awardXP toDateString clock stats "perfectRecall" metadata).1.history.length := by
  obtain ⟨logged, h, hp, hm, _, hl⟩ :=
    awardXP_eq engine toDateString clock stats "perfectRecall" metadata
  have hlogged : logged.history.length = 100 := hl hlen
  have hrec : logged.perfectRecalls = 10 := by
    rw [hp, hrecalls]
    simp
  have hnot : "perfect_memory" ∉ logged.achievements := fun x => hmem (hm.mp x)
  obtain ⟨pre, post, a, hsplit, hid, hpre, hcheck⟩ := getAchievementDefinitions_split
  have hfold := foldl_checkAchievement_unlock clock pre post a (logged, [])
    (by rw [hid]; exact hpre) (by rw [hid]; exact hnot)
    (by
      rw [hcheck, (foldl_checkAchievement_facts clock "" pre (logged, [])).1, hrec]
      rfl)
  rw [h, checkAchievements, hsplit]
  rw [hlogged] at hfold
  exact hfold

theorem awardAll_snoc (engine : GamificationEngine) (toDateString : String → String)
    (clock : Clock) (stats : Stats) (actions : List String) (action : String) :
    awardAll engine toDateString clock stats (actions ++ [action])
      = (engine.awardXP toDateString clock
          (awardAll engine toDateString clock stats actions) action none).1 := by
  simp only [awardAll, List.foldl_append, List.foldl_cons, List.foldl_nil]

theorem awardAll_overflow (engine : GamificationEngine) (toDateString : String → String)
    (clock : Clock) (actions : List String)
    (hcount : actions.count "perfectRecall" = 9) (hlen : 99 ≤ actions.length) :
    Reachable engine toDateString
      (awardAll engine toDateString clock Stats.fresh (actions ++ ["perfectRecall"])) ∧
    101 ≤ (awardAll engine toDateString clock Stats.fresh
      (actions ++ ["perfectRecall"])).history.length := by
  have hreach := awardAll_reachable engine toDateString clock actions Stats.fresh
    Reachable.fresh
  obtain ⟨hrecalls, hhist⟩ := awardAll_facts engine toDateString clock actions Stats.fresh
  rw [hcount] at hrecalls
  have h0 : Stats.fresh.history.length = 0 := rfl
  have hp0 : Stats.fresh.perfectRecalls = 0 := rfl
  rw [h0] at hhist
  rw [hp0] at hrecalls
  have hnot : "perfect_memory" ∉
      (awardAll engine toDateString clock Stats.fresh actions).achievements := by
    intro hmem
    have := reachable_perfect_memory _ _ _ hreach hmem
    omega
  rw [awardAll_snoc]
  refine ⟨Reachable.award _ clock "perfectRecall" none hreach, ?_⟩
  apply awardXP_overflow _ toDateString clock _ none _ _ hnot
  · have : min (0 + actions.length) 100 ≥ 99 := by
      simp only [zero_add]
      omega
    omega
  · omega

/-! ## History of the gamification statistics -/

/-- C21, failing input: from fresh statistics, after 99 calls `awardXP('dailyLogin')` and
10 calls `awardXP('perfectRecall')`, the stored history has at least 101 entries: the
tenth perfect recall unlocks `perfect_memory` in `checkAchievements`, which pushes its
history entry after the trim to 100. -/
theorem awardXP_history_exceeds (toDateString : String → String) (clock : Clock) :
    Reachable (GamificationEngine.new "u") toDateString
      (awardAll (GamificationEngine.new "u") toDateString clock Stats.fresh
        (List.replicate 99 "dailyLogin" ++ List.replicate 10 "perfectRecall")) ∧
    101 ≤ (awardAll (GamificationEngine.new "u") toDateString clock Stats.fresh
        (List.replicate 99 "dailyLogin" ++ List.replicate 10 "perfectRecall")).history.length := by
  have hactions : List.replicate 99 "dailyLogin" ++ List.replicate 10 "perfectRecall"
      = (List.replicate 99 "dailyLogin" ++ List.replicate 9 "perfectRecall")
        ++ ["perfectRecall"] := by
    rw [List.append_assoc]
    rfl
  rw [hactions]
  exact awardAll_overflow _ toDateString clock _
    (by simp [List.count_append, List.count_replicate]) (by simp)

end Gamification

namespace Utility

/-! ## Longest streak -/

theorem dayDiff_eq_one (prevDay currDay : ℤ) :
    dayDiff prevDay currDay = 1 ↔ currDay = prevDay + 1 := by
  unfold dayDiff dateOfDay msPerDay
  have h : ((1000 * 60 * 60 * 24 : ℤ) : ℚ) ≠ 0 := by norm_num
  rw [div_eq_iff h]
  constructor
  · intro heq
    have h2 : currDay * (1000 * 60 * 60 * 24) - prevDay * (1000 * 60 * 60 * 24)
        = 1 * (1000 * 60 * 60 * 24 : ℤ) := by
      exact_mod_cast heq
    omega
  · intro heq
    subst heq
    push_cast
    ring

theorem consecutiveDays_cons_cons (prevDay currDay : ℤ) (rest : List ℤ) :
    consecutiveDays (prevDay :: currDay :: rest) = true ↔
      currDay = prevDay + 1 ∧ consecutiveDays (currDay :: rest) = true := by
  simp [consecutiveDays]

theorem consecutiveDays_tail (day : ℤ) (rest : List ℤ)
    (h : consecutiveDays (day :: rest) = true) : consecutiveDays rest = true := by
  cases rest with
  | nil => rfl
  | cons currDay rest => exact ((consecutiveDays_cons_cons day currDay rest).mp h).2

theorem streakLoop_spec (rest : List ℤ) :
    ∀ (maxStreak currentStreak : ℕ) (prevDay : ℤ), 1 ≤ currentStreak →
      currentStreak ≤ maxStreak →
      maxStreak ≤ streakLoop maxStreak currentStreak prevDay rest ∧
      (∀ run : List ℤ, run <+: prevDay :: rest → consecutiveDays run = true → run ≠ [] →
        currentStreak - 1 + run.length ≤ streakLoop maxStreak currentStreak prevDay rest) ∧
      (∀ run : List ℤ, run <:+: prevDay :: rest → consecutiveDays run = true →
        run.length ≤ streakLoop maxStreak currentStreak prevDay rest) ∧
      (streakLoop maxStreak currentStreak prevDay rest = maxStreak ∨
        (∃ run : List ℤ, run <:+: prevDay :: rest ∧ consecutiveDays run = true ∧
          run.length = streakLoop maxStreak currentStreak prevDay rest) ∨
        (∃ run : List ℤ, run <+: prevDay :: rest ∧ consecutiveDays run = true ∧ run ≠ [] ∧
          currentStreak - 1 + run.length
            = streakLoop maxStreak currentStreak prevDay rest)) := by
  induction rest with
  | nil =>
    intro maxStreak currentStreak prevDay h1 h2
    have hpre : ∀ run : List ℤ, run <:+: [prevDay] → run.length ≤ 1 := by
      intro run hrun
      exact hrun.length_le
    refine ⟨le_refl _, ?_, ?_, Or.inl rfl⟩
    · intro run hrun _ _
      have := hpre run hrun.isInfix
      simp only [streakLoop]
      omega
    · intro run hrun _
      have := hpre run hrun
      simp only [streakLoop]
      omega
  | cons currDay rest ih =>
    intro maxStreak currentStreak prevDay h1 h2
    -- the two facts on prefixes and infixes follow from the others in both branches
    have hinfix : ∀ result : ℕ, maxStreak ≤ result →
        (∀ run : List ℤ, run <+: prevDay :: currDay :: rest → consecutiveDays run = true →
          run ≠ [] → currentStreak - 1 + run.length ≤ result) →
        (∀ run : List ℤ, run <:+: currDay :: rest → consecutiveDays run = true →
          run.length ≤ result) →
        ∀ run : List ℤ, run <:+: prevDay :: currDay :: rest → consecutiveDays run = true →
          run.length ≤ result := by
      intro result _ hprefix hrest run hrun hcons
      rcases List.infix_cons_iff.mp hrun with hp | hi
      · by_cases hnil : run = []
        · subst hnil
          exact Nat.zero_le _
        · have := hprefix run hp hcons hnil
          omega
      · exact hrest run hi hcons
    by_cases hdiff : dayDiff prevDay currDay = 1
    · have hnext : currDay = prevDay + 1 := (dayDiff_eq_one prevDay currDay).mp hdiff
      have hloop : streakLoop maxStreak currentStreak prevDay (currDay :: rest)
          = streakLoop (max maxStreak (currentStreak + 1)) (currentStreak + 1) currDay rest := by
        simp only [streakLoop, hdiff, if_true]
      rw [hloop]
      obtain ⟨ha, hc, hb, hd⟩ := ih (max maxStreak (currentStreak + 1)) (currentStreak + 1)
        currDay (by omega) (le_max_right _ _)
      have hmax : maxStreak ≤ streakLoop (max maxStreak (currentStreak + 1))
          (currentStreak + 1) currDay rest := le_trans (le_max_left _ _) ha
      have hprefix : ∀ run : List ℤ, run <+: prevDay :: currDay :: rest →
          consecutiveDays run = true → run ≠ [] →
          currentStreak - 1 + run.length ≤ streakLoop (max maxStreak (currentStreak + 1))
            (currentStreak + 1) currDay rest := by
        intro run hrun hcons hne
        cases run with
        | nil => exact absurd rfl hne
        | cons day tail =>
          obtain ⟨_, htail⟩ := List.cons_prefix_cons.mp hrun
          by_cases hnil : tail = []
          · subst hnil
            simp only [List.length_cons, List.length_nil]
            omega
          · have := hc tail htail (consecutiveDays_tail day tail hcons) hnil
            simp only [List.length_cons]
            omega
      refine ⟨hmax, hprefix, hinfix _ hmax hprefix hb, ?_⟩
      rcases hd with hd | ⟨run, hrun, hcons, hlen⟩ | ⟨run, hrun, hcons, hne, hlen⟩
      · rcases le_total maxStreak (currentStreak + 1) with hle | hle
        · have hmaxeq : max maxStreak (currentStreak + 1) = currentStreak + 1 :=
            max_eq_right hle
          refine Or.inr (Or.inr ⟨[prevDay, currDay], ?_, ?_, by simp, ?_⟩)
          · exact List.cons_prefix_cons.mpr ⟨rfl, List.cons_prefix_cons.mpr ⟨rfl, List.nil_prefix⟩⟩
          · exact (consecutiveDays_cons_cons prevDay currDay []).mpr ⟨hnext, rfl⟩
          · rw [hd, hmaxeq]
            simp only [List.length_cons, List.length_nil]
            omega
        · exact Or.inl (hd.trans (max_eq_left hle))
      · exact Or.inr (Or.inl ⟨run, List.infix_cons_iff.mpr (Or.inr hrun), hcons, hlen⟩)
      · cases run with
        | nil => exact absurd rfl hne
        | cons day tail =>
          obtain ⟨hday, _⟩ := List.cons_prefix_cons.mp hrun
          subst hday
          refine Or.inr (Or.inr ⟨prevDay :: day :: tail, ?_, ?_, by simp, ?_⟩)
          · exact List.cons_prefix_cons.mpr ⟨rfl, hrun⟩
          · exact (consecutiveDays_cons_cons prevDay day tail).mpr ⟨hnext, hcons⟩
          · rw [← hlen]
            simp only [List.length_cons]
            omega
    · have hnext : currDay ≠ prevDay + 1 := fun h => hdiff ((dayDiff_eq_one prevDay currDay).mpr h)
      have hloop : streakLoop maxStreak currentStreak prevDay (currDay :: rest)
          = streakLoop maxStreak 1 currDay rest := by
        simp only [streakLoop, hdiff, if_false]
      rw [hloop]
      obtain ⟨ha, hc, hb, hd⟩ := ih maxStreak 1 currDay (le_refl 1) (by omega)
      have hprefix : ∀ run : List ℤ, run <+: prevDay :: currDay :: rest →
          consecutiveDays run = true → run ≠ [] →
          currentStreak - 1 + run.length ≤ streakLoop maxStreak 1 currDay rest := by
        intro run hrun hcons hne
        cases run with
        | nil => exact absurd rfl hne
        | cons day tail =>
          obtain ⟨hday, htail⟩ := List.cons_prefix_cons.mp hrun
          subst hday
          cases tail with
          | nil =>
            simp only [List.length_cons, List.length_nil]
            omega
          | cons next tail =>
            obtain ⟨hnextDay, _⟩ := List.cons_prefix_cons.mp htail
            subst hnextDay
            exact absurd ((consecutiveDays_cons_cons day next tail).mp hcons).1 hnext
      refine ⟨ha, hprefix, hinfix _ ha hprefix hb, ?_⟩
      rcases hd with hd | ⟨run, hrun, hcons, hlen⟩ | ⟨run, hrun, hcons, _, hlen⟩
      · exact Or.inl hd
      · exact Or.inr (Or.inl ⟨run, List.infix_cons_iff.mpr (Or.inr hrun), hcons, hlen⟩)
      · refine Or.inr (Or.inl ⟨run, List.infix_cons_iff.mpr (Or.inr hrun.isInfix), hcons, ?_⟩)
        omega

/-- C22: `calculateStreak` returns the length of the longest run of consecutive days of the
list: it is 0 for the empty list, otherwise between 1 and the length of the list; every
contiguous part of the list whose entries are each one day after the previous one is at
most that long, and one such part has exactly that length. -/
theorem calculateStreak_longest_run (days run : List ℤ) (hrun : run <:+: days)
    (hcons : consecutiveDays run = true) :
    (if days = [] then calculateStreak days = 0
      else 1 ≤ calculateStreak days ∧ calculateStreak days ≤ days.length) ∧
    run.length ≤ calculateStreak days ∧
    ∃ best : List ℤ, best <:+: days ∧ consecutiveDays best = true ∧
      best.length = calculateStreak days := by
  cases days with
  | nil =>
    have hnil : run = [] := List.eq_nil_of_infix_nil hrun
    subst hnil
    exact ⟨by simp [calculateStreak], Nat.zero_le _, [], List.infix_refl _, rfl, rfl⟩
  | cons first rest =>
    obtain ⟨ha, _, hb, hd⟩ := streakLoop_spec rest 1 1 first (le_refl 1) (le_refl 1)
    have hbest : ∃ best : List ℤ, best <:+: first :: rest ∧ consecutiveDays best = true ∧
        best.length = calculateStreak (first :: rest) := by
      rcases hd with hd | ⟨best, hbest, hc, hlen⟩ | ⟨best, hbest, hc, _, hlen⟩
      · refine ⟨[first], ?_, rfl, ?_⟩
        · exact (List.cons_prefix_cons.mpr ⟨rfl, List.nil_prefix⟩).isInfix
        · simp only [calculateStreak, hd, List.length_cons, List.length_nil]
      · exact ⟨best, hbest, hc, hlen⟩
      · refine ⟨best, hbest.isInfix, hc, ?_⟩
        simp only [calculateStreak]
        omega
    refine ⟨?_, hb run hrun hcons, hbest⟩
    rw [if_neg (List.cons_ne_nil first rest)]
    refine ⟨ha, ?_⟩
    obtain ⟨best, hinf, _, hlen⟩ := hbest
    rw [← hlen]
    exact hinf.length_le

theorem calculateStreak_longest_run_witness :
    ([1, 2, 3] : List ℤ) <:+: [1, 2, 3, 5, 6, 9] ∧ consecutiveDays [1, 2, 3] = true ∧
    ((if ([1, 2, 3, 5, 6, 9] : List ℤ) = [] then calculateStreak [1, 2, 3, 5, 6, 9] = 0
      else 1 ≤ calculateStreak [1, 2, 3, 5, 6, 9] ∧
        calculateStreak [1, 2, 3, 5, 6, 9] ≤ ([1, 2, 3, 5, 6, 9] : List ℤ).length) ∧
    ([1, 2, 3] : List ℤ).length ≤ calculateStreak [1, 2, 3, 5, 6, 9] ∧
    ∃ best : List ℤ, best <:+: [1, 2, 3, 5, 6, 9] ∧ consecutiveDays best = true ∧
      best.length = calculateStreak [1, 2, 3, 5, 6, 9]) :=
  ⟨⟨[], [5, 6, 9], rfl⟩, by decide,
    calculateStreak_longest_run [1, 2, 3, 5, 6, 9] [1, 2, 3] ⟨[], [5, 6, 9], rfl⟩ (by decide)⟩

end Utility

namespace PalaceSize

open SpacedRepetition

/-! ## Working memory -/

theorem addAll_snoc {α : Type} (wm : WorkingMemory α) (added : List α) (item : α) :
    wm.addAll (added ++ [item]) = (wm.addAll added).add item := by
  simp only [WorkingMemory.addAll, List.foldl_append, List.foldl_cons, List.foldl_nil]

theorem addAll_state {α : Type} (c : ℕ) (hc : 1 ≤ c) (start : WorkingMemory α)
    (hcap : start.capacity = c) (hitems : start.items = []) (hload : start.load = 0)
    (added : List α) :
    (start.addAll added).capacity = c ∧
    (start.addAll added).items = added.drop (added.length - c) ∧
    (start.addAll added).load = added.length - c := by
  induction added using List.reverseRecOn with
  | nil =>
    simp only [WorkingMemory.addAll, List.foldl_nil, List.drop_nil, List.length_nil]
    exact ⟨hcap, hitems, by omega⟩
  | append_singleton added item ih =>
    obtain ⟨h1, h2, h3⟩ := ih
    rw [addAll_snoc]
    have hlen : (start.addAll added).items.length = min added.length c := by
      rw [h2, List.length_drop]
      omega
    unfold WorkingMemory.add
    by_cases hfull : (start.addAll added).items.length ≥ (start.addAll added).capacity
    · rw [if_pos hfull]
      rw [h1, hlen] at hfull
      have hge : c ≤ added.length := by omega
      refine ⟨h1, ?_, ?_⟩
      · show (start.addAll added).items.tail ++ [item] = _
        rw [h2, List.tail_drop, List.length_append, List.length_singleton]
        have hidx : added.length + 1 - c = added.length - c + 1 := by omega
        rw [hidx, List.drop_append_of_le_length (by omega)]
      · show (start.addAll added).load + 1 = _
        rw [h3, List.length_append, List.length_singleton]
        omega
    · rw [if_neg hfull]
      rw [h1, hlen] at hfull
      have hlt : added.length < c := by omega
      refine ⟨h1, ?_, ?_⟩
      · show (start.addAll added).items ++ [item] = _
        rw [h2, List.length_append, List.length_singleton]
        have hz : added.length - c = 0 := by omega
        have hz2 : added.length + 1 - c = 0 := by omega
        rw [hz, hz2, List.drop_zero, List.drop_zero]
      · show (start.addAll added).load = _
        rw [h3, List.length_append, List.length_singleton]
        omega

theorem addAll_facts {α : Type} (c : ℕ) (hc : 1 ≤ c) (start : WorkingMemory α)
    (hcap : start.capacity = c) (hitems : start.items = []) (hload : start.load = 0)
    (added : List α) :
    (start.addAll added).items = added.drop (added.length - min added.length c) ∧
    (start.addAll added).items.length = min added.length c ∧
    (start.addAll added).items.length ≤ c ∧
    JSNum.le (start.addAll added).getUtilization (JSNum.fin 1) = true ∧
    ((start.addAll added).getForgottenCount : ℤ) = max 0 ((added.length : ℤ) - (c : ℤ)) := by
  obtain ⟨h1, h2, h3⟩ := addAll_state c hc start hcap hitems hload added
  have hlen : (start.addAll added).items.length = min added.length c := by
    rw [h2, List.length_drop]
    omega
  have hdrop : added.length - min added.length c = added.length - c := by omega
  refine ⟨by rw [hdrop]; exact h2, hlen, by omega, ?_, ?_⟩
  · unfold WorkingMemory.getUtilization
    rw [h1, hlen]
    have hcq : ((c : ℕ) : ℚ) ≠ 0 := by
      have : (0 : ℚ) < (c : ℚ) := by exact_mod_cast hc
      exact ne_of_gt this
    simp only [JSNum.div, hcq, if_false, JSNum.le, decide_eq_true_eq]
    rw [div_le_one (by exact_mod_cast hc)]
    exact_mod_cast min_le_right _ _
  · unfold WorkingMemory.getForgottenCount
    rw [h3]
    omega

/-- C23: a `WorkingMemory` of capacity `c >= 1` is a bounded FIFO. After `n` calls of `add`
following construction, or following `clear()` on any state, `items` is the list of the last
`min(n, c)` added items in insertion order, its length is at most `c`, `getUtilization()` is
at most 1 and `getForgottenCount()` is `max(0, n - c)`. -/
theorem workingMemory_bounded_fifo {α : Type} (c : ℕ) (prior : WorkingMemory α)
    (added : List α) (hc : 1 ≤ c) (hprior : prior.capacity = c) :
    (((WorkingMemory.new c).addAll added).items
        = added.drop (added.length - min added.length c) ∧
      ((WorkingMemory.new c).addAll added).items.length = min added.length c ∧
      ((WorkingMemory.new c).addAll added).items.length ≤ c ∧
      JSNum.le ((WorkingMemory.new c).addAll added).getUtilization (JSNum.fin 1) = true ∧
      (((WorkingMemory.new c).addAll added).getForgottenCount : ℤ)
        = max 0 ((added.length : ℤ) - (c : ℤ))) ∧
    ((prior.clear.addAll added).items = added.drop (added.length - min added.length c) ∧
      (prior.clear.addAll added).items.length = min added.length c ∧
      (prior.clear.addAll added).items.length ≤ c ∧
      JSNum.le (prior.clear.addAll added).getUtilization (JSNum.fin 1) = true ∧
      ((prior.clear.addAll added).getForgottenCount : ℤ)
        = max 0 ((added.length : ℤ) - (c : ℤ))) :=
  ⟨addAll_facts c hc (WorkingMemory.new c) rfl rfl rfl added,
    addAll_facts c hc prior.clear hprior rfl rfl added⟩

theorem workingMemory_bounded_fifo_witness :
    1 ≤ 2 ∧ (⟨2, [7, 8], 5⟩ : WorkingMemory ℕ).capacity = 2 ∧
    (((WorkingMemory.new 2).addAll [1, 2, 3]).items
        = [1, 2, 3].drop ([1, 2, 3].length - min [1, 2, 3].length 2) ∧
      ((WorkingMemory.new 2).addAll [1, 2, 3]).items.length = min [1, 2, 3].length 2 ∧
      ((WorkingMemory.new 2).addAll [1, 2, 3]).items.length ≤ 2 ∧
      JSNum.le ((WorkingMemory.new 2).addAll [1, 2, 3]).getUtilization (JSNum.fin 1) = true ∧
      (((WorkingMemory.new 2).addAll [1, 2, 3]).getForgottenCount : ℤ)
        = max 0 ((([1, 2, 3] : List ℕ).length : ℤ) - ((2 : ℕ) : ℤ))) ∧
    (((⟨2, [7, 8], 5⟩ : WorkingMemory ℕ).clear.addAll [1, 2, 3]).items
        = [1, 2, 3].drop ([1, 2, 3].length - min [1, 2, 3].length 2) ∧
      ((⟨2, [7, 8], 5⟩ : WorkingMemory ℕ).clear.addAll [1, 2, 3]).items.length
        = min [1, 2, 3].length 2 ∧
      ((⟨2, [7, 8], 5⟩ : WorkingMemory ℕ).clear.addAll [1, 2, 3]).items.length ≤ 2 ∧
      JSNum.le ((⟨2, [7, 8], 5⟩ : WorkingMemory ℕ).clear.addAll [1, 2, 3]).getUtilization
        (JSNum.fin 1) = true ∧
      (((⟨2, [7, 8], 5⟩ : WorkingMemory ℕ).clear.addAll [1, 2, 3]).getForgottenCount : ℤ)
        = max 0 ((([1, 2, 3] : List ℕ).length : ℤ) - ((2 : ℕ) : ℤ))) :=
  ⟨by decide, rfl,
    workingMemory_bounded_fifo 2 (⟨2, [7, 8], 5⟩ : WorkingMemory ℕ) [1, 2, 3] (by decide) rfl⟩

/-! ## Generated palaces -/

/-- C24, failing input: `PALACES.hierarchical.generate()` returns 13 loci, with the ids
0..12, while the entry declares `loci: 15`. The other three palace types return as many
loci as they declare, with the ids 0..loci-1, and in all four palaces every connection is
the id of a generated locus. -/
theorem hierarchical_generate_thirteen (rng : ℕ → ℚ) :
    PALACES.hierarchical.loci = 15 ∧
    (PALACES.hierarchical.generate rng).length = 13 ∧
    locusIds (PALACES.hierarchical.generate rng) = List.range 13 ∧
    connectionsExist (PALACES.hierarchical.generate rng) = true ∧
    (PALACES.small.generate rng).length = PALACES.small.loci ∧
    locusIds (PALACES.small.generate rng) = List.range PALACES.small.loci ∧
    connectionsExist (PALACES.small.generate rng) = true ∧
    (PALACES.medium.generate rng).length = PALACES.medium.loci ∧
    locusIds (PALACES.medium.generate rng) = List.range PALACES.medium.loci ∧
    connectionsExist (PALACES.medium.generate rng) = true ∧
    (PALACES.large.generate rng).length = PALACES.large.loci ∧
    locusIds (PALACES.large.generate rng) = List.range PALACES.large.loci ∧
    connectionsExist (PALACES.large.generate rng) = true := by
  refine ⟨rfl, rfl, rfl, rfl, rfl, rfl, rfl, rfl, rfl, rfl, rfl, rfl, rfl⟩

end PalaceSize

namespace Hooks

open SpacedRepetition

/-! ## Interruption budget -/

theorem sessionTimeout_facts (budget : InterruptionBudget) (times : CheckTimes) :
    (budget.sessionTimeout times).maxPerSession = budget.maxPerSession ∧
    ((budget.sessionTimeout times).used = budget.used ∨
      (budget.sessionTimeout times).used = 0) := by
  unfold InterruptionBudget.sessionTimeout
  split_ifs
  · exact ⟨rfl, Or.inr rfl⟩
  · exact ⟨rfl, Or.inl rfl⟩

theorem canInterrupt_state (budget : InterruptionBudget) (times : CheckTimes) :
    (budget.canInterrupt times).1 = budget.sessionTimeout times := by
  unfold InterruptionBudget.canInterrupt
  split_ifs
  · rfl
  · split
    · split_ifs
      · rfl
      · rfl
    · rfl

theorem canInterrupt_true (budget : InterruptionBudget) (times : CheckTimes)
    (h : (budget.canInterrupt times).2 = true) :
    ¬ JSNum.le (budget.sessionTimeout times).maxPerSession
      (JSNum.fin ((budget.sessionTimeout times).used : ℚ)) = true := by
  unfold InterruptionBudget.canInterrupt at h
  split_ifs at h with hfull
  exact hfull

theorem canInterrupt_facts (budget : InterruptionBudget) (times : CheckTimes) :
    (budget.canInterrupt times).1.maxPerSession = budget.maxPerSession ∧
    ((budget.canInterrupt times).1.used = budget.used ∨
      (budget.canInterrupt times).1.used = 0) ∧
    ((budget.canInterrupt times).2 = true →
      ¬ JSNum.le budget.maxPerSession
        (JSNum.fin ((budget.canInterrupt times).1.used : ℚ)) = true) := by
  rw [canInterrupt_state]
  obtain ⟨hmax, hused⟩ := sessionTimeout_facts budget times
  refine ⟨hmax, hused, ?_⟩
  intro h
  have := canInterrupt_true budget times h
  rw [hmax] at this
  exact this

theorem reachable_inv (budget : InterruptionBudget) (h : Reachable budget) :
    0 ≤ budget.used ∧
    ∀ q : ℚ, budget.maxPerSession = JSNum.fin q → 0 ≤ q → (budget.used : ℚ) < q + 1 := by
  induction h with
  | new now maxPerSession cooldownMinutes =>
    refine ⟨le_refl _, fun q _ hq => ?_⟩
    show ((0 : ℤ) : ℚ) < q + 1
    push_cast
    linarith
  | reset budget now _ _ =>
    refine ⟨le_refl _, fun q _ hq => ?_⟩
    show ((0 : ℤ) : ℚ) < q + 1
    push_cast
    linarith
  | canInterrupt budget times _ ih =>
    obtain ⟨hmax, hused, _⟩ := canInterrupt_facts budget times
    rw [hmax]
    rcases hused with hused | hused
    · rw [hused]
      exact ih
    · rw [hused]
      refine ⟨le_refl _, fun q _ hq => ?_⟩
      push_cast
      linarith
  | recordInterruption budget times now _ hcan ih =>
    obtain ⟨hmax, hused, hlt⟩ := canInterrupt_facts budget times
    have hlt := hlt hcan
    have hrec : ((budget.canInterrupt times).1.recordInterruption now).used
        = (budget.canInterrupt times).1.used + 1 := rfl
    have hrecmax : ((budget.canInterrupt times).1.recordInterruption now).maxPerSession
        = budget.maxPerSession := hmax
    rw [hrec, hrecmax]
    have hnonneg : 0 ≤ (budget.canInterrupt times).1.used := by
      rcases hused with hused | hused
      · rw [hused]
        exact ih.1
      · rw [hused]
    refine ⟨by omega, fun q hq _ => ?_⟩
    rw [hq] at hlt
    simp only [JSNum.le, decide_eq_true_eq, not_le] at hlt
    push_cast
    linarith
  | getStatus budget times _ ih =>
    have hstate : (budget.getStatus times).1 = (budget.canInterrupt times).1 := rfl
    rw [hstate]
    obtain ⟨hmax, hused, _⟩ := canInterrupt_facts budget times
    rw [hmax]
    rcases hused with hused | hused
    · rw [hused]
      exact ih
    · rw [hused]
      refine ⟨le_refl _, fun q _ hq => ?_⟩
      push_cast
      linarith

theorem processMessage_reachable (budget : InterruptionBudget) (times : CheckTimes) (now : ℤ)
    (topicHook learningHook : Bool) (h : Reachable budget) :
    Reachable (processMessage budget times now topicHook learningHook) := by
  unfold processMessage
  split_ifs with h1 h2 h3
  · exact Reachable.canInterrupt budget times h
  · exact Reachable.recordInterruption budget times now h (by simpa using h1)
  · exact Reachable.recordInterruption budget times now h (by simpa using h1)
  · exact Reachable.canInterrupt budget times h

theorem onSessionStart_reachable (budget : InterruptionBudget) (times : CheckTimes) (now : ℤ)
    (due : Bool) (h : Reachable budget) :
    Reachable (onSessionStart budget times now due) := by
  unfold onSessionStart
  split_ifs with h1 h2
  · exact Reachable.recordInterruption budget times now h h2
  · exact Reachable.canInterrupt budget times h
  · exact h

theorem interruptAt_reachable (budget : InterruptionBudget) (now : ℤ)
    (h : Reachable budget) (hcan : (budget.canInterrupt ⟨now, now, now⟩).2 = true) :
    Reachable (interruptAt budget now) :=
  Reachable.recordInterruption budget ⟨now, now, now⟩ now h hcan

theorem sampleBudget_reachable : Reachable sampleBudget :=
  interruptAt_reachable _ 1000 (Reachable.new 0 (some (JSNum.fin 1)) none) (by decide!)

theorem fractionalBudget_reachable : Reachable fractionalBudget :=
  interruptAt_reachable _ 2000000
    (interruptAt_reachable _ 1000000
      (interruptAt_reachable _ 0 (Reachable.new 0 (some (JSNum.fin (5 / 2))) none)
        (by decide!))
      (by decide!))
    (by decide!)

/-- C26, as stated, fails: `new InterruptionBudget(2.5)` has `maxPerSession >= 0`, and
three calls of `recordInterruption()`, each right after a `canInterrupt()` that returned
true, lead to `used = 3 > 2.5`; `getStatus().remaining` is then `-0.5`. -/
theorem used_exceeds_fractional_maxPerSession :
    Reachable fractionalBudget ∧
    fractionalBudget.maxPerSession = JSNum.fin (5 / 2) ∧
    JSNum.le (JSNum.fin 0) fractionalBudget.maxPerSession = true ∧
    fractionalBudget.used = 3 ∧
    JSNum.lt fractionalBudget.maxPerSession (JSNum.fin (fractionalBudget.used : ℚ)) = true ∧
    (fractionalBudget.getStatus ⟨3000000, 3000000, 3000000⟩).2.remaining
      = JSNum.fin (-1 / 2) :=
  ⟨fractionalBudget_reachable, by decide!, by decide!, by decide!, by decide!, by decide!⟩

/-- C26, amended: in every state of an `InterruptionBudget` whose `maxPerSession` is a
whole number `m >= 0` that is reached by calls of `reset`, `canInterrupt`, `getStatus` and
by calls of `recordInterruption` made right after a `canInterrupt()` that returned true,
`used` is at most `m` and the `remaining` of `getStatus()` is `m - used`, which is not
negative; `processMessage` and `onSessionStart` lead from such a state to such a state. -/
theorem used_le_maxPerSession (budget : InterruptionBudget) (m : ℤ) (times : CheckTimes)
    (now : ℤ) (topicHook learningHook due : Bool)
    (hmax : budget.maxPerSession = JSNum.fin (m : ℚ)) (hm : 0 ≤ m)
    (hreach : Reachable budget) :
    budget.used ≤ m ∧
    (budget.getStatus times).2.remaining = JSNum.fin ((m - budget.used : ℤ) : ℚ) ∧
    JSNum.le (JSNum.fin 0) (budget.getStatus times).2.remaining = true ∧
    Reachable (processMessage budget times now topicHook learningHook) ∧
    Reachable (onSessionStart budget times now due) := by
  have hlt := (reachable_inv budget hreach).2 (m : ℚ) hmax (by exact_mod_cast hm)
  have hle : budget.used ≤ m := by
    have h2 : (budget.used : ℚ) < ((m + 1 : ℤ) : ℚ) := by
      push_cast
      exact hlt
    have h3 : budget.used < m + 1 := by exact_mod_cast h2
    omega
  have hrem : (budget.getStatus times).2.remaining
      = JSNum.fin ((m - budget.used : ℤ) : ℚ) := by
    show JSNum.sub budget.maxPerSession (JSNum.fin (budget.used : ℚ)) = _
    rw [hmax]
    simp only [JSNum.sub, JSNum.neg, JSNum.add]
    push_cast
    congr 1
    ring
  refine ⟨hle, hrem, ?_, processMessage_reachable budget times now topicHook learningHook hreach,
    onSessionStart_reachable budget times now due hreach⟩
  rw [hrem]
  simp only [JSNum.le, decide_eq_true_eq]
  have : (0 : ℤ) ≤ m - budget.used := by omega
  exact_mod_cast this

theorem used_le_maxPerSession_witness :
    sampleBudget.maxPerSession = JSNum.fin ((1 : ℤ) : ℚ) ∧ (0 : ℤ) ≤ 1 ∧
    Reachable sampleBudget ∧
    (sampleBudget.used ≤ 1 ∧
      (sampleBudget.getStatus ⟨3000, 3000, 3000⟩).2.remaining
        = JSNum.fin ((1 - sampleBudget.used : ℤ) : ℚ) ∧
      JSNum.le (JSNum.fin 0) (sampleBudget.getStatus ⟨3000, 3000, 3000⟩).2.remaining = true ∧
      Reachable (processMessage sampleBudget ⟨3000, 3000, 3000⟩ 4000 true false) ∧
      Reachable (onSessionStart sampleBudget ⟨3000, 3000, 3000⟩ 4000 true)) :=
  ⟨by decide!, by decide, sampleBudget_reachable,
    used_le_maxPerSession sampleBudget 1 ⟨3000, 3000, 3000⟩ 4000 true false true (by decide!)
      (by decide) sampleBudget_reachable⟩

end Hooks

namespace CrossPalace

/-! ## Maps as entry lists -/

theorem mapSet_keys {V : Type} (m : List (String × V)) (key : String) (value : V) :
    (mapSet m key value).map Prod.fst
      = if key ∈ m.map Prod.fst then m.map Prod.fst else m.map Prod.fst ++ [key] := by
  induction m with
  | nil => simp [mapSet]
  | cons entry rest ih =>
    by_cases h : entry.1 = key
    · simp [mapSet, h]
    · have hne : ¬ key = entry.1 := fun h2 => h h2.symm
      simp only [mapSet, h, if_false, List.map_cons, ih, List.mem_cons, hne, false_or]
      split_ifs <;> simp

theorem mapSet_nodup {V : Type} (m : List (String × V)) (key : String) (value : V)
    (h : (m.map Prod.fst).Nodup) : ((mapSet m key value).map Prod.fst).Nodup := by
  rw [mapSet_keys]
  split_ifs with hmem
  · exact h
  · rw [List.nodup_append]
    refine ⟨h, List.nodup_singleton key, ?_⟩
    intro a ha hb
    rw [List.mem_singleton] at hb
    subst hb
    exact hmem ha

theorem lookup_mapSet_self {V : Type} (m : List (String × V)) (key : String) (value : V) :
    (mapSet m key value).lookup key = some value := by
  induction m with
  | nil => simp [mapSet, List.lookup]
  | cons entry rest ih =>
    by_cases h : entry.1 = key
    · simp [mapSet, h, List.lookup]
    · have hne : (key == entry.1) = false := by
        simpa using fun h2 : key = entry.1 => h h2.symm
      simp only [mapSet, h, if_false]
      rw [show entry = (entry.1, entry.2) from rfl, List.lookup_cons, hne]
      exact ih

theorem lookup_mapSet_ne {V : Type} (m : List (String × V)) (key other : String) (value : V)
    (hne : other ≠ key) : (mapSet m key value).lookup other = m.lookup other := by
  induction m with
  | nil =>
    have h : (other == key) = false := by simpa using hne
    simp [mapSet, List.lookup, h]
  | cons entry rest ih =>
    by_cases h : entry.1 = key
    · have h1 : (other == key) = false := by simpa using hne
      have h2 : (other == entry.1) = false := by rw [h]; exact h1
      simp only [mapSet, h, if_true]
      rw [List.lookup_cons, h1]
      rw [show entry = (entry.1, entry.2) from rfl, List.lookup_cons, h2]
    · simp only [mapSet, h, if_false]
      rw [show entry = (entry.1, entry.2) from rfl, List.lookup_cons, List.lookup_cons, ih]

theorem lookup_of_mem {V : Type} (m : List (String × V)) (key : String) (value : V)
    (hnodup : (m.map Prod.fst).Nodup) (hmem : (key, value) ∈ m) :
    m.lookup key = some value := by
  induction m with
  | nil => exact absurd hmem (List.not_mem_nil _)
  | cons entry rest ih =>
    rw [List.map_cons, List.nodup_cons] at hnodup
    rcases List.mem_cons.mp hmem with heq | hrest
    · subst heq
      simp [List.lookup]
    · have hne : (key == entry.1) = false := by
        have : key ≠ entry.1 := by
          intro heq
          apply hnodup.1
          rw [← heq]
          exact List.mem_map_of_mem Prod.fst hrest
        simpa using this
      rw [show entry = (entry.1, entry.2) from rfl, List.lookup_cons, hne]
      exact ih hnodup.2 hrest

/-! ## The index -/

theorem indexMemory_nodup (ops : TextOps) (palace : Palace) (locus : Locus)
    (linker : CrossPalaceLinker) (memory : Memory)
    (h : (linker.palaceIndex.map Prod.fst).Nodup) :
    ((indexMemory ops palace locus linker memory).palaceIndex.map Prod.fst).Nodup :=
  mapSet_nodup _ _ _ h

theorem indexLocus_nodup (ops : TextOps) (palace : Palace) (locus : Locus)
    (linker : CrossPalaceLinker) (h : (linker.palaceIndex.map Prod.fst).Nodup) :
    ((indexLocus ops palace linker locus).palaceIndex.map Prod.fst).Nodup := by
  unfold indexLocus
  cases locus.memories with
  | none => exact h
  | some memories =>
    show ((memories.foldl (indexMemory ops palace locus) linker).palaceIndex.map
      Prod.fst).Nodup
    induction memories generalizing linker with
    | nil => exact h
    | cons memory rest ih =>
      rw [List.foldl_cons]
      exact ih _ (indexMemory_nodup ops palace locus linker memory h)

theorem indexPalace_nodup (ops : TextOps) (linker : CrossPalaceLinker) (palace : Palace)
    (h : (linker.palaceIndex.map Prod.fst).Nodup) :
    ((indexPalace ops linker palace).palaceIndex.map Prod.fst).Nodup := by
  unfold indexPalace
  cases palace.loci with
  | none => exact h
  | some loci =>
    show ((loci.foldl (indexLocus ops palace) linker).palaceIndex.map Prod.fst).Nodup
    induction loci generalizing linker with
    | nil => exact h
    | cons locus rest ih =>
      rw [List.foldl_cons]
      exact ih _ (indexLocus_nodup ops palace locus linker h)

theorem reachable_nodup (ops : TextOps) (linker : CrossPalaceLinker)
    (h : Reachable ops linker) : (linker.palaceIndex.map Prod.fst).Nodup := by
  induction h with
  | new config => exact List.nodup_nil
  | indexPalace linker palace _ ih => exact indexPalace_nodup ops linker palace ih
  | buildLinks linker _ ih => exact ih

/-! ## The links of one memory -/

theorem linkCandidates_mem (ops : TextOps) (config : Config) (i : ℕ) (dataA : IndexEntry)
    (rest : List (String × IndexEntry)) :
    ∀ (j : ℕ) (link : Link), link ∈ linkCandidates ops config i dataA j rest →
      config.similarityThreshold ≤ link.similarity ∧
      ∃ dataB : IndexEntry, (link.target, dataB) ∈ rest ∧ dataB.palace ≠ dataA.palace ∧
        link.palace = dataB.palace := by
  induction rest with
  | nil =>
    intro j link h
    simp [linkCandidates] at h
  | cons entry rest ih =>
    intro j link h
    obtain ⟨keyB, dataB⟩ := entry
    have hrest : link ∈ linkCandidates ops config i dataA (j + 1) rest →
        config.similarityThreshold ≤ link.similarity ∧
        ∃ dataB' : IndexEntry, (link.target, dataB') ∈ (keyB, dataB) :: rest ∧
          dataB'.palace ≠ dataA.palace ∧ link.palace = dataB'.palace := by
      intro h2
      obtain ⟨h3, d, h4, h5⟩ := ih (j + 1) link h2
      exact ⟨h3, d, List.mem_cons_of_mem _ h4, h5⟩
    simp only [linkCandidates] at h
    split_ifs at h with h1 h2 h3
    · exact hrest h
    · exact hrest h
    · rcases List.mem_cons.mp h with heq | h4
      · subst heq
        exact ⟨h3, dataB, List.mem_cons_self _ _, fun h5 => h2 h5.symm, rfl⟩
      · exact hrest h4
    · exact hrest h

theorem bySimilarity_sorted (links : List Link) :
    (links.insertionSort bySimilarity).Sorted bySimilarity := by
  haveI : IsTotal Link bySimilarity := ⟨fun a b => le_total b.similarity a.similarity⟩
  haveI : IsTrans Link bySimilarity :=
    ⟨fun a b c hab hbc => le_trans (α := ℚ) hbc hab⟩
  exact List.sorted_insertionSort bySimilarity links

theorem linksFor_facts (ops : TextOps) (config : Config)
    (memories : List (String × IndexEntry)) (i : ℕ) (dataA : IndexEntry) :
    (linksFor ops config memories i dataA).length ≤ config.maxLinksPerMemory ∧
    (linksFor ops config memories i dataA).Sorted bySimilarity ∧
    ∀ link : Link, link ∈ linksFor ops config memories i dataA →
      config.similarityThreshold ≤ link.similarity ∧
      ∃ dataB : IndexEntry, (link.target, dataB) ∈ memories ∧
        dataB.palace ≠ dataA.palace ∧ link.palace = dataB.palace := by
  unfold linksFor
  refine ⟨?_, ?_, ?_⟩
  · rw [List.length_take]
    exact min_le_left _ _
  · exact (bySimilarity_sorted _).sublist (List.take_sublist _ _)
  · intro link hlink
    have h1 := List.mem_of_mem_take hlink
    have h2 := (List.perm_insertionSort bySimilarity _).mem_iff.mp h1
    exact linkCandidates_mem ops config i dataA memories 0 link h2

/-! ## The link graph -/

theorem buildLoop_lookup_other (ops : TextOps) (config : Config)
    (memories : List (String × IndexEntry)) (rest : List (String × IndexEntry)) :
    ∀ (i : ℕ) (linkGraph : List (String × List Link)) (key : String),
      key ∉ rest.map Prod.fst →
      (buildLoop ops config memories i rest linkGraph).lookup key = linkGraph.lookup key := by
  induction rest with
  | nil =>
    intro i linkGraph key _
    rfl
  | cons entry rest ih =>
    intro i linkGraph key hkey
    obtain ⟨keyA, dataA⟩ := entry
    rw [List.map_cons, List.mem_cons, not_or] at hkey
    simp only [buildLoop]
    rw [ih (i + 1) _ key hkey.2]
    exact lookup_mapSet_ne _ _ _ _ hkey.1

theorem buildLoop_lookup (ops : TextOps) (config : Config)
    (memories : List (String × IndexEntry)) (rest : List (String × IndexEntry)) :
    ∀ (i : ℕ) (linkGraph : List (String × List Link)) (key : String),
      key ∈ rest.map Prod.fst →
      ∃ (j : ℕ) (dataA : IndexEntry), (key, dataA) ∈ rest ∧
        (buildLoop ops config memories i rest linkGraph).lookup key
          = some (linksFor ops config memories j dataA) := by
  induction rest with
  | nil =>
    intro i linkGraph key hkey
    simp at hkey
  | cons entry rest ih =>
    intro i linkGraph key hkey
    obtain ⟨keyA, dataA⟩ := entry
    by_cases hlater : key ∈ rest.map Prod.fst
    · obtain ⟨j, d, hmem, hlook⟩ := ih (i + 1)
        (mapSet linkGraph keyA (linksFor ops config memories i dataA)) key hlater
      exact ⟨j, d, List.mem_cons_of_mem _ hmem, by simp only [buildLoop]; exact hlook⟩
    · have hkeyA : key = keyA := by
        rw [List.map_cons, List.mem_cons] at hkey
        rcases hkey with h | h
        · exact h
        · exact absurd h hlater
      subst hkeyA
      refine ⟨i, dataA, List.mem_cons_self _ _, ?_⟩
      simp only [buildLoop]
      rw [buildLoop_lookup_other ops config memories rest (i + 1) _ key hlater]
      exact lookup_mapSet_self _ _ _

/-- C25: after `buildLinks`, every indexed key has a stored link list; the list has at most
`maxLinksPerMemory` links and is in non-increasing order of similarity, and each of its
links has a similarity of at least `similarityThreshold` and targets an indexed memory of
another palace than the source. -/
theorem buildLinks_links (ops : TextOps) (linker : CrossPalaceLinker) (key : String)
    (link : Link) (hreach : Reachable ops linker)
    (hkey : key ∈ linker.palaceIndex.map Prod.fst) :
    ∃ source : IndexEntry, linker.palaceIndex.lookup key = some source ∧
      ((buildLinks ops linker).linkGraph.lookup key).isSome = true ∧
      (linksOf (buildLinks ops linker) key).length ≤ linker.config.maxLinksPerMemory ∧
      (linksOf (buildLinks ops linker) key).Sorted bySimilarity ∧
      (if link ∈ linksOf (buildLinks ops linker) key then
        linker.config.similarityThreshold ≤ link.similarity ∧
        ∃ target : IndexEntry, linker.palaceIndex.lookup link.target = some target ∧
          target.palace ≠ source.palace ∧ link.palace = target.palace
      else True) := by
  have hnodup := reachable_nodup ops linker hreach
  obtain ⟨j, dataA, hmem, hlook⟩ := buildLoop_lookup ops linker.config linker.palaceIndex
    linker.palaceIndex 0 linker.linkGraph key hkey
  obtain ⟨hlen, hsorted, hlinks⟩ := linksFor_facts ops linker.config linker.palaceIndex j dataA
  have hgraph : (buildLinks ops linker).linkGraph.lookup key
      = some (linksFor ops linker.config linker.palaceIndex j dataA) := hlook
  have hof : linksOf (buildLinks ops linker) key
      = linksFor ops linker.config linker.palaceIndex j dataA := by
    unfold linksOf
    rw [hgraph]
    rfl
  refine ⟨dataA, lookup_of_mem _ _ _ hnodup hmem, ?_, ?_, ?_, ?_⟩
  · rw [hgraph]
    rfl
  · rw [hof]
    exact hlen
  · rw [hof]
    exact hsorted
  · rw [hof]
    split_ifs with hlink
    obtain ⟨hsim, dataB, hB, hpalace⟩ := hlinks link hlink
    exact ⟨hsim, dataB, lookup_of_mem _ _ _ hnodup hB, hpalace⟩

set_option maxRecDepth 100000 in
theorem buildLinks_links_witness :
    Reachable sampleOps sampleLinker ∧ "P::m1" ∈ sampleLinker.palaceIndex.map Prod.fst ∧
    ∃ source : IndexEntry, sampleLinker.palaceIndex.lookup "P::m1" = some source ∧
      ((buildLinks sampleOps sampleLinker).linkGraph.lookup "P::m1").isSome = true ∧
      (linksOf (buildLinks sampleOps sampleLinker) "P::m1").length
        ≤ sampleLinker.config.maxLinksPerMemory ∧
      (linksOf (buildLinks sampleOps sampleLinker) "P::m1").Sorted bySimilarity ∧
      (if (⟨"Q::m2", "Q", "B", "cache pattern", 1⟩ : Link)
          ∈ linksOf (buildLinks sampleOps sampleLinker) "P::m1" then
        sampleLinker.config.similarityThreshold
          ≤ (⟨"Q::m2", "Q", "B", "cache pattern", 1⟩ : Link).similarity ∧
        ∃ target : IndexEntry,
          sampleLinker.palaceIndex.lookup (⟨"Q::m2", "Q", "B", "cache pattern", 1⟩ : Link).target
            = some target ∧
          target.palace ≠ source.palace ∧
          (⟨"Q::m2", "Q", "B", "cache pattern", 1⟩ : Link).palace = target.palace
      else True) :=
  ⟨Reachable.indexPalace _ samplePalaceQ
      (Reachable.indexPalace _ samplePalaceP (Reachable.new ⟨none, none, none⟩)),
    by decide,
    buildLinks_links sampleOps sampleLinker "P::m1" ⟨"Q::m2", "Q", "B", "cache pattern", 1⟩
      (Reachable.indexPalace _ samplePalaceQ
        (Reachable.indexPalace _ samplePalaceP (Reachable.new ⟨none, none, none⟩)))
      (by decide)⟩

end CrossPalace
